import Mathlib

/-!
# Module evaluation core of OpenSCAD (`src/module.cc`)

A shallow embedding of `module.cc`: the instantiation tree, user modules, the
default (`group`) module, the geometry node tree, the two mutually recursive
evaluators `ModuleInstanciation::evaluate` and `Module::evaluate`, the dumps
`ModuleInstanciation::dump` and `Module::dump`, and the registry of built-in
modules, followed by theorems about them.

Modelling conventions.

* `QString` is `String`; `QVector<T>` is `List T`; `QHash<QString, T>` is an
  association list read through `QHash.value` and written through
  `QHash.insert` (insert-or-overwrite).
* Scopes (`Context`) live in a store, a list of scopes addressed by position.
  `Context c(ctx)` pushes a scope, returning from `Module::evaluate` pops it.
  A `const Context *` is an address into that store.
* Expressions are a type parameter `E`: `Expression::evaluate` and
  `Expression::dump` are defined outside `module.cc` and are passed in as the
  functions `ev` and `dumpE`. User functions are a type parameter `F`.
* The recursion between the two evaluators is not bounded by the size of the
  instantiation tree (a module may instantiate itself), so the evaluators take
  a step bound and report `Fault.outOfFuel` when it is used up.
* An index past the end of a `QVector` is reported as `Fault.outOfRange`.
* The assignment `c.variables[name] = expr->evaluate(&c)` of `Module::evaluate`
  does not fix which of its two operands runs first, and the subscript creates
  an entry for a name that has none. The evaluators take the order as the
  parameter `entry_first`, and the theorems hold for both orders unless they
  name one.
-/

namespace OpenSCAD

/-! ## Data model -/

/-- Association-list model of `QHash<QString, T>`. -/
abbrev QHash (α : Type) := List (String × α)

/-- Model of `QHash::value` as a lookup: the entry stored under `k`, if any. -/
def QHash.value {α : Type} (m : QHash α) (k : String) : Option α :=
  match m with
  | [] => none
  | (k', v) :: rest => if k' = k then some v else QHash.value rest k

/-- Model of `hash[k] = v`: insert, or overwrite the entry stored under `k`. -/
def QHash.insert {α : Type} (m : QHash α) (k : String) (v : α) : QHash α :=
  (k, v) :: m.filter (fun p => decide (p.1 ≠ k))

/-- Modelled from the spec: the `Value` class is declared outside `module.cc`.
The spec gives it as a tagged variant of undefined, number, boolean, string and
vector of values; numbers are integers here. -/
inductive Value where
  | undefined
  | number (n : Int)
  | boolean (b : Bool)
  | string (s : String)
  | vector (vs : List Value)

/-- The geometry node `AbstractNode`: at this layer only its `children`. -/
inductive AbstractNode where
  | mk (children : List AbstractNode)

/-- The `children` member of an `AbstractNode`. -/
def AbstractNode.children : AbstractNode → List AbstractNode
  | .mk cs => cs

/-- The instantiation node `ModuleInstanciation`, with the members that
`module.cc` reads: `label`, `modname`, `argnames`, `argexpr`, `children`. -/
inductive ModuleInstanciation (E : Type) where
  | mk (label modname : String) (argnames : List String) (argexpr : List E)
      (children : List (ModuleInstanciation E))

namespace ModuleInstanciation

/-- Member `label`. -/
def label {E : Type} : ModuleInstanciation E → String
  | .mk l _ _ _ _ => l

/-- Member `modname`. -/
def modname {E : Type} : ModuleInstanciation E → String
  | .mk _ m _ _ _ => m

/-- Member `argnames`. -/
def argnames {E : Type} : ModuleInstanciation E → List String
  | .mk _ _ a _ _ => a

/-- Member `argexpr`. -/
def argexpr {E : Type} : ModuleInstanciation E → List E
  | .mk _ _ _ a _ => a

/-- Member `children`. -/
def children {E : Type} : ModuleInstanciation E → List (ModuleInstanciation E)
  | .mk _ _ _ _ c => c

end ModuleInstanciation

/-- The user construct `Module`. `M` is the type stored in the nested
construct table `modules` (an `AbstractModule *`); it is tied to
`AbstractModule` below. An entry of `argexpr` is `none` for a null pointer
(a formal without a default). -/
structure Module (E F M : Type) where
  argnames : List String
  argexpr : List (Option E)
  assignments_var : List String
  assignments_expr : List E
  functions : List (String × F)
  modules : List (String × M)
  children : List (ModuleInstanciation E)

/-- The class hierarchy under `AbstractModule`, as far as `module.cc` defines
it: the base class itself (registered as `group`) and the subclass `Module`. -/
inductive AbstractModule (E F : Type) where
  | abstract
  | module (m : Module E F (AbstractModule E F))

/-- The scope `Context`. `parent` is the address of the enclosing scope;
`variables_` is the member `variables` (a reserved word here); `functions_p`
and `modules_p` are the (nullable) pointers to the tables of the module under
evaluation, modelled by the tables themselves. -/
structure Context (E F : Type) where
  parent : Option Nat
  variables_ : QHash Value
  functions_p : Option (QHash F)
  modules_p : Option (QHash (AbstractModule E F))

/-- The scopes alive at some point of the evaluation, addressed by position. -/
abbrev Store (E F : Type) := List (Context E F)

/-- Why an evaluation produced no node. -/
inductive Fault where
  | outOfFuel
  | outOfRange
  deriving DecidableEq, Repr

/-! ## Scopes -/

/-- Modelled from the spec: the constructor `Context(parent)` is defined outside
`module.cc`. A new scope has the given parent and empty tables. -/
def Context.new {E F : Type} (parent : Nat) : Context E F :=
  { parent := some parent, variables_ := [], functions_p := none, modules_p := none }

/-- Apply `f` to the scope at address `c`, leaving every other scope alone. -/
def Store.update {E F : Type} (st : Store E F) (c : Nat)
    (f : Context E F → Context E F) : Store E F :=
  match st, c with
  | [], _ => []
  | x :: xs, 0 => f x :: xs
  | x :: xs, c + 1 => x :: Store.update xs c f

/-- The assignment `c.variables[name] = v`. -/
def Store.setVariable {E F : Type} (st : Store E F) (c : Nat) (name : String)
    (v : Value) : Store E F :=
  Store.update st c (fun x => { x with variables_ := QHash.insert x.variables_ name v })

/-- Modelled from the spec: the walk of the parent chain behind
`Context::lookup_variable`, at most `steps` scopes deep: the local map first,
then the parent. -/
def Context.lookup_variable_from {E F : Type} (st : Store E F) :
    Nat → Nat → String → Value
  | 0, _, _ => Value.undefined
  | steps + 1, ctx, name =>
    match st.get? ctx with
    | none => Value.undefined
    | some x =>
      match QHash.value x.variables_ name with
      | some v => v
      | none =>
        match x.parent with
        | some p => Context.lookup_variable_from st steps p name
        | none => Value.undefined

/-- Modelled from the spec: `Context::lookup_variable` is defined outside
`module.cc`. Lookup of a variable first checks the local map, then delegates to
the parent if absent; an unbound name is `Undefined`. -/
def Context.lookup_variable {E F : Type} (st : Store E F) (ctx : Nat)
    (name : String) : Value :=
  Context.lookup_variable_from st st.length ctx name

/-- Modelled from the spec: the walk of the parent chain behind
`Context::evaluate_module`, at most `steps` scopes deep: the address of the
first scope whose construct table has the name, and the construct found
there. -/
def Context.find_module {E F : Type} (st : Store E F) :
    Nat → Nat → String → Option (Nat × AbstractModule E F)
  | 0, _, _ => none
  | steps + 1, ctx, name =>
    match st.get? ctx with
    | none => none
    | some x =>
      match x.modules_p.bind (fun t => QHash.value t name) with
      | some am => some (ctx, am)
      | none =>
        match x.parent with
        | some p => Context.find_module st steps p name
        | none => none

/-- Modelled from the spec: the loop over the formals behind `Context::args`.
`named` are the named call arguments, the third list holds the positional call
arguments not yet consumed, the second the defaults of the formals still to be
bound. Each formal is written into the scope `c` as soon as its value is
known. -/
def Context.bind_formals {E F : Type} (ev : E → Store E F → Nat → Value) (c : Nat)
    (named : List (String × Value)) :
    List String → List (Option E) → List Value → Store E F → Store E F
  | [], _, _, st => st
  | f :: fs, defaults, positional, st =>
    match QHash.value named f with
    | some v =>
      Context.bind_formals ev c named fs defaults.tail positional
        (Store.setVariable st c f v)
    | none =>
      match positional with
      | v :: ps =>
        Context.bind_formals ev c named fs defaults.tail ps (Store.setVariable st c f v)
      | [] =>
        match defaults.head?.join with
        | some e =>
          Context.bind_formals ev c named fs defaults.tail []
            (Store.setVariable st c f (ev e st c))
        | none =>
          Context.bind_formals ev c named fs defaults.tail []
            (Store.setVariable st c f Value.undefined)

/-- Modelled from the spec: `Context::args` is defined outside `module.cc`.
For each formal in declared order its value is (a) an explicitly named call
argument matching the formal's name, else (b) the next unconsumed positional
call argument (one with an empty name), else (c) the formal's own default
expression evaluated in the scope being built, else (d) `Undefined`. Call
arguments that match no formal are discarded. -/
def Context.args {E F : Type} (ev : E → Store E F → Nat → Value) (st : Store E F)
    (c : Nat) (argnames : List String) (argexpr : List (Option E))
    (call_argnames : List String) (call_argvalues : List Value) : Store E F :=
  let call := call_argnames.zip call_argvalues
  Context.bind_formals ev c
    (call.filter (fun p => decide (p.1 ≠ "")))
    argnames argexpr
    ((call.filter (fun p => decide (p.1 = ""))).map Prod.snd)
    st

/-! ## Evaluation -/

/-- The base-class body `AbstractModule::evaluate` (module.cc 29-35): a new
node to which every supplied child is appended in order. Scope and arguments
are unnamed parameters in the source. -/
def AbstractModule.evaluate {E F : Type} (_st : Store E F) (_ctx : Nat)
    (_argnames : List String) (_argvalues : List Value)
    (child_nodes : List AbstractNode) : AbstractNode :=
  child_nodes.foldl (fun node v => AbstractNode.mk (node.children ++ [v]))
    (AbstractNode.mk [])

/-- The loops `foreach (v, children) child_nodes.append(v->evaluate(ctx))`
(module.cc 85-87 and 116-118): evaluate the instantiations in order against
the scope `ctx`, collecting the nodes; `self` is the evaluator of one
instantiation. -/
def evaluate_children {E F : Type}
    (self : ModuleInstanciation E → Store E F → Nat →
      Except Fault (AbstractNode × Store E F)) :
    List (ModuleInstanciation E) → Store E F → Nat →
      Except Fault (List AbstractNode × Store E F)
  | [], st, _ => .ok ([], st)
  | v :: vs, st, ctx =>
    match self v st ctx with
    | .error e => .error e
    | .ok (node, st1) =>
      match evaluate_children self vs st1 ctx with
      | .error e => .error e
      | .ok (nodes, st2) => .ok (node :: nodes, st2)

/-- The subscript `variables[name]` on its own (`QHash::operator[]`), on one
scope: when the hash has no entry under `name`, an entry with a
default-constructed value is created, and an existing entry is left as it is.
The `Value` class is declared outside `module.cc`; its default-constructed
value is taken to be `Undefined`. -/
def Context.touchVariable {E F : Type} (x : Context E F) (name : String) : Context E F :=
  match QHash.value x.variables_ name with
  | some _ => x
  | none => { x with variables_ := QHash.insert x.variables_ name Value.undefined }

/-- The subscript `c.variables[name]` on its own, on the scope at address `c`. -/
def Store.touchVariable {E F : Type} (st : Store E F) (c : Nat) (name : String) :
    Store E F :=
  Store.update st c (fun x => Context.touchVariable x name)

/-- The scope against which the initializer of the local `name` is evaluated
in `c.variables[name] = expr->evaluate(&c)` (module.cc 112), given the scope
`st` before the statement. The source leaves open which side of the
assignment is evaluated first (the order is unspecified before C++17):
with `entry_first` the subscript `c.variables[name]` runs before the
initializer, which then finds the entry already created; without it the
initializer runs in `st` itself. -/
def Module.initializer_scope {E F : Type} (entry_first : Bool) (st : Store E F)
    (c : Nat) (name : String) : Store E F :=
  if entry_first then Store.touchVariable st c name else st

/-- The loop of module.cc 111-113:
`c.variables[assignments_var[i]] = assignments_expr[i]->evaluate(&c)` for
`i < assignments_var.size()`, for either order of evaluation of the two sides
of the assignment (`entry_first`, see `Module.initializer_scope`). -/
def Module.assign {E F : Type} (ev : E → Store E F → Nat → Value) (entry_first : Bool)
    (c : Nat) : List String → List E → Store E F → Except Fault (Store E F)
  | [], _, st => .ok st
  | _ :: _, [], _ => .error Fault.outOfRange
  | x :: xs, e :: es, st =>
    Module.assign ev entry_first c xs es
      (Store.setVariable (Module.initializer_scope entry_first st c x) c x
        (ev e (Module.initializer_scope entry_first st c x) c))

/-- The scope of `Module::evaluate` as it stands before the local assignments
(module.cc 105-109), as the store with the new scope pushed at address
`st.length`: `Context c(ctx)`, the call to `c.args`, and the two table
pointers. -/
def Module.formals_scope {E F : Type} (ev : E → Store E F → Nat → Value)
    (m : Module E F (AbstractModule E F)) (st : Store E F) (ctx : Nat)
    (call_argnames : List String) (call_argvalues : List Value) : Store E F :=
  let c := st.length
  let st1 := st ++ [Context.new ctx]
  let st2 := Context.args ev st1 c m.argnames m.argexpr call_argnames call_argvalues
  Store.update st2 c
    (fun x => { x with functions_p := some m.functions, modules_p := some m.modules })

/-- The scope of `Module::evaluate` as it stands after the formals are bound and
the locals `0 .. i-1` are assigned: the loop of module.cc 111-113 stopped
before its `i`-th round. -/
def Module.scope_before_local {E F : Type} (ev : E → Store E F → Nat → Value)
    (entry_first : Bool)
    (m : Module E F (AbstractModule E F)) (st : Store E F) (ctx : Nat)
    (call_argnames : List String) (call_argvalues : List Value) (i : Nat) :
    Except Fault (Store E F) :=
  Module.assign ev entry_first st.length (m.assignments_var.take i)
    (m.assignments_expr.take i)
    (Module.formals_scope ev m st ctx call_argnames call_argvalues)

/-- The scope that `Module::evaluate` builds (module.cc 105-113): the scope
after formal binding, then the local assignments in order. -/
def Module.scope {E F : Type} (ev : E → Store E F → Nat → Value)
    (entry_first : Bool)
    (m : Module E F (AbstractModule E F)) (st : Store E F) (ctx : Nat)
    (call_argnames : List String) (call_argvalues : List Value) :
    Except Fault (Store E F) :=
  Module.assign ev entry_first st.length m.assignments_var m.assignments_expr
    (Module.formals_scope ev m st ctx call_argnames call_argvalues)

/-- The override `Module::evaluate` (module.cc 103-124). `self` evaluates one
instantiation (the recursive call `children[i]->evaluate(&c)`). The scope `c`
is a local of the function: it is popped when the function returns. -/
def Module.evaluate {E F : Type} (ev : E → Store E F → Nat → Value)
    (entry_first : Bool)
    (self : ModuleInstanciation E → Store E F → Nat →
      Except Fault (AbstractNode × Store E F))
    (m : Module E F (AbstractModule E F)) (st : Store E F) (ctx : Nat)
    (call_argnames : List String) (call_argvalues : List Value)
    (child_nodes : List AbstractNode) : Except Fault (AbstractNode × Store E F) :=
  let c := st.length
  match Module.scope ev entry_first m st ctx call_argnames call_argvalues with
  | .error e => .error e
  | .ok st4 =>
    match evaluate_children self m.children st4 c with
    | .error e => .error e
    | .ok (nodes, st5) =>
      let node := AbstractNode.mk ([] ++ nodes)
      let node := child_nodes.foldl (fun n v => AbstractNode.mk (n.children ++ [v])) node
      .ok (node, st5.take c)

/-- The virtual call `m->evaluate(ctx, ...)`: the base class body for
`AbstractModule`, the override for `Module`. -/
def AbstractModule.dispatch {E F : Type} (ev : E → Store E F → Nat → Value)
    (entry_first : Bool)
    (self : ModuleInstanciation E → Store E F → Nat →
      Except Fault (AbstractNode × Store E F))
    (am : AbstractModule E F) (st : Store E F) (ctx : Nat)
    (argnames : List String) (argvalues : List Value)
    (child_nodes : List AbstractNode) : Except Fault (AbstractNode × Store E F) :=
  match am with
  | .abstract => .ok (AbstractModule.evaluate st ctx argnames argvalues child_nodes, st)
  | .module m =>
    Module.evaluate ev entry_first self m st ctx argnames argvalues child_nodes

/-- Modelled from the spec: `Context::evaluate_module` is defined outside
`module.cc`. The name is looked up first against the user constructs in scope,
walking the parent chain, and only if absent against the registry
`builtin_modules`; if absent from both, the default (group) construct is used.
A construct found in the chain is invoked with the scope in which it was
found, its definition scope; a registry or default construct with the scope
of the call. -/
def Context.evaluate_module {E F : Type} (ev : E → Store E F → Nat → Value)
    (entry_first : Bool)
    (self : ModuleInstanciation E → Store E F → Nat →
      Except Fault (AbstractNode × Store E F))
    (builtin_modules : QHash (AbstractModule E F))
    (st : Store E F) (ctx : Nat) (name : String)
    (argnames : List String) (argvalues : List Value)
    (child_nodes : List AbstractNode) : Except Fault (AbstractNode × Store E F) :=
  match Context.find_module st st.length ctx name with
  | some (d, am) =>
    AbstractModule.dispatch ev entry_first self am st d argnames argvalues child_nodes
  | none =>
    match QHash.value builtin_modules name with
    | some am =>
      AbstractModule.dispatch ev entry_first self am st ctx argnames argvalues child_nodes
    | none => .ok (AbstractModule.evaluate st ctx argnames argvalues child_nodes, st)

/-- The evaluator `ModuleInstanciation::evaluate` (module.cc 78-89), with a
step bound on the depth of nested calls. -/
def ModuleInstanciation.evaluate {E F : Type} (ev : E → Store E F → Nat → Value)
    (entry_first : Bool)
    (builtin_modules : QHash (AbstractModule E F)) :
    Nat → ModuleInstanciation E → Store E F → Nat →
      Except Fault (AbstractNode × Store E F)
  | 0, _, _, _ => .error Fault.outOfFuel
  | fuel + 1, inst, st, ctx =>
    let argvalues := inst.argexpr.map (fun v => ev v st ctx)
    match evaluate_children (ModuleInstanciation.evaluate ev entry_first builtin_modules fuel)
        inst.children st ctx with
    | .error e => .error e
    | .ok (child_nodes, st1) =>
      Context.evaluate_module ev entry_first
        (ModuleInstanciation.evaluate ev entry_first builtin_modules fuel)
        builtin_modules st1 ctx inst.modname inst.argnames argvalues child_nodes

/-! ## Predicates used in the statements -/

/-- An evaluator of one instantiation that hands back the store it was given. -/
def PreservesStore {E F : Type}
    (self : ModuleInstanciation E → Store E F → Nat →
      Except Fault (AbstractNode × Store E F)) : Prop :=
  ∀ v st ctx node st1, self v st ctx = .ok (node, st1) → st1 = st

/-! ## A concrete expression fragment and sample programs -/

/-- Modelled from the spec: the `Expression` class is defined outside
`module.cc`; the spec asks of it only `evaluate(scope) -> Value` and a textual
dump. This fragment (constants, variable references, sums of numbers) is what
the binding examples of the spec use. -/
inductive Expression where
  | const (v : Value)
  | var (name : String)
  | add (a b : Expression)

/-- Modelled from the spec: `Expression::evaluate` for the fragment. A variable
reference is looked up through the scope chain; a sum of two numbers is a
number and any other sum is `Undefined`. -/
def Expression.evaluate : Expression → Store Expression Unit → Nat → Value
  | .const v, _, _ => v
  | .var name, st, ctx => Context.lookup_variable st ctx name
  | .add a b, st, ctx =>
    match a.evaluate st ctx, b.evaluate st ctx with
    | .number x, .number y => .number (x + y)
    | _, _ => .undefined

/-- A top-level scope with nothing bound. -/
def emptyRoot : Context Expression Unit :=
  { parent := none, variables_ := [], functions_p := none, modules_p := none }

/-- An instantiation without label and arguments. -/
def call (modname : String) (children : List (ModuleInstanciation Expression)) :
    ModuleInstanciation Expression :=
  ModuleInstanciation.mk "" modname [] [] children

/-- A user module with body `a(); b() c();` and nothing else. -/
def twoChildModule : Module Expression Unit (AbstractModule Expression Unit) :=
  { argnames := [], argexpr := [], assignments_var := [], assignments_expr := [],
    functions := [], modules := [],
    children := [call "a" [], call "b" [call "c" []]] }

/-- A leaf geometry node. -/
def leaf : AbstractNode := AbstractNode.mk []

/-- A top-level scope that binds `x` to `1`. -/
def outerRoot : Context Expression Unit :=
  { parent := none, variables_ := [("x", Value.number 1)], functions_p := none,
    modules_p := none }

/-- A user module `module inc() { x = x + 1; a(x); }`: the initializer of its
local `x` reads the name it assigns. -/
def incrementModule : Module Expression Unit (AbstractModule Expression Unit) :=
  { argnames := [], argexpr := [], assignments_var := ["x"],
    assignments_expr :=
      [Expression.add (Expression.var "x") (Expression.const (Value.number 1))],
    functions := [], modules := [],
    children := [ModuleInstanciation.mk "" "a" [""] [Expression.var "x"] []] }

/-- A user module with the locals `p = 1; q = p + 1; p = q + 10;`. -/
def localsModule : Module Expression Unit (AbstractModule Expression Unit) :=
  { argnames := [], argexpr := [],
    assignments_var := ["p", "q", "p"],
    assignments_expr :=
      [Expression.const (Value.number 1),
       Expression.add (Expression.var "p") (Expression.const (Value.number 1)),
       Expression.add (Expression.var "q") (Expression.const (Value.number 10))],
    functions := [], modules := [], children := [] }

/-- The instantiation `a(1, n = 2 + 3) b();`. -/
def sampleCall : ModuleInstanciation Expression :=
  ModuleInstanciation.mk "" "a" ["", "n"]
    [Expression.const (Value.number 1),
     Expression.add (Expression.const (Value.number 2)) (Expression.const (Value.number 3))]
    [call "b" []]

/-! ## Dump -/

/-- The argument loop of `ModuleInstanciation::dump` (module.cc 56-62), from
round `i` on: `names` are `argnames[i..]` and `text` is the text so far.
`argexpr[i]` past the end of `argexpr` is `Fault.outOfRange`. -/
def ModuleInstanciation.dump_args {E : Type} (dumpE : E → String) (argexpr : List E) :
    List String → Nat → String → Except Fault String
  | [], _, text => .ok text
  | name :: names, i, text =>
    let text := if i > 0 then text ++ ", " else text
    let text := if name ≠ "" then text ++ (name ++ " = ") else text
    match argexpr.get? i with
    | none => .error Fault.outOfRange
    | some e => ModuleInstanciation.dump_args dumpE argexpr names (i + 1) (text ++ dumpE e)

mutual
/-- The renderer `ModuleInstanciation::dump` (module.cc 50-76). -/
def ModuleInstanciation.dump {E : Type} (dumpE : E → String) (indent : String) :
    ModuleInstanciation E → Except Fault String
  | .mk label modname argnames argexpr children =>
    let text := indent
    let text := if label ≠ "" then text ++ (label ++ ": ") else text
    let text := text ++ (modname ++ "(")
    match ModuleInstanciation.dump_args dumpE argexpr argnames 0 text with
    | .error e => .error e
    | .ok text =>
      match children with
      | [] => .ok (text ++ ");\n")
      | [child] =>
        match ModuleInstanciation.dump dumpE (indent ++ "\t") child with
        | .error e => .error e
        | .ok t => .ok (text ++ ")\n" ++ t)
      | child :: child2 :: rest =>
        match ModuleInstanciation.dump_children dumpE (indent ++ "\t")
            (child :: child2 :: rest) (text ++ ") \x7b\n") with
        | .error e => .error e
        | .ok text => .ok (text ++ (indent ++ "\x7d\n"))
/-- The loop `text += children[i]->dump(indent + "\t")` (module.cc 70-72). -/
def ModuleInstanciation.dump_children {E : Type} (dumpE : E → String) (indent : String) :
    List (ModuleInstanciation E) → String → Except Fault String
  | [], text => .ok text
  | child :: rest, text =>
    match ModuleInstanciation.dump dumpE indent child with
    | .error e => .error e
    | .ok t => ModuleInstanciation.dump_children dumpE indent rest (text ++ t)
end

/-- Modelled from the spec: `Expression::dump` for the fragment. -/
def Expression.dump : Expression → String
  | .const (.number n) => toString n
  | .const _ => "undef"
  | .var name => name
  | .add a b => "(" ++ a.dump ++ " + " ++ b.dump ++ ")"

/-! ## The structure that a dump shows -/

/-- A character of an identifier: a letter, a digit or an underscore. -/
def isIdentChar (c : Char) : Bool :=
  c.isAlphanum || c == '_'

/-- A non-empty identifier. -/
def isIdentifier (s : String) : Prop :=
  s ≠ "" ∧ ∀ c ∈ s.data, isIdentChar c = true

/-- A text without a newline. -/
def noNewline (s : String) : Prop :=
  ∀ c ∈ s.data, c ≠ '\n'

/-- What a dump is meant to show of an instantiation tree: at every node the
label, the construct name and the rendered argument-list text, and the
nesting. -/
inductive Skeleton where
  | node (label modname args : String) (children : List Skeleton)

mutual
/-- The structure of an instantiation tree. The argument-list text is what the
argument loop of `ModuleInstanciation::dump` appends (empty if the loop
faults). -/
def ModuleInstanciation.skeleton {E : Type} (dumpE : E → String) :
    ModuleInstanciation E → Skeleton
  | .mk label modname argnames argexpr children =>
    Skeleton.node label modname
      (match ModuleInstanciation.dump_args dumpE argexpr argnames 0 "" with
        | .ok text => text
        | .error _ => "")
      (ModuleInstanciation.skeletons dumpE children)
/-- The structures of a list of instantiation trees. -/
def ModuleInstanciation.skeletons {E : Type} (dumpE : E → String) :
    List (ModuleInstanciation E) → List Skeleton
  | [] => []
  | child :: rest =>
    ModuleInstanciation.skeleton dumpE child :: ModuleInstanciation.skeletons dumpE rest
end

/-- The trees that the losslessness of the dump is about: at every node the
construct name is a non-empty identifier, the label is empty or an identifier,
`argnames` and `argexpr` have equal length, no expression dump contains a
newline, and every argument name satisfies `okName`. -/
inductive Dumpable {E : Type} (dumpE : E → String) (okName : String → Prop) :
    ModuleInstanciation E → Prop where
  | mk (label modname : String) (argnames : List String) (argexpr : List E)
      (children : List (ModuleInstanciation E)) :
      isIdentifier modname → (label = "" ∨ isIdentifier label) →
      argnames.length = argexpr.length →
      (∀ e ∈ argexpr, noNewline (dumpE e)) →
      (∀ a ∈ argnames, okName a) →
      (∀ child ∈ children, Dumpable dumpE okName child) →
      Dumpable dumpE okName (ModuleInstanciation.mk label modname argnames argexpr children)

mutual
/-- The text that `ModuleInstanciation::dump` produces, as a function of the
structure alone. -/
def Skeleton.render (indent : String) : Skeleton → String
  | .node label modname args children =>
    indent ++ ((if label ≠ "" then label ++ ": " else "") ++ (modname ++ "(")) ++ args ++
      (match children with
        | [] => ");\n"
        | [child] => ")\n" ++ Skeleton.render (indent ++ "\t") child
        | child :: child2 :: rest =>
          ") \x7b\n" ++ Skeleton.renders (indent ++ "\t") (child :: child2 :: rest) ++
            (indent ++ "\x7d\n"))
/-- The texts of a list of structures, one after the other. -/
def Skeleton.renders (indent : String) : List Skeleton → String
  | [] => ""
  | child :: rest => Skeleton.render indent child ++ Skeleton.renders indent rest
end

/-- The structures whose text can be read back: identifiers as name and label,
no newline in the argument-list text. -/
inductive Skeleton.WF : Skeleton → Prop where
  | node (label modname args : String) (children : List Skeleton) :
      isIdentifier modname → (label = "" ∨ isIdentifier label) → noNewline args →
      (∀ child ∈ children, Skeleton.WF child) →
      Skeleton.WF (Skeleton.node label modname args children)

/-- An instantiation `a(<name> = D)` whose one argument name holds a newline. -/
def newlineNameCall : ModuleInstanciation Expression :=
  ModuleInstanciation.mk "" "a" ["p = q)\n\tb(r"] [Expression.var "D"] []

/-- The instantiation `a(p = q) b(r = D);`. -/
def nestedCall : ModuleInstanciation Expression :=
  ModuleInstanciation.mk "" "a" ["p"] [Expression.var "q"]
    [ModuleInstanciation.mk "" "b" ["r"] [Expression.var "D"] []]

/-- The head of a dump line up to the opening bracket: the label followed by
`": "` when it is non-empty, then the construct name and `"("`. -/
def Skeleton.header (label modname : String) : String :=
  (if label ≠ "" then label ++ ": " else "") ++ (modname ++ "(")

/-- The end of the first line of a dump, after the argument list. -/
def Skeleton.closer : List Skeleton → String
  | [] => ");"
  | [_] => ")"
  | _ :: _ :: _ => ") \x7b"

/-- The lines of a dump after the first. -/
def Skeleton.after (indent : String) : List Skeleton → String
  | [] => ""
  | [child] => Skeleton.render (indent ++ "\t") child
  | child :: child2 :: rest =>
    Skeleton.renders (indent ++ "\t") (child :: child2 :: rest) ++ (indent ++ "\x7d\n")

mutual
/-- The instantiation tree with every label cleared. Two trees differ only in
their labels when clearing the labels makes them equal. -/
def ModuleInstanciation.eraseLabels {E : Type} :
    ModuleInstanciation E → ModuleInstanciation E
  | .mk _ modname argnames argexpr children =>
    .mk "" modname argnames argexpr (ModuleInstanciation.eraseLabelsList children)
/-- Clearing the labels of a list of instantiation trees. -/
def ModuleInstanciation.eraseLabelsList {E : Type} :
    List (ModuleInstanciation E) → List (ModuleInstanciation E)
  | [] => []
  | child :: rest =>
    ModuleInstanciation.eraseLabels child :: ModuleInstanciation.eraseLabelsList rest
end

/-- The instantiation `a(undef);` with the argument a variable named `undef`. -/
def undefVarCall : ModuleInstanciation Expression :=
  ModuleInstanciation.mk "top" "a" [""] [Expression.var "undef"] [call "b" [], call "c" []]

/-- The instantiation `a(undef);` with the argument the constant `Undefined`. -/
def undefConstCall : ModuleInstanciation Expression :=
  ModuleInstanciation.mk "top" "a" [""] [Expression.const Value.undefined]
    [call "b" [], call "c" []]

/-- The instantiation `a(1, n = 2 + 3) b();` with labels on both nodes. -/
def labelledCall : ModuleInstanciation Expression :=
  ModuleInstanciation.mk "outer" "a" ["", "n"]
    [Expression.const (Value.number 1),
     Expression.add (Expression.const (Value.number 2)) (Expression.const (Value.number 3))]
    [ModuleInstanciation.mk "inner" "b" [] [] []]

/-- Scopes are pushed after their parents: the parent of the scope at address
`i` has an address below `i`. -/
def Store.parentsBelow {E F : Type} (st : Store E F) : Prop :=
  ∀ (i : Nat) (x : Context E F) (p : Nat), st.get? i = some x → x.parent = some p → p < i

/-- A user module `module inner() { r = t; s = g; }` with the free variables
`t` and `g`. -/
def innerModule : Module Expression Unit (AbstractModule Expression Unit) :=
  { argnames := [], argexpr := [], assignments_var := ["r", "s"],
    assignments_expr := [Expression.var "t", Expression.var "g"],
    functions := [], modules := [], children := [] }

/-- A user module `module outer() { t = 7; inner(); }`. -/
def outerModule : Module Expression Unit (AbstractModule Expression Unit) :=
  { argnames := [], argexpr := [], assignments_var := ["t"],
    assignments_expr := [Expression.const (Value.number 7)],
    functions := [], modules := [], children := [call "inner" []] }

/-- A user module `module wrap() { w = 5; module outer() ..; outer(); }`. -/
def wrapModule : Module Expression Unit (AbstractModule Expression Unit) :=
  { argnames := [], argexpr := [], assignments_var := ["w"],
    assignments_expr := [Expression.const (Value.number 5)],
    functions := [], modules := [("outer", AbstractModule.module outerModule)],
    children := [call "outer" []] }

/-- The top-level scope of the program that defines `inner` and `wrap` and
binds `g` to `1`. -/
def lexRoot : Context Expression Unit :=
  { parent := none, variables_ := [("g", Value.number 1)], functions_p := none,
    modules_p := some [("inner", AbstractModule.module innerModule),
                       ("wrap", AbstractModule.module wrapModule)] }

/-- The scope of a call of `wrap` from the top level. -/
def wrapScope : Context Expression Unit :=
  { parent := some 0, variables_ := [("w", Value.number 5)], functions_p := some [],
    modules_p := some [("outer", AbstractModule.module outerModule)] }

/-- The scope of a call of `outer` from the body of `wrap`. -/
def outerScope : Context Expression Unit :=
  { parent := some 1, variables_ := [("t", Value.number 7)], functions_p := some [],
    modules_p := some [] }

/-! ## The registry of built-in modules -/

/-- The function `initialize_builtin_modules` (module.cc 163-174) on the global
table `builtin_modules`. The five `register_builtin_*` functions are defined
outside `module.cc` and enter as parameters: each takes the table to the table
it leaves. -/
def initialize_builtin_modules {E F : Type}
    (register_builtin_union register_builtin_difference register_builtin_intersect
      register_builtin_trans register_builtin_cube :
      QHash (AbstractModule E F) → QHash (AbstractModule E F))
    (builtin_modules : QHash (AbstractModule E F)) : QHash (AbstractModule E F) :=
  let t := QHash.insert builtin_modules "group" AbstractModule.abstract
  let t := register_builtin_union t
  let t := register_builtin_difference t
  let t := register_builtin_intersect t
  let t := register_builtin_trans t
  register_builtin_cube t

/-- The function `destroy_builtin_modules` (module.cc 176-181): every entry is
deleted and the table is cleared. -/
def destroy_builtin_modules {E F : Type} (_builtin_modules : QHash (AbstractModule E F)) :
    QHash (AbstractModule E F) :=
  []

/-- A user module `module group() { a(); }` that redefines the name `group`. -/
def userGroupModule : Module Expression Unit (AbstractModule Expression Unit) :=
  { argnames := [], argexpr := [], assignments_var := [], assignments_expr := [],
    functions := [], modules := [], children := [call "a" []] }

/-- The registry with the one entry `group`, the default construct. -/
def groupRegistry : QHash (AbstractModule Expression Unit) :=
  [("group", AbstractModule.abstract)]

/-- A stand-in for a `register_builtin_*` function: it registers a construct
under `name`. The classes of the built-in constructs are defined outside
`module.cc`; the default construct stands in for them. -/
def registerUnder (name : String) (builtin_modules : QHash (AbstractModule Expression Unit)) :
    QHash (AbstractModule Expression Unit) :=
  QHash.insert builtin_modules name AbstractModule.abstract

/-- A registry in which `group` is taken by a user module. -/
def staleRegistry : QHash (AbstractModule Expression Unit) :=
  [("cube", AbstractModule.abstract), ("group", AbstractModule.module userGroupModule)]

/-! ## Sample programs for termination -/

/-- The user module `module name() { name(); }`, whose body instantiates its
own name. -/
def selfCalling {E F : Type} (name : String) : Module E F (AbstractModule E F) :=
  { argnames := [], argexpr := [], assignments_var := [], assignments_expr := [],
    functions := [], modules := [],
    children := [ModuleInstanciation.mk "" name [] [] []] }

/-- A top-level scope that defines `module rec() { rec(); }`. -/
def recRoot : Context Expression Unit :=
  { parent := none, variables_ := [], functions_p := none,
    modules_p := some [("rec", AbstractModule.module (selfCalling "rec"))] }

/-- The scope of a call of a module without formals, locals and nested
definitions, made from the definition scope `d`. -/
def bareScope {E F : Type} (d : Nat) : Context E F :=
  { parent := some d, variables_ := [], functions_p := some [], modules_p := some [] }

/-! ## Shape, size and depth of the two trees -/

mutual
/-- The geometry tree with one node for every node of the instantiation tree,
at the same position. -/
def ModuleInstanciation.shape {E : Type} : ModuleInstanciation E → AbstractNode
  | .mk _ _ _ _ children => AbstractNode.mk (ModuleInstanciation.shapes children)
/-- The geometry trees of a list of instantiation trees. -/
def ModuleInstanciation.shapes {E : Type} : List (ModuleInstanciation E) → List AbstractNode
  | [] => []
  | child :: rest => ModuleInstanciation.shape child :: ModuleInstanciation.shapes rest
end

mutual
/-- The number of nodes of an instantiation tree. -/
def ModuleInstanciation.size {E : Type} : ModuleInstanciation E → Nat
  | .mk _ _ _ _ children => 1 + ModuleInstanciation.sizes children
/-- The number of nodes of a list of instantiation trees. -/
def ModuleInstanciation.sizes {E : Type} : List (ModuleInstanciation E) → Nat
  | [] => 0
  | child :: rest => ModuleInstanciation.size child + ModuleInstanciation.sizes rest
end

mutual
/-- The depth of an instantiation tree: the number of nodes on its longest
branch. -/
def ModuleInstanciation.depth {E : Type} : ModuleInstanciation E → Nat
  | .mk _ _ _ _ children => 1 + ModuleInstanciation.depths children
/-- The largest depth in a list of instantiation trees. -/
def ModuleInstanciation.depths {E : Type} : List (ModuleInstanciation E) → Nat
  | [] => 0
  | child :: rest =>
    Nat.max (ModuleInstanciation.depth child) (ModuleInstanciation.depths rest)
end

mutual
/-- The number of nodes of a geometry tree. -/
def AbstractNode.size : AbstractNode → Nat
  | .mk children => 1 + AbstractNode.sizes children
/-- The number of nodes of a list of geometry trees. -/
def AbstractNode.sizes : List AbstractNode → Nat
  | [] => 0
  | child :: rest => AbstractNode.size child + AbstractNode.sizes rest
end

mutual
/-- The depth of a geometry tree. -/
def AbstractNode.depth : AbstractNode → Nat
  | .mk children => 1 + AbstractNode.depths children
/-- The largest depth in a list of geometry trees. -/
def AbstractNode.depths : List AbstractNode → Nat
  | [] => 0
  | child :: rest => Nat.max (AbstractNode.depth child) (AbstractNode.depths rest)
end

/-- The name resolves to the default (group) construct from the scope `ctx`:
the construct found in the scope chain, else the one found in the registry, is
the default construct, or the name is found in neither. -/
def Context.resolves_to_default {E F : Type} (reg : QHash (AbstractModule E F))
    (st : Store E F) (ctx : Nat) (name : String) : Prop :=
  match Context.find_module st st.length ctx name with
  | some (_, am) => am = AbstractModule.abstract
  | none =>
    match QHash.value reg name with
    | some am => am = AbstractModule.abstract
    | none => True

/-- The instantiation node at a position, given as the list of child indices
that leads to it from the root. -/
def ModuleInstanciation.subtree {E : Type} :
    ModuleInstanciation E → List Nat → Option (ModuleInstanciation E)
  | t, [] => some t
  | t, i :: path =>
    match t.children.get? i with
    | none => none
    | some child => ModuleInstanciation.subtree child path

/-- The geometry node at a position. -/
def AbstractNode.subtree : AbstractNode → List Nat → Option AbstractNode
  | t, [] => some t
  | t, i :: path =>
    match t.children.get? i with
    | none => none
    | some child => AbstractNode.subtree child path

/-- The instantiation `a() { b(); c() d(); }`. -/
def threeLevelCall : ModuleInstanciation Expression :=
  call "a" [call "b" [], call "c" [call "d" []]]

/-! ## Dump of a module -/

/-- The formal loop of `Module::dump` (module.cc 129-135), from round `i` on:
`names` are `argnames[i..]`. A null `argexpr[i]` is a formal without default;
`argexpr[i]` past the end of `argexpr` is `Fault.outOfRange`. -/
def Module.dump_formals {E : Type} (dumpE : E → String) (argexpr : List (Option E)) :
    List String → Nat → String → Except Fault String
  | [], _, text => .ok text
  | name :: names, i, text =>
    let text := if i > 0 then text ++ ", " else text
    let text := text ++ name
    match argexpr.get? i with
    | none => .error Fault.outOfRange
    | some none => Module.dump_formals dumpE argexpr names (i + 1) text
    | some (some e) =>
      Module.dump_formals dumpE argexpr names (i + 1) (text ++ (" = " ++ dumpE e))

/-- The assignment loop of `Module::dump` (module.cc 151-153);
`assignments_expr[i]` past the end of `assignments_expr` is
`Fault.outOfRange`. -/
def Module.dump_assignments {E : Type} (dumpE : E → String) (indent : String) :
    List String → List E → String → Except Fault String
  | [], _, text => .ok text
  | _ :: _, [], _ => .error Fault.outOfRange
  | x :: xs, e :: es, text =>
    Module.dump_assignments dumpE indent xs es
      (text ++ (indent ++ "\t" ++ x ++ " = " ++ dumpE e ++ ";\n"))

mutual
/-- The virtual call `v->dump(indent, name)` on an `AbstractModule *`: the base
class body `AbstractModule::dump` (module.cc 37-40) or the override
`Module::dump`. -/
def AbstractModule.dump {E F : Type} (dumpE : E → String)
    (dumpF : F → String → String → String) :
    AbstractModule E F → String → String → Except Fault String
  | .abstract, indent, name => .ok (indent ++ "abstract module " ++ name ++ "();\n")
  | .module m, indent, name => Module.dump dumpE dumpF m indent name
/-- The override `Module::dump` (module.cc 126-159). The hash tables are walked
in the order of their association lists. `dumpF` is the dump of a user
function, which is defined outside `module.cc`. -/
def Module.dump {E F : Type} (dumpE : E → String)
    (dumpF : F → String → String → String) :
    Module E F (AbstractModule E F) → String → String → Except Fault String
  | ⟨argnames, argexpr, avar, aexpr, functions, modules, children⟩, indent, name =>
    match Module.dump_formals dumpE argexpr argnames 0
        (indent ++ "module " ++ name ++ "(") with
    | .error e => .error e
    | .ok text =>
      let text := text ++ ") \x7b\n"
      let text := functions.foldl (fun t p => t ++ dumpF p.2 (indent ++ "\t") p.1) text
      match Module.dump_modules dumpE dumpF modules (indent ++ "\t") text with
      | .error e => .error e
      | .ok text =>
        match Module.dump_assignments dumpE indent avar aexpr text with
        | .error e => .error e
        | .ok text =>
          match ModuleInstanciation.dump_children dumpE (indent ++ "\t") children text with
          | .error e => .error e
          | .ok text => .ok (text ++ (indent ++ "\x7d\n"))
/-- The loop over the nested modules in `Module::dump` (module.cc 144-150). -/
def Module.dump_modules {E F : Type} (dumpE : E → String)
    (dumpF : F → String → String → String) :
    List (String × AbstractModule E F) → String → String → Except Fault String
  | [], _, text => .ok text
  | (key, value) :: rest, indent, text =>
    match AbstractModule.dump dumpE dumpF value indent key with
    | .error e => .error e
    | .ok t => Module.dump_modules dumpE dumpF rest indent (text ++ t)
end

/-- The data-model invariant of an instantiation tree: at every node
`argnames` and `argexpr` have equal length. -/
inductive ParallelArgs {E : Type} : ModuleInstanciation E → Prop where
  | mk (label modname : String) (argnames : List String) (argexpr : List E)
      (children : List (ModuleInstanciation E)) :
      argnames.length = argexpr.length →
      (∀ child ∈ children, ParallelArgs child) →
      ParallelArgs (ModuleInstanciation.mk label modname argnames argexpr children)

/-- The data-model invariant of a construct: in a user construct `argexpr` is
at least as long as `argnames`, `assignments_expr` is as long as
`assignments_var`, the body is made of instantiation trees with parallel
argument lists, and the nested constructs satisfy the invariant too. -/
inductive AbstractModule.Parallel {E F : Type} : AbstractModule E F → Prop where
  | abstract : AbstractModule.Parallel AbstractModule.abstract
  | module (m : Module E F (AbstractModule E F)) :
      m.argnames.length ≤ m.argexpr.length →
      m.assignments_var.length = m.assignments_expr.length →
      (∀ child ∈ m.children, ParallelArgs child) →
      (∀ p ∈ m.modules, AbstractModule.Parallel p.2) →
      AbstractModule.Parallel (AbstractModule.module m)

/-- A user module `module (n, k = 1) { module sub() { .. } t = n; b(n); }`
around `localsModule`. -/
def dumpedModule : Module Expression Unit (AbstractModule Expression Unit) :=
  { argnames := ["n", "k"],
    argexpr := [none, some (Expression.const (Value.number 1))],
    assignments_var := ["t"], assignments_expr := [Expression.var "n"],
    functions := [],
    modules := [("sub", AbstractModule.module localsModule),
                ("grp", AbstractModule.abstract)],
    children := [ModuleInstanciation.mk "" "b" [""] [Expression.var "n"] []] }

/-! ## The lines of a dump -/

/-- The text made of the given lines, each terminated by a newline. -/
def unlines : List String → String
  | [] => ""
  | line :: rest => line ++ "\n" ++ unlines rest

mutual
/-- The lines of the dump of a node, as the layout of the dump is described: a
header line that ends with `");"` for a node without children; a header line
that ends with `")"` and then the lines of the child, one tab deeper and
without braces, for a node with one child; a header line that ends with
`") {"`, the lines of the children in order, one tab deeper, and the closing
line of indent and brace for a node with two or more children. -/
def Skeleton.lines (indent : String) : Skeleton → List String
  | .node label modname args children =>
    match children with
    | [] => [indent ++ Skeleton.header label modname ++ args ++ ");"]
    | [child] =>
      (indent ++ Skeleton.header label modname ++ args ++ ")")
        :: Skeleton.lines (indent ++ "\t") child
    | child :: child2 :: rest =>
      (indent ++ Skeleton.header label modname ++ args ++ ") \x7b")
        :: (Skeleton.lines_of_children (indent ++ "\t") (child :: child2 :: rest)
          ++ [indent ++ "\x7d"])
/-- The lines of a list of nodes, one node after the other. -/
def Skeleton.lines_of_children (indent : String) : List Skeleton → List String
  | [] => []
  | child :: rest => Skeleton.lines indent child ++ Skeleton.lines_of_children indent rest
end

mutual
/-- The number of nodes of a structure. -/
def Skeleton.size : Skeleton → Nat
  | .node _ _ _ children => 1 + Skeleton.sizes children
/-- The number of nodes of a list of structures. -/
def Skeleton.sizes : List Skeleton → Nat
  | [] => 0
  | child :: rest => Skeleton.size child + Skeleton.sizes rest
end

mutual
/-- The number of nodes with two or more children in a structure. -/
def Skeleton.blocks : Skeleton → Nat
  | .node _ _ _ children =>
    (match children with
      | _ :: _ :: _ => 1
      | _ => 0) + Skeleton.blocks_of_children children
/-- The number of nodes with two or more children in a list of structures. -/
def Skeleton.blocks_of_children : List Skeleton → Nat
  | [] => 0
  | child :: rest => Skeleton.blocks child + Skeleton.blocks_of_children rest
end

mutual
/-- The number of nodes with two or more children in an instantiation tree. -/
def ModuleInstanciation.blocks {E : Type} : ModuleInstanciation E → Nat
  | .mk _ _ _ _ children =>
    (match children with
      | _ :: _ :: _ => 1
      | _ => 0) + ModuleInstanciation.blocks_of_children children
/-- The number of nodes with two or more children in a list of instantiation
trees. -/
def ModuleInstanciation.blocks_of_children {E : Type} :
    List (ModuleInstanciation E) → Nat
  | [] => 0
  | child :: rest =>
    ModuleInstanciation.blocks child + ModuleInstanciation.blocks_of_children rest
end

/-- The instantiation trees whose construct names, labels, argument names and
expression dumps hold no newline, at every node. -/
inductive NoNewlineTree {E : Type} (dumpE : E → String) : ModuleInstanciation E → Prop where
  | mk (label modname : String) (argnames : List String) (argexpr : List E)
      (children : List (ModuleInstanciation E)) :
      noNewline modname → noNewline label →
      (∀ a ∈ argnames, noNewline a) →
      (∀ e ∈ argexpr, noNewline (dumpE e)) →
      (∀ child ∈ children, NoNewlineTree dumpE child) →
      NoNewlineTree dumpE (ModuleInstanciation.mk label modname argnames argexpr children)

/-- The structures whose labels, construct names and argument-list texts hold
no newline, at every node. -/
inductive Skeleton.Lined : Skeleton → Prop where
  | node (label modname args : String) (children : List Skeleton) :
      noNewline label → noNewline modname → noNewline args →
      (∀ child ∈ children, Skeleton.Lined child) →
      Skeleton.Lined (Skeleton.node label modname args children)

/-- The instantiation `a(p = x, q = ..)` with two argument names and one
argument expression. -/
def shortArgsCall : ModuleInstanciation Expression :=
  ModuleInstanciation.mk "" "a" ["p", "q"] [Expression.var "x"] []

/-- The instantiation `top: a(x) { b(); c() d(); }`. -/
def blockCall : ModuleInstanciation Expression :=
  ModuleInstanciation.mk "top" "a" [""] [Expression.var "x"]
    [call "b" [], call "c" [call "d" []]]

/-! ## Sample programs for locals and formals -/

/-- A user module `module (p) { p = 1; p = 2; a(); }`: the formal `p` is
assigned twice by locals. -/
def twiceModule : Module Expression Unit (AbstractModule Expression Unit) :=
  { argnames := ["p"], argexpr := [none], assignments_var := ["p", "p"],
    assignments_expr := [Expression.const (Value.number 1),
                         Expression.const (Value.number 2)],
    functions := [], modules := [], children := [call "a" []] }

/-- A user module `module (p) { p = p + 1; a(); }`: the local `p` is computed
from the formal `p`. -/
def bumpModule : Module Expression Unit (AbstractModule Expression Unit) :=
  { argnames := ["p"], argexpr := [none], assignments_var := ["p"],
    assignments_expr := [Expression.add (Expression.var "p")
                          (Expression.const (Value.number 1))],
    functions := [], modules := [], children := [call "a" []] }

/-- The scope that `twiceModule` builds when called from the empty top-level
scope. -/
def twiceScope : Store Expression Unit :=
  [emptyRoot,
   { parent := some 0, variables_ := [("p", Value.number 2)], functions_p := some [],
     modules_p := some [] }]

/-! # Theorems -/

/-! ## Tables -/

theorem QHash.value_insert_self {α : Type} (m : QHash α) (k : String) (v : α) :
    QHash.value (QHash.insert m k v) k = some v := by
  simp [QHash.insert, QHash.value]

theorem QHash.value_filter_ne {α : Type} (k k2 : String) (h : k2 ≠ k) :
    ∀ m : QHash α,
      QHash.value (m.filter (fun p => decide (p.1 ≠ k))) k2 = QHash.value m k2 := by
  intro m
  induction m with
  | nil => rfl
  | cons p ps ih =>
    obtain ⟨a, b⟩ := p
    by_cases hak : a = k
    · have hp : ¬ (decide ((a, b).1 ≠ k) = true) := by simp [hak]
      have hne : ¬ (a = k2) := fun e => h (e.symm.trans hak)
      rw [@List.filter_cons_of_neg (String × α) (fun p => decide (p.1 ≠ k)) (a, b) ps hp, ih]
      simp only [QHash.value, hne, if_false]
    · have hp : decide ((a, b).1 ≠ k) = true := by simp [hak]
      rw [@List.filter_cons_of_pos (String × α) (fun p => decide (p.1 ≠ k)) (a, b) ps hp]
      by_cases hak2 : a = k2
      · simp only [QHash.value, hak2, if_true]
      · simp only [QHash.value, hak2, if_false, ih]

theorem QHash.value_insert_ne {α : Type} (m : QHash α) (k k2 : String) (v : α)
    (h : k2 ≠ k) : QHash.value (QHash.insert m k v) k2 = QHash.value m k2 := by
  have hne : ¬ (k = k2) := fun e => h e.symm
  simp only [QHash.insert, QHash.value, hne, if_false]
  exact QHash.value_filter_ne k k2 h m

/-! ## Stores -/

theorem Store.update_append_self {E F : Type} (st : Store E F) (x : Context E F)
    (f : Context E F → Context E F) :
    Store.update (st ++ [x]) st.length f = st ++ [f x] := by
  induction st with
  | nil => rfl
  | cons y ys ih => simp [Store.update, ih]

theorem Store.setVariable_append_self {E F : Type} (st : Store E F) (x : Context E F)
    (name : String) (v : Value) :
    Store.setVariable (st ++ [x]) st.length name v
      = st ++ [{ x with variables_ := QHash.insert x.variables_ name v }] :=
  Store.update_append_self st x _

theorem Store.touchVariable_append_self {E F : Type} (st : Store E F) (x : Context E F)
    (name : String) :
    Store.touchVariable (st ++ [x]) st.length name
      = st ++ [Context.touchVariable x name] :=
  Store.update_append_self st x _

/-- The subscript on its own leaves a scope that binds the name as it is. -/
theorem Context.touchVariable_of_bound {E F : Type} (x : Context E F) (name : String)
    (h : (QHash.value x.variables_ name).isSome = true) :
    Context.touchVariable x name = x := by
  unfold Context.touchVariable
  cases hv : QHash.value x.variables_ name with
  | some v => rfl
  | none => rw [hv] at h; cases h

/-- The subscript on its own creates an `Undefined` entry in a scope that does
not bind the name. -/
theorem Context.touchVariable_of_unbound {E F : Type} (x : Context E F) (name : String)
    (h : QHash.value x.variables_ name = none) :
    Context.touchVariable x name
      = { x with variables_ := QHash.insert x.variables_ name Value.undefined } := by
  unfold Context.touchVariable
  rw [h]

theorem Context.touchVariable_fields {E F : Type} (x : Context E F) (name : String) :
    (Context.touchVariable x name).parent = x.parent
      ∧ (Context.touchVariable x name).functions_p = x.functions_p
      ∧ (Context.touchVariable x name).modules_p = x.modules_p := by
  unfold Context.touchVariable
  cases QHash.value x.variables_ name with
  | some v => exact ⟨rfl, rfl, rfl⟩
  | none => exact ⟨rfl, rfl, rfl⟩

/-- The scope against which an initializer is evaluated, when the scope being
built is on top of the store: the store with the same top scope, or with the
top scope after the subscript on its own. -/
theorem Module.initializer_scope_append_self {E F : Type} (entry_first : Bool)
    (st : Store E F) (x : Context E F) (name : String) :
    Module.initializer_scope entry_first (st ++ [x]) st.length name
      = st ++ [if entry_first = true then Context.touchVariable x name else x] := by
  unfold Module.initializer_scope
  cases entry_first with
  | false => rfl
  | true => exact Store.touchVariable_append_self st x name

/-- The scope against which an initializer is evaluated differs from the scope
being built in nothing but, possibly, an entry under the name assigned: the
parent and the tables are the same, every other name is bound as before, and
a name that was bound is bound as before. -/
theorem Module.initializer_scope_top {E F : Type} (entry_first : Bool)
    (st : Store E F) (x : Context E F) (name : String) :
    ∃ y : Context E F,
      Module.initializer_scope entry_first (st ++ [x]) st.length name = st ++ [y]
        ∧ y.parent = x.parent ∧ y.functions_p = x.functions_p
        ∧ y.modules_p = x.modules_p
        ∧ (∀ k : String, k ≠ name →
            QHash.value y.variables_ k = QHash.value x.variables_ k)
        ∧ ((QHash.value x.variables_ name).isSome = true → y = x) := by
  refine ⟨_, Module.initializer_scope_append_self entry_first st x name, ?_⟩
  cases entry_first with
  | false => exact ⟨rfl, rfl, rfl, fun _ _ => rfl, fun _ => rfl⟩
  | true =>
    obtain ⟨h1, h2, h3⟩ := Context.touchVariable_fields x name
    refine ⟨h1, h2, h3, ?_, fun h => Context.touchVariable_of_bound x name h⟩
    intro k hk
    simp only [if_true]
    cases hv : QHash.value x.variables_ name with
    | some v =>
      rw [Context.touchVariable_of_bound x name (by rw [hv]; rfl)]
    | none =>
      rw [Context.touchVariable_of_unbound x name hv]
      exact QHash.value_insert_ne _ _ _ _ hk

/-- An initializer of a name that the scope being built binds already is
evaluated against that scope as it stands, whichever operand comes first. -/
theorem Module.initializer_scope_of_bound {E F : Type} (entry_first : Bool)
    (st : Store E F) (x : Context E F) (name : String)
    (h : (QHash.value x.variables_ name).isSome = true) :
    Module.initializer_scope entry_first (st ++ [x]) st.length name = st ++ [x] := by
  obtain ⟨y, hy, _, _, _, _, hb⟩ := Module.initializer_scope_top entry_first st x name
  rw [hy, hb h]

/-- Formal binding writes only the scope on top of the store. -/
theorem Context.bind_formals_top {E F : Type} (ev : E → Store E F → Nat → Value)
    (named : List (String × Value)) (st : Store E F) :
    ∀ (fs : List String) (ds : List (Option E)) (ps : List Value) (x : Context E F),
      ∃ y : Context E F,
        Context.bind_formals ev st.length named fs ds ps (st ++ [x]) = st ++ [y]
          ∧ y.parent = x.parent ∧ y.functions_p = x.functions_p
          ∧ y.modules_p = x.modules_p := by
  intro fs
  induction fs with
  | nil => intro ds ps x; exact ⟨x, rfl, rfl, rfl, rfl⟩
  | cons f fs ih =>
    intro ds ps x
    unfold Context.bind_formals
    cases hn : QHash.value named f with
    | some v =>
      simp only [Store.setVariable_append_self]
      obtain ⟨y, h1, h2, h3, h4⟩ := ih ds.tail ps _
      exact ⟨y, h1, h2, h3, h4⟩
    | none =>
      cases ps with
      | cons v ps =>
        simp only [Store.setVariable_append_self]
        obtain ⟨y, h1, h2, h3, h4⟩ := ih ds.tail ps _
        exact ⟨y, h1, h2, h3, h4⟩
      | nil =>
        cases hd : ds.head?.join with
        | some e =>
          simp only [Store.setVariable_append_self]
          obtain ⟨y, h1, h2, h3, h4⟩ := ih ds.tail [] _
          exact ⟨y, h1, h2, h3, h4⟩
        | none =>
          simp only [Store.setVariable_append_self]
          obtain ⟨y, h1, h2, h3, h4⟩ := ih ds.tail [] _
          exact ⟨y, h1, h2, h3, h4⟩

/-- The scope before the local assignments is the caller's store with one
scope on top, whose parent is `ctx` and whose tables are those of the module. -/
theorem Module.formals_scope_top {E F : Type} (ev : E → Store E F → Nat → Value)
    (m : Module E F (AbstractModule E F)) (st : Store E F) (ctx : Nat)
    (an : List String) (av : List Value) :
    ∃ y : Context E F,
      Module.formals_scope ev m st ctx an av = st ++ [y]
        ∧ y.parent = some ctx ∧ y.functions_p = some m.functions
        ∧ y.modules_p = some m.modules := by
  unfold Module.formals_scope Context.args
  obtain ⟨y, h1, h2, _, _⟩ := Context.bind_formals_top ev
    (List.filter (fun p => decide (p.1 ≠ "")) (an.zip av)) st m.argnames m.argexpr
    (List.map Prod.snd (List.filter (fun p => decide (p.1 = "")) (an.zip av)))
    (Context.new ctx)
  simp only [h1, Store.update_append_self]
  exact ⟨_, rfl, h2, rfl, rfl⟩

/-- Local assignment writes only the scope on top of the store. -/
theorem Module.assign_top {E F : Type} (ev : E → Store E F → Nat → Value) (entry_first : Bool)
    (st : Store E F) :
    ∀ (xs : List String) (es : List E) (x : Context E F) (st4 : Store E F),
      Module.assign ev entry_first st.length xs es (st ++ [x]) = .ok st4 →
      ∃ y : Context E F, st4 = st ++ [y] ∧ y.parent = x.parent
        ∧ y.functions_p = x.functions_p ∧ y.modules_p = x.modules_p := by
  intro xs
  induction xs with
  | nil =>
    intro es x st4 h
    simp only [Module.assign, Except.ok.injEq] at h
    exact ⟨x, h.symm, rfl, rfl, rfl⟩
  | cons v xs ih =>
    intro es x st4 h
    cases es with
    | nil => simp [Module.assign] at h
    | cons e es =>
      obtain ⟨x1, hx1, p2, p3, p4, _, _⟩ :=
        Module.initializer_scope_top entry_first st x v
      simp only [Module.assign, hx1, Store.setVariable_append_self] at h
      obtain ⟨y, h1, h2, h3, h4⟩ := ih es _ st4 h
      exact ⟨y, h1, h2.trans p2, h3.trans p3, h4.trans p4⟩

/-- The scope that `Module::evaluate` builds is the caller's store with one
scope on top, whose parent is `ctx` and whose tables are those of the module. -/
theorem Module.scope_top {E F : Type} (ev : E → Store E F → Nat → Value) (entry_first : Bool)
    (m : Module E F (AbstractModule E F)) (st : Store E F) (ctx : Nat)
    (an : List String) (av : List Value) (st4 : Store E F)
    (h : Module.scope ev entry_first m st ctx an av = .ok st4) :
    ∃ y : Context E F, st4 = st ++ [y] ∧ y.parent = some ctx
      ∧ y.functions_p = some m.functions ∧ y.modules_p = some m.modules := by
  obtain ⟨x, hx, hp, hf, hm⟩ := Module.formals_scope_top ev m st ctx an av
  unfold Module.scope at h
  rw [hx] at h
  obtain ⟨y, h1, h2, h3, h4⟩ := Module.assign_top ev entry_first st _ _ x st4 h
  exact ⟨y, h1, h2.trans hp, h3.trans hf, h4.trans hm⟩

/-- The local assignments succeed when every local has an initializer. -/
theorem Module.assign_ok {E F : Type} (ev : E → Store E F → Nat → Value)
    (entry_first : Bool) (c : Nat) :
    ∀ (xs : List String) (es : List E) (st : Store E F),
      xs.length ≤ es.length → ∃ st4, Module.assign ev entry_first c xs es st = .ok st4 := by
  intro xs
  induction xs with
  | nil => intro es st _; exact ⟨st, rfl⟩
  | cons v xs ih =>
    intro es st h
    cases es with
    | nil => simp at h
    | cons e es =>
      simp only [List.length_cons, Nat.add_le_add_iff_right] at h
      exact ih es _ h

/-! ## The frame of evaluation -/

theorem evaluate_children_store {E F : Type}
    (self : ModuleInstanciation E → Store E F → Nat →
      Except Fault (AbstractNode × Store E F))
    (hself : PreservesStore self) :
    ∀ (vs : List (ModuleInstanciation E)) (st : Store E F) (ctx : Nat)
      (nodes : List AbstractNode) (st1 : Store E F),
      evaluate_children self vs st ctx = .ok (nodes, st1) → st1 = st := by
  intro vs
  induction vs with
  | nil =>
    intro st ctx nodes st1 h
    simp only [evaluate_children, Except.ok.injEq, Prod.mk.injEq] at h
    exact h.2.symm
  | cons v vs ih =>
    intro st ctx nodes st1 h
    unfold evaluate_children at h
    cases h1 : self v st ctx with
    | error e => simp [h1] at h
    | ok r =>
      obtain ⟨node, st2⟩ := r
      have e2 : st2 = st := hself v st ctx node st2 h1
      subst e2
      simp only [h1] at h
      cases h2 : evaluate_children self vs st2 ctx with
      | error e => simp [h2] at h
      | ok r2 =>
        obtain ⟨ns, st3⟩ := r2
        have e3 := ih st2 ctx ns st3 h2
        simp only [h2, Except.ok.injEq, Prod.mk.injEq] at h
        rw [← h.2, e3]

/-- The loop `foreach (v, child_nodes) node->children.append(v)` appends the
supplied nodes, in order, after the children the node already has. -/
theorem append_children_loop (child_nodes : List AbstractNode) :
    ∀ acc : List AbstractNode,
      child_nodes.foldl (fun n v => AbstractNode.mk (n.children ++ [v]))
        (AbstractNode.mk acc) = AbstractNode.mk (acc ++ child_nodes) := by
  induction child_nodes with
  | nil => intro acc; simp
  | cons v vs ih =>
    intro acc
    have hstep : AbstractNode.mk ((AbstractNode.mk acc).children ++ [v])
        = AbstractNode.mk (acc ++ [v]) := rfl
    rw [List.foldl_cons, hstep, ih (acc ++ [v]), List.append_assoc,
      List.singleton_append]

theorem AbstractModule.evaluate_eq {E F : Type} (st : Store E F) (ctx : Nat)
    (an : List String) (av : List Value) (child_nodes : List AbstractNode) :
    AbstractModule.evaluate st ctx an av child_nodes = AbstractNode.mk child_nodes := by
  unfold AbstractModule.evaluate
  rw [append_children_loop]
  rfl

/-- What `Module::evaluate` returns, given the scope it built and the result of
evaluating its body. -/
theorem Module.evaluate_of_body {E F : Type} (ev : E → Store E F → Nat → Value) (entry_first : Bool)
    (self : ModuleInstanciation E → Store E F → Nat →
      Except Fault (AbstractNode × Store E F))
    (m : Module E F (AbstractModule E F)) (st : Store E F) (ctx : Nat)
    (an : List String) (av : List Value) (child_nodes : List AbstractNode)
    (st4 st5 : Store E F) (nodes : List AbstractNode)
    (hscope : Module.scope ev entry_first m st ctx an av = .ok st4)
    (hbody : evaluate_children self m.children st4 st.length = .ok (nodes, st5)) :
    Module.evaluate ev entry_first self m st ctx an av child_nodes
      = .ok (AbstractNode.mk (nodes ++ child_nodes), st5.take st.length) := by
  unfold Module.evaluate
  simp only [hscope, hbody, List.nil_append, append_children_loop]

/-- If `Module::evaluate` returns, it built its scope and evaluated its body. -/
theorem Module.evaluate_ok_inv {E F : Type} (ev : E → Store E F → Nat → Value) (entry_first : Bool)
    (self : ModuleInstanciation E → Store E F → Nat →
      Except Fault (AbstractNode × Store E F))
    (m : Module E F (AbstractModule E F)) (st : Store E F) (ctx : Nat)
    (an : List String) (av : List Value) (child_nodes : List AbstractNode)
    (node : AbstractNode) (st6 : Store E F)
    (h : Module.evaluate ev entry_first self m st ctx an av child_nodes = .ok (node, st6)) :
    ∃ st4 st5 nodes, Module.scope ev entry_first m st ctx an av = .ok st4
      ∧ evaluate_children self m.children st4 st.length = .ok (nodes, st5)
      ∧ node = AbstractNode.mk (nodes ++ child_nodes) ∧ st6 = st5.take st.length := by
  unfold Module.evaluate at h
  cases hs : Module.scope ev entry_first m st ctx an av with
  | error e => simp [hs] at h
  | ok st4 =>
    simp only [hs] at h
    cases hb : evaluate_children self m.children st4 st.length with
    | error e => simp [hb] at h
    | ok r =>
      obtain ⟨nodes, st5⟩ := r
      simp only [hb, List.nil_append, append_children_loop, Except.ok.injEq,
        Prod.mk.injEq] at h
      exact ⟨st4, st5, nodes, rfl, hb, h.1.symm, h.2.symm⟩

theorem Module.evaluate_hands_back_store {E F : Type} (ev : E → Store E F → Nat → Value)
    (entry_first : Bool)
    (self : ModuleInstanciation E → Store E F → Nat →
      Except Fault (AbstractNode × Store E F))
    (hself : PreservesStore self)
    (m : Module E F (AbstractModule E F)) (st : Store E F) (ctx : Nat)
    (an : List String) (av : List Value) (child_nodes : List AbstractNode)
    (node : AbstractNode) (st6 : Store E F)
    (h : Module.evaluate ev entry_first self m st ctx an av child_nodes = .ok (node, st6)) :
    st6 = st := by
  obtain ⟨st4, st5, nodes, hs, hb, _, h6⟩ :=
    Module.evaluate_ok_inv ev entry_first self m st ctx an av child_nodes node st6 h
  obtain ⟨y, hy, _⟩ := Module.scope_top ev entry_first m st ctx an av st4 hs
  have h5 : st5 = st4 := evaluate_children_store self hself _ _ _ _ _ hb
  rw [h6, h5, hy]
  simp

theorem AbstractModule.dispatch_store {E F : Type} (ev : E → Store E F → Nat → Value)
    (entry_first : Bool)
    (self : ModuleInstanciation E → Store E F → Nat →
      Except Fault (AbstractNode × Store E F))
    (hself : PreservesStore self)
    (am : AbstractModule E F) (st : Store E F) (ctx : Nat)
    (an : List String) (av : List Value) (child_nodes : List AbstractNode)
    (node : AbstractNode) (st1 : Store E F)
    (h : AbstractModule.dispatch ev entry_first self am st ctx an av child_nodes
      = .ok (node, st1)) :
    st1 = st := by
  cases am with
  | abstract =>
    simp only [AbstractModule.dispatch, Except.ok.injEq, Prod.mk.injEq] at h
    exact h.2.symm
  | module m =>
    exact Module.evaluate_hands_back_store ev entry_first self hself m st ctx an av
      child_nodes node st1 h

theorem Context.evaluate_module_store {E F : Type} (ev : E → Store E F → Nat → Value)
    (entry_first : Bool)
    (self : ModuleInstanciation E → Store E F → Nat →
      Except Fault (AbstractNode × Store E F))
    (hself : PreservesStore self) (reg : QHash (AbstractModule E F))
    (st : Store E F) (ctx : Nat) (name : String)
    (an : List String) (av : List Value) (child_nodes : List AbstractNode)
    (node : AbstractNode) (st1 : Store E F)
    (h : Context.evaluate_module ev entry_first self reg st ctx name an av child_nodes
      = .ok (node, st1)) :
    st1 = st := by
  unfold Context.evaluate_module at h
  cases hf : Context.find_module st st.length ctx name with
  | some r =>
    obtain ⟨d, am⟩ := r
    simp only [hf] at h
    exact AbstractModule.dispatch_store ev entry_first self hself am st d an av child_nodes
      node st1 h
  | none =>
    simp only [hf] at h
    cases hr : QHash.value reg name with
    | some am =>
      simp only [hr] at h
      exact AbstractModule.dispatch_store ev entry_first self hself am st ctx an av
        child_nodes node st1 h
    | none =>
      simp only [hr, Except.ok.injEq, Prod.mk.injEq] at h
      exact h.2.symm

/-- Evaluating an instantiation hands back the store it was given: every scope
pushed during the evaluation has been popped, and no scope that was there
before has been written. -/
theorem ModuleInstanciation.evaluate_preserves_store {E F : Type}
    (ev : E → Store E F → Nat → Value) (entry_first : Bool) (reg : QHash (AbstractModule E F)) :
    ∀ fuel : Nat, PreservesStore (ModuleInstanciation.evaluate ev entry_first reg fuel) := by
  intro fuel
  induction fuel with
  | zero =>
    intro v st ctx node st1 h
    simp [ModuleInstanciation.evaluate] at h
  | succ n ih =>
    intro v st ctx node st1 h
    unfold ModuleInstanciation.evaluate at h
    cases hc : evaluate_children (ModuleInstanciation.evaluate ev entry_first reg n)
        v.children st ctx with
    | error e => simp [hc] at h
    | ok r =>
      obtain ⟨cn, st2⟩ := r
      have e2 : st2 = st := evaluate_children_store _ ih _ _ _ _ _ hc
      simp only [hc] at h
      rw [Context.evaluate_module_store ev entry_first _ ih reg st2 ctx _ _ _ cn node st1 h, e2]

/-- The result of the child loop, node by node. -/
theorem evaluate_children_of_forall {E F : Type}
    (self : ModuleInstanciation E → Store E F → Nat →
      Except Fault (AbstractNode × Store E F))
    (hself : PreservesStore self) (st : Store E F) (ctx : Nat) :
    ∀ (vs : List (ModuleInstanciation E)) (nodes : List AbstractNode),
      List.Forall₂ (fun v n => ∃ s, self v st ctx = .ok (n, s)) vs nodes →
      evaluate_children self vs st ctx = .ok (nodes, st) := by
  intro vs nodes h
  induction h with
  | nil => rfl
  | cons hv _ ih =>
    obtain ⟨s, hs⟩ := hv
    have es := hself _ _ _ _ _ hs
    subst es
    simp only [evaluate_children, hs, ih]

/-- The child loop returns exactly when every instantiation evaluates, and
then returns their nodes in order. -/
theorem evaluate_children_forall {E F : Type}
    (self : ModuleInstanciation E → Store E F → Nat →
      Except Fault (AbstractNode × Store E F))
    (hself : PreservesStore self) (ctx : Nat) :
    ∀ (vs : List (ModuleInstanciation E)) (st st1 : Store E F)
      (nodes : List AbstractNode),
      evaluate_children self vs st ctx = .ok (nodes, st1) →
      List.Forall₂ (fun v n => ∃ s, self v st ctx = .ok (n, s)) vs nodes := by
  intro vs
  induction vs with
  | nil =>
    intro st st1 nodes h
    simp only [evaluate_children, Except.ok.injEq, Prod.mk.injEq] at h
    rw [← h.1]
    exact List.Forall₂.nil
  | cons v vs ih =>
    intro st st1 nodes h
    unfold evaluate_children at h
    cases h1 : self v st ctx with
    | error e => simp [h1] at h
    | ok r =>
      obtain ⟨node, st2⟩ := r
      have e2 : st2 = st := hself v st ctx node st2 h1
      simp only [h1] at h
      cases h2 : evaluate_children self vs st2 ctx with
      | error e => simp [h2] at h
      | ok r2 =>
        obtain ⟨ns, st3⟩ := r2
        simp only [h2, Except.ok.injEq, Prod.mk.injEq] at h
        rw [← h.1]
        refine List.Forall₂.cons ⟨st2, h1⟩ ?_
        rw [e2] at h2
        exact ih st st3 ns h2

/-! ## Local assignments -/

/-- The local assignments of a list split in two run one part after the other. -/
theorem Module.assign_append {E F : Type} (ev : E → Store E F → Nat → Value)
    (entry_first : Bool) (c : Nat) :
    ∀ (xs : List String) (es : List E), xs.length = es.length →
      ∀ (xs2 : List String) (es2 : List E) (st : Store E F),
        Module.assign ev entry_first c (xs ++ xs2) (es ++ es2) st
          = match Module.assign ev entry_first c xs es st with
            | .ok st1 => Module.assign ev entry_first c xs2 es2 st1
            | .error e => .error e := by
  intro xs
  induction xs with
  | nil =>
    intro es h xs2 es2 st
    cases es with
    | nil => rfl
    | cons e es => simp at h
  | cons x xs ih =>
    intro es h xs2 es2 st
    cases es with
    | nil => simp at h
    | cons e es =>
      simp only [List.length_cons, Nat.add_right_cancel_iff] at h
      simp only [List.cons_append, Module.assign]
      exact ih es h xs2 es2 _

/-- A local assignment to another name leaves the binding of `name` alone. -/
theorem Module.assign_other {E F : Type} (ev : E → Store E F → Nat → Value) (entry_first : Bool)
    (st : Store E F) (name : String) :
    ∀ (xs : List String) (es : List E) (x : Context E F) (st4 : Store E F),
      name ∉ xs →
      Module.assign ev entry_first st.length xs es (st ++ [x]) = .ok st4 →
      ∃ y : Context E F, st4 = st ++ [y]
        ∧ QHash.value y.variables_ name = QHash.value x.variables_ name := by
  intro xs
  induction xs with
  | nil =>
    intro es x st4 _ h
    simp only [Module.assign, Except.ok.injEq] at h
    exact ⟨x, h.symm, rfl⟩
  | cons v xs ih =>
    intro es x st4 hn h
    cases es with
    | nil => simp [Module.assign] at h
    | cons e es =>
      simp only [List.mem_cons, not_or] at hn
      obtain ⟨x1, hx1, _, _, _, hother, _⟩ :=
        Module.initializer_scope_top entry_first st x v
      simp only [Module.assign, hx1, Store.setVariable_append_self] at h
      obtain ⟨y, h1, h2⟩ := ih es _ st4 hn.2 h
      refine ⟨y, h1, ?_⟩
      rw [h2, ← hother name hn.1]
      exact QHash.value_insert_ne _ _ _ _ hn.1

/-- One more round of the local-assignment loop. -/
theorem Module.scope_before_local_succ {E F : Type} (ev : E → Store E F → Nat → Value)
    (entry_first : Bool)
    (m : Module E F (AbstractModule E F)) (st : Store E F) (ctx : Nat)
    (an : List String) (av : List Value) (i : Nat) (x : String) (e : E)
    (hx : m.assignments_var.get? i = some x) (he : m.assignments_expr.get? i = some e) :
    Module.scope_before_local ev entry_first m st ctx an av (i + 1)
      = match Module.scope_before_local ev entry_first m st ctx an av i with
        | .ok si =>
          .ok (Store.setVariable (Module.initializer_scope entry_first si st.length x)
            st.length x (ev e (Module.initializer_scope entry_first si st.length x) st.length))
        | .error err => .error err := by
  have hx2 : m.assignments_var[i]? = some x := by simpa using hx
  have he2 : m.assignments_expr[i]? = some e := by simpa using he
  have hix : i < m.assignments_var.length := by
    obtain ⟨h, _⟩ := List.getElem?_eq_some.mp hx2
    exact h
  have hie : i < m.assignments_expr.length := by
    obtain ⟨h, _⟩ := List.getElem?_eq_some.mp he2
    exact h
  unfold Module.scope_before_local
  rw [List.take_succ, List.take_succ, hx2, he2]
  simp only [Option.toList]
  rw [Module.assign_append ev entry_first st.length _ _ (by simp [Nat.min_eq_left, Nat.le_of_lt hix,
    Nat.le_of_lt hie])]
  cases Module.assign ev entry_first st.length (List.take i m.assignments_var)
      (List.take i m.assignments_expr) (Module.formals_scope ev m st ctx an av) with
  | error err => rfl
  | ok si => rfl

/-- The binding of a local after the whole loop is the one written by the last
round that assigns it. -/
theorem Module.scope_last_assignment {E F : Type} (ev : E → Store E F → Nat → Value)
    (entry_first : Bool)
    (m : Module E F (AbstractModule E F)) (st : Store E F) (ctx : Nat)
    (an : List String) (av : List Value) (i : Nat) (x : String) (e : E)
    (si sn : Store E F)
    (hx : m.assignments_var.get? i = some x) (he : m.assignments_expr.get? i = some e)
    (hlast : ∀ j, i < j → m.assignments_var.get? j ≠ some x)
    (hsi : Module.scope_before_local ev entry_first m st ctx an av i = .ok si)
    (hsn : Module.scope ev entry_first m st ctx an av = .ok sn) :
    ∃ y : Context E F, sn = st ++ [y]
      ∧ QHash.value y.variables_ x
          = some (ev e (Module.initializer_scope entry_first si st.length x) st.length) := by
  have hx2 : m.assignments_var[i]? = some x := by simpa using hx
  have he2 : m.assignments_expr[i]? = some e := by simpa using he
  obtain ⟨hix, _⟩ := List.getElem?_eq_some.mp hx2
  obtain ⟨hie, _⟩ := List.getElem?_eq_some.mp he2
  obtain ⟨y0, hy0, _⟩ := Module.formals_scope_top ev m st ctx an av
  -- the scope before round `i` is the caller's store with one scope on top
  have hsi2 := hsi
  unfold Module.scope_before_local at hsi2
  rw [hy0] at hsi2
  obtain ⟨yi, hyi, _⟩ := Module.assign_top ev entry_first st _ _ y0 si hsi2
  -- round `i`
  have hstep := Module.scope_before_local_succ ev entry_first m st ctx an av i x e hx he
  rw [hsi] at hstep
  simp only at hstep
  obtain ⟨x1, hx1, _⟩ := Module.initializer_scope_top entry_first st yi x
  rw [hyi, hx1, Store.setVariable_append_self] at hstep
  -- the rounds after `i`
  have hsplit : Module.scope ev entry_first m st ctx an av
      = match Module.scope_before_local ev entry_first m st ctx an av (i + 1) with
        | .ok s1 => Module.assign ev entry_first st.length (m.assignments_var.drop (i + 1))
            (m.assignments_expr.drop (i + 1)) s1
        | .error err => .error err := by
    unfold Module.scope Module.scope_before_local
    rw [← Module.assign_append ev entry_first st.length _ _ (by simp [Nat.min_eq_left,
      Nat.succ_le_of_lt hix, Nat.succ_le_of_lt hie]), List.take_append_drop,
      List.take_append_drop]
  rw [hsplit, hstep] at hsn
  simp only at hsn
  have hnot : x ∉ m.assignments_var.drop (i + 1) := by
    intro hmem
    obtain ⟨k, hk, hkx⟩ := List.getElem_of_mem hmem
    rw [List.getElem_drop] at hkx
    have hk2 : i + 1 + k < m.assignments_var.length := by
      rw [List.length_drop] at hk
      omega
    apply hlast (i + 1 + k) (by omega)
    rw [List.get?_eq_getElem?, List.getElem?_eq_getElem hk2, hkx]
  obtain ⟨y, hy, hval⟩ := Module.assign_other ev entry_first st x _ _ _ sn hnot hsn
  refine ⟨y, hy, ?_⟩
  rw [hval, hyi, hx1]
  exact QHash.value_insert_self _ _ _

/-! ## Names bound in the scope being built -/

/-- After an assignment the name assigned has an entry, and every name that
had an entry has one still. -/
theorem QHash.value_insert_isSome {α : Type} (m : QHash α) (name k : String) (v : α)
    (h : k = name ∨ (QHash.value m k).isSome = true) :
    (QHash.value (QHash.insert m name v) k).isSome = true := by
  by_cases hk : k = name
  · rw [hk, QHash.value_insert_self]
    rfl
  · rw [QHash.value_insert_ne m name k v hk]
    cases h with
    | inl h1 => exact absurd h1 hk
    | inr h2 => exact h2

/-- Formal binding gives every formal an entry in the scope on top of the
store, and keeps the entries that scope had. -/
theorem Context.bind_formals_bound {E F : Type} (ev : E → Store E F → Nat → Value)
    (named : List (String × Value)) (st : Store E F) :
    ∀ (fs : List String) (ds : List (Option E)) (ps : List Value) (x : Context E F),
      ∃ y : Context E F,
        Context.bind_formals ev st.length named fs ds ps (st ++ [x]) = st ++ [y]
          ∧ ∀ k : String, (k ∈ fs ∨ (QHash.value x.variables_ k).isSome = true) →
              (QHash.value y.variables_ k).isSome = true := by
  intro fs
  induction fs with
  | nil =>
    intro ds ps x
    refine ⟨x, rfl, ?_⟩
    intro k hk
    cases hk with
    | inl h1 => cases h1
    | inr h2 => exact h2
  | cons f fs ih =>
    intro ds ps x
    have hstep : ∀ (v : Value) (ds2 : List (Option E)) (ps2 : List Value),
        ∃ y : Context E F,
          Context.bind_formals ev st.length named fs ds2 ps2
              (Store.setVariable (st ++ [x]) st.length f v) = st ++ [y]
            ∧ ∀ k : String, (k ∈ f :: fs ∨ (QHash.value x.variables_ k).isSome = true) →
                (QHash.value y.variables_ k).isSome = true := by
      intro v ds2 ps2
      rw [Store.setVariable_append_self]
      obtain ⟨y, h1, h2⟩ := ih ds2 ps2 { x with variables_ := QHash.insert x.variables_ f v }
      refine ⟨y, h1, ?_⟩
      intro k hk
      apply h2 k
      cases hk with
      | inl hmem =>
        cases List.mem_cons.mp hmem with
        | inl hkf => exact Or.inr (QHash.value_insert_isSome _ _ _ _ (Or.inl hkf))
        | inr hkfs => exact Or.inl hkfs
      | inr hb => exact Or.inr (QHash.value_insert_isSome _ _ _ _ (Or.inr hb))
    unfold Context.bind_formals
    cases hn : QHash.value named f with
    | some v => exact hstep v _ _
    | none =>
      cases ps with
      | cons v ps => exact hstep v _ _
      | nil =>
        cases hd : ds.head?.join with
        | some e => exact hstep _ _ _
        | none => exact hstep _ _ _

/-- Every formal has an entry in the scope before the local assignments. -/
theorem Module.formals_scope_bound {E F : Type} (ev : E → Store E F → Nat → Value)
    (m : Module E F (AbstractModule E F)) (st : Store E F) (ctx : Nat)
    (an : List String) (av : List Value) :
    ∃ y : Context E F,
      Module.formals_scope ev m st ctx an av = st ++ [y]
        ∧ ∀ k : String, k ∈ m.argnames → (QHash.value y.variables_ k).isSome = true := by
  unfold Module.formals_scope Context.args
  obtain ⟨y, h1, h2⟩ := Context.bind_formals_bound ev
    (List.filter (fun p => decide (p.1 ≠ "")) (an.zip av)) st m.argnames m.argexpr
    (List.map Prod.snd (List.filter (fun p => decide (p.1 = "")) (an.zip av)))
    (Context.new ctx)
  simp only [h1, Store.update_append_self]
  exact ⟨_, rfl, fun k hk => h2 k (Or.inl hk)⟩

/-- Local assignment keeps every entry that the scope on top of the store had. -/
theorem Module.assign_bound {E F : Type} (ev : E → Store E F → Nat → Value)
    (entry_first : Bool) (st : Store E F) (name : String) :
    ∀ (xs : List String) (es : List E) (x : Context E F) (st4 : Store E F),
      (QHash.value x.variables_ name).isSome = true →
      Module.assign ev entry_first st.length xs es (st ++ [x]) = .ok st4 →
      ∃ y : Context E F, st4 = st ++ [y]
        ∧ (QHash.value y.variables_ name).isSome = true := by
  intro xs
  induction xs with
  | nil =>
    intro es x st4 hb h
    simp only [Module.assign, Except.ok.injEq] at h
    exact ⟨x, h.symm, hb⟩
  | cons v xs ih =>
    intro es x st4 hb h
    cases es with
    | nil => simp [Module.assign] at h
    | cons e es =>
      obtain ⟨x1, hx1, _, _, _, hother, hsame⟩ :=
        Module.initializer_scope_top entry_first st x v
      simp only [Module.assign, hx1, Store.setVariable_append_self] at h
      refine ih es _ st4 ?_ h
      apply QHash.value_insert_isSome
      by_cases hk : name = v
      · exact Or.inl hk
      · right
        rw [hother name hk]
        exact hb

/-- Every formal has an entry in the scope before each round of the
local-assignment loop, so the initializer of a local named like a formal is
evaluated against that scope as it stands, whichever operand comes first. -/
theorem Module.initializer_scope_of_formal {E F : Type}
    (ev : E → Store E F → Nat → Value) (entry_first : Bool)
    (m : Module E F (AbstractModule E F)) (st : Store E F) (ctx : Nat)
    (an : List String) (av : List Value) (i : Nat) (p : String) (si : Store E F)
    (hformal : p ∈ m.argnames)
    (hsi : Module.scope_before_local ev entry_first m st ctx an av i = .ok si) :
    Module.initializer_scope entry_first si st.length p = si := by
  obtain ⟨y0, hy0, hb0⟩ := Module.formals_scope_bound ev m st ctx an av
  unfold Module.scope_before_local at hsi
  rw [hy0] at hsi
  obtain ⟨yi, hyi, hbi⟩ :=
    Module.assign_bound ev entry_first st p _ _ y0 si (hb0 p hformal) hsi
  rw [hyi]
  exact Module.initializer_scope_of_bound entry_first st yi p hbi

/-- A variable bound in the scope on top of the store is found there. -/
theorem Context.lookup_variable_top {E F : Type} (st : Store E F) (y : Context E F)
    (name : String) (v : Value) (h : QHash.value y.variables_ name = some v) :
    Context.lookup_variable (st ++ [y]) st.length name = v := by
  unfold Context.lookup_variable
  rw [List.length_append, List.length_singleton, Context.lookup_variable_from]
  have hg : (st ++ [y]).get? st.length = some y := by simp
  simp only [hg, h]

/-! ## Reading a dump back -/

/-- Two texts that agree, each split at its first delimiter, agree part by part. -/
theorem split_first_delim (P : Char → Prop) :
    ∀ (a b x y : List Char) (d1 d2 : Char),
      (∀ c ∈ a, ¬ P c) → (∀ c ∈ b, ¬ P c) → P d1 → P d2 →
      a ++ d1 :: x = b ++ d2 :: y → a = b ∧ d1 = d2 ∧ x = y := by
  intro a
  induction a with
  | nil =>
    intro b x y d1 d2 _ hb h1 _ h
    cases b with
    | nil =>
      simp only [List.nil_append, List.cons.injEq] at h
      exact ⟨rfl, h.1, h.2⟩
    | cons c cs =>
      simp only [List.nil_append, List.cons_append, List.cons.injEq] at h
      exact absurd (h.1 ▸ h1) (hb c (List.mem_cons_self c cs))
  | cons c cs ih =>
    intro b x y d1 d2 ha hb h1 h2 h
    cases b with
    | nil =>
      simp only [List.nil_append, List.cons_append, List.cons.injEq] at h
      exact absurd (h.1 ▸ h2) (ha c (List.mem_cons_self c cs))
    | cons e es =>
      simp only [List.cons_append, List.cons.injEq] at h
      obtain ⟨h3, h4, h5⟩ := ih es x y d1 d2
        (fun z hz => ha z (List.mem_cons_of_mem c hz))
        (fun z hz => hb z (List.mem_cons_of_mem e hz)) h1 h2 h.2
      exact ⟨by rw [h.1, h3], h4, h5⟩

theorem string_append_data (a b : String) : (a ++ b).data = a.data ++ b.data :=
  String.data_append a b

theorem string_eq_of_data {a b : String} (h : a.data = b.data) : a = b :=
  String.ext h

/-- A common prefix cancels. -/
theorem string_append_cancel_left {p x y : String} (h : p ++ x = p ++ y) : x = y := by
  apply string_eq_of_data
  have h2 := congrArg String.data h
  rw [string_append_data, string_append_data] at h2
  exact List.append_cancel_left h2

/-- A common suffix cancels. -/
theorem string_append_cancel_right {p x y : String} (h : x ++ p = y ++ p) : x = y := by
  apply string_eq_of_data
  have h2 := congrArg String.data h
  rw [string_append_data, string_append_data] at h2
  exact List.append_cancel_right h2

/-- Splitting two equal texts at their first newline. -/
theorem split_first_newline {a b x y : String} (ha : noNewline a) (hb : noNewline b)
    (h : a ++ ("\n" ++ x) = b ++ ("\n" ++ y)) : a = b ∧ x = y := by
  have h2 := congrArg String.data h
  simp only [string_append_data] at h2
  simp only [List.singleton_append] at h2
  obtain ⟨h3, _, h5⟩ := split_first_delim (fun c => c = '\n') a.data b.data x.data y.data
    '\n' '\n' ha hb rfl rfl h2
  exact ⟨string_eq_of_data h3, string_eq_of_data h5⟩

/-- An identifier holds neither a colon nor an opening bracket. -/
theorem isIdentifier_no_delim {s : String} (h : isIdentifier s) :
    ∀ c ∈ s.data, ¬ (c = ':' ∨ c = '(') := by
  intro c hc hd
  have hi := h.2 c hc
  rcases hd with hd | hd <;> subst hd <;> revert hi <;> decide

theorem noNewline_append {a b : String} (ha : noNewline a) (hb : noNewline b) :
    noNewline (a ++ b) := by
  intro c hc
  rw [string_append_data, List.mem_append] at hc
  rcases hc with hc | hc
  · exact ha c hc
  · exact hb c hc

theorem noNewline_of_all {s : String} (h : s.data.all (fun c => decide (c ≠ '\n')) = true) :
    noNewline s := by
  intro c hc
  have := List.all_eq_true.mp h c hc
  simpa using this

/-- The text of a node, line by line: indent, header, argument list, closer,
newline, and the lines of the children. -/
theorem Skeleton.render_eq (indent label modname args : String)
    (children : List Skeleton) :
    Skeleton.render indent (Skeleton.node label modname args children)
      = indent ++ (Skeleton.header label modname
          ++ ((args ++ Skeleton.closer children)
            ++ ("\n" ++ Skeleton.after indent children))) := by
  have e0 : (");\n" : String) = ");" ++ ("\n" ++ "") := by decide
  have e1 : ∀ s : String, ")\n" ++ s = ")" ++ ("\n" ++ s) := by
    intro s
    have : (")\n" : String) = ")" ++ "\n" := by decide
    rw [this, String.append_assoc]
  have e2 : ∀ s : String, ") \x7b\n" ++ s = ") \x7b" ++ ("\n" ++ s) := by
    intro s
    have : (") \x7b\n" : String) = ") \x7b" ++ "\n" := by decide
    rw [this, String.append_assoc]
  match children with
  | [] =>
    simp only [Skeleton.render, Skeleton.header, Skeleton.closer, Skeleton.after,
      String.append_assoc, e0]
  | [child] =>
    simp only [Skeleton.render, Skeleton.header, Skeleton.closer, Skeleton.after,
      String.append_assoc, e1]
  | child :: child2 :: rest =>
    simp only [Skeleton.render, Skeleton.header, Skeleton.closer, Skeleton.after,
      String.append_assoc, e2]

/-- The header of a dump line determines label and construct name. -/
theorem Skeleton.header_inj {l1 m1 l2 m2 x1 x2 : String}
    (hm1 : isIdentifier m1) (hm2 : isIdentifier m2)
    (hl1 : l1 = "" ∨ isIdentifier l1) (hl2 : l2 = "" ∨ isIdentifier l2)
    (h : Skeleton.header l1 m1 ++ x1 = Skeleton.header l2 m2 ++ x2) :
    l1 = l2 ∧ m1 = m2 ∧ x1 = x2 := by
  have hname : ∀ {a b y1 y2 : String}, isIdentifier a → isIdentifier b →
      a.data ++ '(' :: y1.data = b.data ++ '(' :: y2.data → a = b ∧ y1 = y2 := by
    intro a b y1 y2 ha hb he
    obtain ⟨h3, _, h5⟩ := split_first_delim (fun c => c = ':' ∨ c = '(') a.data b.data
      y1.data y2.data '(' '(' (isIdentifier_no_delim ha) (isIdentifier_no_delim hb)
      (Or.inr rfl) (Or.inr rfl) he
    exact ⟨string_eq_of_data h3, string_eq_of_data h5⟩
  have h2 := congrArg String.data h
  unfold Skeleton.header at h2
  by_cases e1 : l1 = "" <;> by_cases e2 : l2 = ""
  · subst e1 e2
    simp only [ne_eq, not_true_eq_false, if_false, string_append_data] at h2
    have h3 : m1.data ++ '(' :: x1.data = m2.data ++ '(' :: x2.data := by
      simpa using h2
    obtain ⟨h4, h5⟩ := hname hm1 hm2 h3
    exact ⟨rfl, h4, h5⟩
  · subst e1
    have hl2i : isIdentifier l2 := hl2.resolve_left e2
    simp only [ne_eq, not_true_eq_false, if_false, e2, not_false_eq_true, if_true,
      string_append_data] at h2
    have h3 : m1.data ++ '(' :: x1.data
        = l2.data ++ ':' :: (' ' :: (m2.data ++ '(' :: x2.data)) := by
      simpa using h2
    obtain ⟨_, h4, _⟩ := split_first_delim (fun c => c = ':' ∨ c = '(') _ _ _ _ '(' ':'
      (isIdentifier_no_delim hm1) (isIdentifier_no_delim hl2i) (Or.inr rfl) (Or.inl rfl) h3
    exact absurd h4 (by decide)
  · subst e2
    have hl1i : isIdentifier l1 := hl1.resolve_left e1
    simp only [ne_eq, not_true_eq_false, if_false, e1, not_false_eq_true, if_true,
      string_append_data] at h2
    have h3 : l1.data ++ ':' :: (' ' :: (m1.data ++ '(' :: x1.data))
        = m2.data ++ '(' :: x2.data := by
      simpa using h2
    obtain ⟨_, h4, _⟩ := split_first_delim (fun c => c = ':' ∨ c = '(') _ _ _ _ ':' '('
      (isIdentifier_no_delim hl1i) (isIdentifier_no_delim hm2) (Or.inl rfl) (Or.inr rfl) h3
    exact absurd h4 (by decide)
  · have hl1i : isIdentifier l1 := hl1.resolve_left e1
    have hl2i : isIdentifier l2 := hl2.resolve_left e2
    simp only [ne_eq, e1, e2, not_false_eq_true, if_true, string_append_data] at h2
    have h3 : l1.data ++ ':' :: (' ' :: (m1.data ++ '(' :: x1.data))
        = l2.data ++ ':' :: (' ' :: (m2.data ++ '(' :: x2.data)) := by
      simpa using h2
    obtain ⟨h4, _, h5⟩ := split_first_delim (fun c => c = ':' ∨ c = '(') _ _ _ _ ':' ':'
      (isIdentifier_no_delim hl1i) (isIdentifier_no_delim hl2i) (Or.inl rfl) (Or.inl rfl) h3
    simp only [List.cons.injEq, true_and] at h5
    obtain ⟨h6, h7⟩ := hname hm1 hm2 h5
    exact ⟨string_eq_of_data h4, h6, h7⟩

/-- The closer of the first line tells the number of children apart: none,
one, or more. -/
theorem Skeleton.closer_inj {t1 t2 : String} (cs1 cs2 : List Skeleton)
    (h : t1 ++ Skeleton.closer cs1 = t2 ++ Skeleton.closer cs2) :
    t1 = t2 ∧ Skeleton.closer cs1 = Skeleton.closer cs2 := by
  have h2 := congrArg (fun s => s.data.reverse) h
  simp only [string_append_data, List.reverse_append] at h2
  have key : Skeleton.closer cs1 = Skeleton.closer cs2 := by
    match cs1, cs2 with
    | [], [] => rfl
    | [], [_] => simp [Skeleton.closer] at h2
    | [], _ :: _ :: _ => simp [Skeleton.closer] at h2
    | [_], [] => simp [Skeleton.closer] at h2
    | [_], [_] => rfl
    | [_], _ :: _ :: _ => simp [Skeleton.closer] at h2
    | _ :: _ :: _, [] => simp [Skeleton.closer] at h2
    | _ :: _ :: _, [_] => simp [Skeleton.closer] at h2
    | _ :: _ :: _, _ :: _ :: _ => rfl
  rw [key] at h
  exact ⟨string_append_cancel_right h, key⟩

theorem Skeleton.noNewline_line {args : String} (children : List Skeleton)
    (h : noNewline args) : noNewline (args ++ Skeleton.closer children) := by
  apply noNewline_append h
  match children with
  | [] => exact noNewline_of_all (by decide)
  | [_] => exact noNewline_of_all (s := ")") (by decide)
  | _ :: _ :: _ => exact noNewline_of_all (s := ") \x7b") (by decide)

mutual
/-- The text of a well-formed structure can be read back from the front of any
text that starts with it: two well-formed structures whose texts at the same
indent are followed by remainders giving equal texts are equal, and so are the
remainders. -/
theorem Skeleton.render_prefix_free :
    ∀ (k1 k2 : Skeleton) (indent r1 r2 : String), Skeleton.WF k1 → Skeleton.WF k2 →
      Skeleton.render indent k1 ++ r1 = Skeleton.render indent k2 ++ r2 →
      k1 = k2 ∧ r1 = r2
  | .node l1 m1 a1 cs1, .node l2 m2 a2 cs2, indent, r1, r2, hw1, hw2, h => by
    obtain ⟨hm1, hl1, ha1, hc1⟩ : isIdentifier m1 ∧ (l1 = "" ∨ isIdentifier l1)
        ∧ noNewline a1 ∧ ∀ c ∈ cs1, Skeleton.WF c := by
      cases hw1 with
      | node _ _ _ _ p q r s => exact ⟨p, q, r, s⟩
    obtain ⟨hm2, hl2, ha2, hc2⟩ : isIdentifier m2 ∧ (l2 = "" ∨ isIdentifier l2)
        ∧ noNewline a2 ∧ ∀ c ∈ cs2, Skeleton.WF c := by
      cases hw2 with
      | node _ _ _ _ p q r s => exact ⟨p, q, r, s⟩
    rw [Skeleton.render_eq, Skeleton.render_eq] at h
    simp only [String.append_assoc] at h
    have h1 := string_append_cancel_left h
    obtain ⟨el, em, h2⟩ := Skeleton.header_inj hm1 hm2 hl1 hl2 h1
    have h3 : (a1 ++ Skeleton.closer cs1) ++ ("\n" ++ (Skeleton.after indent cs1 ++ r1))
        = (a2 ++ Skeleton.closer cs2) ++ ("\n" ++ (Skeleton.after indent cs2 ++ r2)) := by
      simpa only [String.append_assoc] using h2
    obtain ⟨h4, h5⟩ := split_first_newline (Skeleton.noNewline_line cs1 ha1)
      (Skeleton.noNewline_line cs2 ha2) h3
    obtain ⟨ea, hk⟩ := Skeleton.closer_inj cs1 cs2 h4
    subst el em ea
    match cs1, cs2, hk, hc1, hc2, h5 with
    | [], [], _, _, _, h5 =>
      simp only [Skeleton.after, String.empty_append] at h5
      exact ⟨rfl, h5⟩
    | [c1], [c2], _, hc1, hc2, h5 =>
      simp only [Skeleton.after] at h5
      obtain ⟨e1, e2⟩ := Skeleton.render_prefix_free c1 c2 (indent ++ "\t") r1 r2
        (hc1 c1 (List.mem_singleton_self c1)) (hc2 c2 (List.mem_singleton_self c2)) h5
      subst e1
      exact ⟨rfl, e2⟩
    | c1 :: d1 :: rest1, c2 :: d2 :: rest2, _, hc1, hc2, h5 =>
      simp only [Skeleton.after, String.append_assoc] at h5
      obtain ⟨e1, e2⟩ := Skeleton.renders_prefix_free (c1 :: d1 :: rest1)
        (c2 :: d2 :: rest2) indent r1 r2 hc1 hc2 h5
      rw [e1]
      exact ⟨rfl, e2⟩
    | [], [_], hk, _, _, _ => simp [Skeleton.closer] at hk
    | [], _ :: _ :: _, hk, _, _, _ => simp [Skeleton.closer] at hk
    | [_], [], hk, _, _, _ => simp [Skeleton.closer] at hk
    | [_], _ :: _ :: _, hk, _, _, _ => simp [Skeleton.closer] at hk
    | _ :: _ :: _, [], hk, _, _, _ => simp [Skeleton.closer] at hk
    | _ :: _ :: _, [_], hk, _, _, _ => simp [Skeleton.closer] at hk
/-- The texts of a block of children, closed by the line of the closing brace,
can be read back one child after the other. -/
theorem Skeleton.renders_prefix_free :
    ∀ (ks1 ks2 : List Skeleton) (indent r1 r2 : String),
      (∀ c ∈ ks1, Skeleton.WF c) → (∀ c ∈ ks2, Skeleton.WF c) →
      Skeleton.renders (indent ++ "\t") ks1 ++ (indent ++ ("\x7d\n" ++ r1))
        = Skeleton.renders (indent ++ "\t") ks2 ++ (indent ++ ("\x7d\n" ++ r2)) →
      ks1 = ks2 ∧ r1 = r2
  | [], [], indent, r1, r2, _, _, h => by
    simp only [Skeleton.renders, String.empty_append] at h
    exact ⟨rfl, string_append_cancel_left (string_append_cancel_left h)⟩
  | [], .node l2 m2 a2 cs2 :: ks2, indent, r1, r2, _, _, h => by
    exfalso
    simp only [Skeleton.renders, String.empty_append, Skeleton.render_eq,
      String.append_assoc] at h
    have h1 := congrArg String.data (string_append_cancel_left h)
    simp only [string_append_data] at h1
    simp at h1
  | .node l1 m1 a1 cs1 :: ks1, [], indent, r1, r2, _, _, h => by
    exfalso
    simp only [Skeleton.renders, String.empty_append, Skeleton.render_eq,
      String.append_assoc] at h
    have h1 := congrArg String.data (string_append_cancel_left h)
    simp only [string_append_data] at h1
    simp at h1
  | k1 :: ks1, k2 :: ks2, indent, r1, r2, hw1, hw2, h => by
    simp only [Skeleton.renders, String.append_assoc] at h
    obtain ⟨e1, e2⟩ := Skeleton.render_prefix_free k1 k2 (indent ++ "\t") _ _
      (hw1 k1 (List.mem_cons_self k1 ks1)) (hw2 k2 (List.mem_cons_self k2 ks2)) h
    obtain ⟨e3, e4⟩ := Skeleton.renders_prefix_free ks1 ks2 indent r1 r2
      (fun c hc => hw1 c (List.mem_cons_of_mem k1 hc))
      (fun c hc => hw2 c (List.mem_cons_of_mem k2 hc)) e2
    rw [e1, e3]
    exact ⟨rfl, e4⟩
end

/-- The argument loop appends to the text it is given. -/
theorem ModuleInstanciation.dump_args_append {E : Type} (dumpE : E → String)
    (argexpr : List E) :
    ∀ (names : List String) (i : Nat) (text : String),
      ModuleInstanciation.dump_args dumpE argexpr names i text
        = match ModuleInstanciation.dump_args dumpE argexpr names i "" with
          | .ok t => .ok (text ++ t)
          | .error e => .error e := by
  intro names
  induction names with
  | nil => intro i text; simp [ModuleInstanciation.dump_args]
  | cons name names ih =>
    intro i text
    simp only [ModuleInstanciation.dump_args]
    cases hg : argexpr.get? i with
    | none => rfl
    | some e =>
      simp only []
      rw [ih (i + 1) (_ ++ dumpE e)]
      conv => rhs; rw [ih (i + 1) (_ ++ dumpE e)]
      cases ModuleInstanciation.dump_args dumpE argexpr names (i + 1) "" with
      | error err => rfl
      | ok t =>
        simp only []
        by_cases h1 : i > 0 <;> by_cases h2 : name ≠ "" <;>
          simp [h1, h2, String.append_assoc]

/-- On parallel argument lists the argument loop runs to its end, and its text
holds no newline when neither the argument names nor the expression dumps do. -/
theorem ModuleInstanciation.dump_args_ok {E : Type} (dumpE : E → String)
    (argexpr : List E) (hexpr : ∀ e ∈ argexpr, noNewline (dumpE e)) :
    ∀ (names : List String) (i : Nat) (text : String),
      names.length + i ≤ argexpr.length → (∀ a ∈ names, noNewline a) → noNewline text →
      ∃ t, ModuleInstanciation.dump_args dumpE argexpr names i text = .ok t
        ∧ noNewline t := by
  intro names
  induction names with
  | nil => intro i text _ _ ht; exact ⟨text, rfl, ht⟩
  | cons name names ih =>
    intro i text hlen hnames ht
    simp only [List.length_cons] at hlen
    have hi : i < argexpr.length := by omega
    have hg : argexpr.get? i = some (argexpr.get ⟨i, hi⟩) := List.get?_eq_get hi
    simp only [ModuleInstanciation.dump_args, hg]
    apply ih (i + 1) _ (by omega) (fun a ha => hnames a (List.mem_cons_of_mem name ha))
    apply noNewline_append _ (hexpr _ (List.get_mem argexpr i hi))
    have hsep : noNewline ", " := noNewline_of_all (by decide)
    have heq : noNewline " = " := noNewline_of_all (by decide)
    have hname : noNewline name := hnames name (List.mem_cons_self name names)
    by_cases h1 : i > 0 <;> by_cases h2 : name ≠ ""
    · rw [if_pos h1, if_pos h2]
      exact noNewline_append (noNewline_append ht hsep) (noNewline_append hname heq)
    · rw [if_pos h1, if_neg h2]
      exact noNewline_append ht hsep
    · rw [if_neg h1, if_pos h2]
      exact noNewline_append ht (noNewline_append hname heq)
    · rw [if_neg h1, if_neg h2]
      exact ht

mutual
/-- A dump is the text of the structure of the tree. -/
theorem ModuleInstanciation.dump_eq_render {E : Type} (dumpE : E → String) :
    ∀ (t : ModuleInstanciation E) (indent s : String),
      ModuleInstanciation.dump dumpE indent t = .ok s →
      s = Skeleton.render indent (ModuleInstanciation.skeleton dumpE t)
  | .mk label modname argnames argexpr children, indent, s, h => by
    rw [ModuleInstanciation.dump, ModuleInstanciation.dump_args_append] at h
    rw [ModuleInstanciation.skeleton]
    cases ha : ModuleInstanciation.dump_args dumpE argexpr argnames 0 "" with
    | error e => simp [ha] at h
    | ok args =>
      simp only [ha] at h
      match children, h with
      | [], h =>
        simp only [Except.ok.injEq] at h
        rw [← h]
        by_cases hl : label ≠ "" <;>
          simp [Skeleton.render, ModuleInstanciation.skeletons, hl, String.append_assoc]
      | [child], h =>
        cases hc : ModuleInstanciation.dump dumpE (indent ++ "\t") child with
        | error e => simp [hc] at h
        | ok t =>
          have ht := ModuleInstanciation.dump_eq_render dumpE child (indent ++ "\t") t hc
          simp only [hc, Except.ok.injEq] at h
          rw [← h, ht]
          by_cases hl : label ≠ "" <;>
            simp [Skeleton.render, ModuleInstanciation.skeletons, hl, String.append_assoc]
      | child :: child2 :: rest, h =>
        cases hc : ModuleInstanciation.dump_children dumpE (indent ++ "\t")
            (child :: child2 :: rest) (indent ++
              ((if label ≠ "" then label ++ ": " else "") ++ (modname ++ "("))
              ++ args ++ ") \x7b\n") with
        | error e =>
          by_cases hl : label ≠ "" <;> simp [hl, String.append_assoc] at hc h <;>
            simp [hc] at h
        | ok t =>
          have ht := ModuleInstanciation.dump_children_eq_renders dumpE
            (child :: child2 :: rest) (indent ++ "\t") _ t hc
          by_cases hl : label ≠ "" <;> simp [hl, String.append_assoc] at hc h ht <;>
            simp [hc] at h <;> rw [← h, ht] <;>
            simp [Skeleton.render, ModuleInstanciation.skeletons, hl, String.append_assoc]
/-- The child loop of a dump appends the texts of the structures of the
children. -/
theorem ModuleInstanciation.dump_children_eq_renders {E : Type} (dumpE : E → String) :
    ∀ (cs : List (ModuleInstanciation E)) (indent text s : String),
      ModuleInstanciation.dump_children dumpE indent cs text = .ok s →
      s = text ++ Skeleton.renders indent (ModuleInstanciation.skeletons dumpE cs)
  | [], indent, text, s, h => by
    simp only [ModuleInstanciation.dump_children, Except.ok.injEq] at h
    simp [ModuleInstanciation.skeletons, Skeleton.renders, h]
  | child :: rest, indent, text, s, h => by
    rw [ModuleInstanciation.dump_children] at h
    cases hc : ModuleInstanciation.dump dumpE indent child with
    | error e => simp [hc] at h
    | ok t =>
      have ht := ModuleInstanciation.dump_eq_render dumpE child indent t hc
      simp only [hc] at h
      have hr := ModuleInstanciation.dump_children_eq_renders dumpE rest indent _ s h
      rw [hr, ht]
      simp [ModuleInstanciation.skeletons, Skeleton.renders, String.append_assoc]
end

theorem Dumpable.inv {E : Type} {dumpE : E → String} {okName : String → Prop}
    {label modname : String} {argnames : List String} {argexpr : List E}
    {children : List (ModuleInstanciation E)}
    (h : Dumpable dumpE okName
      (ModuleInstanciation.mk label modname argnames argexpr children)) :
    isIdentifier modname ∧ (label = "" ∨ isIdentifier label)
      ∧ argnames.length = argexpr.length ∧ (∀ e ∈ argexpr, noNewline (dumpE e))
      ∧ (∀ a ∈ argnames, okName a) ∧ ∀ child ∈ children, Dumpable dumpE okName child := by
  cases h with
  | mk _ _ _ _ _ h1 h2 h3 h4 h5 h6 => exact ⟨h1, h2, h3, h4, h5, h6⟩

/-- The argument loop runs to its end on parallel argument lists. -/
theorem ModuleInstanciation.dump_args_total {E : Type} (dumpE : E → String)
    (argexpr : List E) :
    ∀ (names : List String) (i : Nat) (text : String),
      names.length + i ≤ argexpr.length →
      ∃ t, ModuleInstanciation.dump_args dumpE argexpr names i text = .ok t := by
  intro names
  induction names with
  | nil => intro i text _; exact ⟨text, rfl⟩
  | cons name names ih =>
    intro i text hlen
    simp only [List.length_cons] at hlen
    have hi : i < argexpr.length := by omega
    have hg : argexpr.get? i = some (argexpr.get ⟨i, hi⟩) := List.get?_eq_get hi
    simp only [ModuleInstanciation.dump_args, hg]
    exact ih (i + 1) _ (by omega)

mutual
/-- A tree with parallel argument lists at every node has a dump. -/
theorem ModuleInstanciation.dump_ok {E : Type} (dumpE : E → String)
    (okName : String → Prop) :
    ∀ (t : ModuleInstanciation E) (indent : String), Dumpable dumpE okName t →
      ∃ s, ModuleInstanciation.dump dumpE indent t = .ok s
  | .mk label modname argnames argexpr children, indent, hd => by
    obtain ⟨_, _, hlen, _, _, hch⟩ := hd.inv
    rw [ModuleInstanciation.dump]
    obtain ⟨text, ht⟩ := ModuleInstanciation.dump_args_total dumpE argexpr argnames 0
      ((if label ≠ "" then indent ++ (label ++ ": ") else indent) ++ (modname ++ "("))
      (by omega)
    simp only [ht]
    match children, hch with
    | [], _ => exact ⟨_, rfl⟩
    | [child], hch =>
      obtain ⟨t, hc⟩ := ModuleInstanciation.dump_ok dumpE okName child (indent ++ "\t")
        (hch child (List.mem_singleton_self child))
      simp only [hc]
      exact ⟨_, rfl⟩
    | child :: child2 :: rest, hch =>
      obtain ⟨t, hc⟩ := ModuleInstanciation.dump_children_ok dumpE okName
        (child :: child2 :: rest) (indent ++ "\t") (text ++ ") \x7b\n") hch
      simp only [hc]
      exact ⟨_, rfl⟩
/-- The child loop of a dump runs to its end on such trees. -/
theorem ModuleInstanciation.dump_children_ok {E : Type} (dumpE : E → String)
    (okName : String → Prop) :
    ∀ (cs : List (ModuleInstanciation E)) (indent text : String),
      (∀ c ∈ cs, Dumpable dumpE okName c) →
      ∃ s, ModuleInstanciation.dump_children dumpE indent cs text = .ok s
  | [], indent, text, _ => ⟨text, rfl⟩
  | child :: rest, indent, text, hch => by
    rw [ModuleInstanciation.dump_children]
    obtain ⟨t, hc⟩ := ModuleInstanciation.dump_ok dumpE okName child indent
      (hch child (List.mem_cons_self child rest))
    simp only [hc]
    exact ModuleInstanciation.dump_children_ok dumpE okName rest indent (text ++ t)
      (fun c h => hch c (List.mem_cons_of_mem child h))
end

mutual
/-- The structure of a tree whose names are identifiers and whose argument
names and expression dumps hold no newline can be read back from its text. -/
theorem ModuleInstanciation.skeleton_wf {E : Type} (dumpE : E → String) :
    ∀ (t : ModuleInstanciation E), Dumpable dumpE noNewline t →
      Skeleton.WF (ModuleInstanciation.skeleton dumpE t)
  | .mk label modname argnames argexpr children, hd => by
    obtain ⟨hm, hl, hlen, hexpr, hnames, hch⟩ := hd.inv
    rw [ModuleInstanciation.skeleton]
    obtain ⟨t, ht, hnl⟩ := ModuleInstanciation.dump_args_ok dumpE argexpr hexpr argnames 0 ""
      (by omega) hnames (noNewline_of_all (by decide))
    simp only [ht]
    exact Skeleton.WF.node label modname t _ hm hl hnl
      (ModuleInstanciation.skeletons_wf dumpE children hch)
/-- The same for a list of trees. -/
theorem ModuleInstanciation.skeletons_wf {E : Type} (dumpE : E → String) :
    ∀ (cs : List (ModuleInstanciation E)), (∀ c ∈ cs, Dumpable dumpE noNewline c) →
      ∀ k ∈ ModuleInstanciation.skeletons dumpE cs, Skeleton.WF k
  | [], _ => by
    intro k hk
    simp [ModuleInstanciation.skeletons] at hk
  | child :: rest, hch => by
    intro k hk
    rw [ModuleInstanciation.skeletons, List.mem_cons] at hk
    rcases hk with hk | hk
    · rw [hk]
      exact ModuleInstanciation.skeleton_wf dumpE child
        (hch child (List.mem_cons_self child rest))
    · exact ModuleInstanciation.skeletons_wf dumpE rest
        (fun c h => hch c (List.mem_cons_of_mem child h)) k hk
end

/-- A leaf instantiation without label and arguments is dumpable. -/
theorem dumpable_call_leaf (okName : String → Prop) (name : String)
    (h : isIdentifier name) : Dumpable Expression.dump okName (call name []) := by
  refine Dumpable.mk _ _ _ _ _ h (Or.inl rfl) rfl ?_ ?_ ?_
  · intro e he; simp at he
  · intro a ha; simp at ha
  · intro c hc; simp at hc

/-! ## Labels -/

theorem ModuleInstanciation.eraseLabelsList_eq_map {E : Type} :
    ∀ cs : List (ModuleInstanciation E),
      ModuleInstanciation.eraseLabelsList cs = cs.map ModuleInstanciation.eraseLabels
  | [] => rfl
  | c :: cs => by
    rw [ModuleInstanciation.eraseLabelsList, List.map_cons,
      ModuleInstanciation.eraseLabelsList_eq_map cs]

/-- The child loop gives the same result on two lists of instantiations that
the evaluator of one instantiation does not tell apart. -/
theorem evaluate_children_map {E F : Type}
    (self : ModuleInstanciation E → Store E F → Nat →
      Except Fault (AbstractNode × Store E F))
    (f : ModuleInstanciation E → ModuleInstanciation E)
    (hf : ∀ v st ctx, self (f v) st ctx = self v st ctx) :
    ∀ (vs : List (ModuleInstanciation E)) (st : Store E F) (ctx : Nat),
      evaluate_children self (vs.map f) st ctx = evaluate_children self vs st ctx := by
  intro vs
  induction vs with
  | nil => intro st ctx; rfl
  | cons v vs ih =>
    intro st ctx
    simp only [List.map_cons, evaluate_children, hf]
    cases self v st ctx with
    | error e => rfl
    | ok r =>
      obtain ⟨node, st1⟩ := r
      simp only [ih]

/-- Evaluation does not read the labels. -/
theorem ModuleInstanciation.evaluate_eraseLabels {E F : Type}
    (ev : E → Store E F → Nat → Value) (entry_first : Bool) (reg : QHash (AbstractModule E F)) :
    ∀ (fuel : Nat) (t : ModuleInstanciation E) (st : Store E F) (ctx : Nat),
      ModuleInstanciation.evaluate ev entry_first reg fuel t.eraseLabels st ctx
        = ModuleInstanciation.evaluate ev entry_first reg fuel t st ctx := by
  intro fuel
  induction fuel with
  | zero => intro t st ctx; rfl
  | succ n ih =>
    intro t st ctx
    obtain ⟨label, modname, argnames, argexpr, children⟩ := t
    simp only [ModuleInstanciation.eraseLabels, ModuleInstanciation.evaluate,
      ModuleInstanciation.argexpr, ModuleInstanciation.children,
      ModuleInstanciation.modname, ModuleInstanciation.argnames,
      ModuleInstanciation.eraseLabelsList_eq_map]
    rw [evaluate_children_map _ ModuleInstanciation.eraseLabels ih]

/-- The child loop of a dump appends to the text it is given. -/
theorem ModuleInstanciation.dump_children_append {E : Type} (dumpE : E → String)
    (indent : String) :
    ∀ (cs : List (ModuleInstanciation E)) (text : String),
      ModuleInstanciation.dump_children dumpE indent cs text
        = match ModuleInstanciation.dump_children dumpE indent cs "" with
          | .ok t => .ok (text ++ t)
          | .error e => .error e := by
  intro cs
  induction cs with
  | nil => intro text; simp [ModuleInstanciation.dump_children]
  | cons c cs ih =>
    intro text
    simp only [ModuleInstanciation.dump_children]
    cases ModuleInstanciation.dump dumpE indent c with
    | error e => rfl
    | ok t =>
      simp only []
      rw [ih (text ++ t)]
      conv => rhs; rw [ih ("" ++ t)]
      cases ModuleInstanciation.dump_children dumpE indent cs "" with
      | error e => rfl
      | ok u => simp [String.append_assoc]

/-- The text of a dump after the opening bracket, which the label does not
enter. -/
theorem ModuleInstanciation.dump_label {E : Type} (dumpE : E → String) (indent : String)
    (modname : String) (argnames : List String) (argexpr : List E)
    (children : List (ModuleInstanciation E)) :
    ∃ r : Except Fault String, ∀ label : String,
      ModuleInstanciation.dump dumpE indent
          (ModuleInstanciation.mk label modname argnames argexpr children)
        = match r with
          | .ok rest =>
            .ok (indent ++ ((if label ≠ "" then label ++ ": " else "")
              ++ (modname ++ ("(" ++ rest))))
          | .error e => .error e := by
  cases ha : ModuleInstanciation.dump_args dumpE argexpr argnames 0 "" with
  | error e =>
    refine ⟨.error e, fun label => ?_⟩
    rw [ModuleInstanciation.dump, ModuleInstanciation.dump_args_append, ha]
  | ok args =>
    match children with
    | [] =>
      refine ⟨.ok (args ++ ");\n"), fun label => ?_⟩
      rw [ModuleInstanciation.dump, ModuleInstanciation.dump_args_append, ha]
      by_cases hl : label ≠ "" <;> simp [hl, String.append_assoc]
    | [child] =>
      cases hc : ModuleInstanciation.dump dumpE (indent ++ "\t") child with
      | error e =>
        refine ⟨.error e, fun label => ?_⟩
        rw [ModuleInstanciation.dump, ModuleInstanciation.dump_args_append, ha]
        simp only [hc]
      | ok t =>
        refine ⟨.ok (args ++ (")\n" ++ t)), fun label => ?_⟩
        rw [ModuleInstanciation.dump, ModuleInstanciation.dump_args_append, ha]
        simp only [hc]
        by_cases hl : label ≠ "" <;> simp [hl, String.append_assoc]
    | child :: child2 :: rest =>
      cases hc : ModuleInstanciation.dump_children dumpE (indent ++ "\t")
          (child :: child2 :: rest) "" with
      | error e =>
        refine ⟨.error e, fun label => ?_⟩
        rw [ModuleInstanciation.dump, ModuleInstanciation.dump_args_append, ha]
        simp only []
        rw [ModuleInstanciation.dump_children_append, hc]
      | ok t =>
        refine ⟨.ok (args ++ (") \x7b\n" ++ (t ++ (indent ++ "\x7d\n")))), fun label => ?_⟩
        rw [ModuleInstanciation.dump, ModuleInstanciation.dump_args_append, ha]
        simp only []
        rw [ModuleInstanciation.dump_children_append, hc]
        by_cases hl : label ≠ "" <;> simp [hl, String.append_assoc]

/-! ## Lexical scoping -/

/-- A construct found by the walk of the parent chain sits in the table of a
scope of the store. -/
theorem Context.find_module_some {E F : Type} (st : Store E F) (name : String) :
    ∀ (steps ctx d : Nat) (am : AbstractModule E F),
      Context.find_module st steps ctx name = some (d, am) →
      ∃ x, st.get? d = some x ∧ x.modules_p.bind (fun t => QHash.value t name) = some am := by
  intro steps
  induction steps with
  | zero => intro ctx d am h; simp [Context.find_module] at h
  | succ n ih =>
    intro ctx d am h
    rw [Context.find_module] at h
    cases hg : st.get? ctx with
    | none => rw [hg] at h; simp at h
    | some x =>
      rw [hg] at h
      cases hm : x.modules_p.bind (fun t => QHash.value t name) with
      | some am2 =>
        simp only [hm, Option.some.injEq, Prod.mk.injEq] at h
        rw [← h.1, ← h.2]
        exact ⟨x, hg, hm⟩
      | none =>
        simp only [hm] at h
        cases hp : x.parent with
        | none => simp [hp] at h
        | some p =>
          simp only [hp] at h
          exact ih p d am h

/-- A variable lookup that starts in a scope of the store does not see a scope
pushed later. -/
theorem Context.lookup_variable_from_push {E F : Type} (st : Store E F)
    (hwf : Store.parentsBelow st) (y : Context E F) (name : String) :
    ∀ (steps d : Nat), d < st.length →
      Context.lookup_variable_from (st ++ [y]) steps d name
        = Context.lookup_variable_from st steps d name := by
  intro steps
  induction steps with
  | zero => intro d _; rfl
  | succ n ih =>
    intro d hd
    have hg : (st ++ [y]).get? d = st.get? d := by
      rw [List.get?_eq_getElem?, List.get?_eq_getElem?, List.getElem?_append_left hd]
    rw [Context.lookup_variable_from, Context.lookup_variable_from, hg]
    cases hx : st.get? d with
    | none => rfl
    | some x =>
      simp only []
      cases QHash.value x.variables_ name with
      | some v => rfl
      | none =>
        simp only []
        cases hp : x.parent with
        | none => rfl
        | some p =>
          simp only []
          exact ih p (Nat.lt_trans (hwf d x p hx hp) hd)

/-! ## Resolution of construct names -/

/-- A name that resolves to the default construct is evaluated by the default
construct: the node of the supplied children. -/
theorem Context.evaluate_module_default {E F : Type} (ev : E → Store E F → Nat → Value)
    (entry_first : Bool)
    (self : ModuleInstanciation E → Store E F → Nat →
      Except Fault (AbstractNode × Store E F))
    (reg : QHash (AbstractModule E F)) (st : Store E F) (ctx : Nat) (name : String)
    (an : List String) (av : List Value) (child_nodes : List AbstractNode)
    (h : Context.resolves_to_default reg st ctx name) :
    Context.evaluate_module ev entry_first self reg st ctx name an av child_nodes
      = .ok (AbstractNode.mk child_nodes, st) := by
  unfold Context.resolves_to_default at h
  unfold Context.evaluate_module
  cases hf : Context.find_module st st.length ctx name with
  | some r =>
    obtain ⟨d, am⟩ := r
    rw [hf] at h
    simp only at h
    subst h
    simp only [AbstractModule.dispatch, AbstractModule.evaluate_eq]
  | none =>
    rw [hf] at h
    simp only at h
    cases hr : QHash.value reg name with
    | some am =>
      rw [hr] at h
      simp only at h
      subst h
      simp only [AbstractModule.dispatch, AbstractModule.evaluate_eq]
    | none => simp only [AbstractModule.evaluate_eq]

/-- The scope that a call of `module name() { name(); }` builds. -/
theorem selfCalling_scope {E F : Type} (ev : E → Store E F → Nat → Value) (entry_first : Bool)
    (name : String) (st : Store E F) (d : Nat) :
    Module.scope ev entry_first (selfCalling name) st d [] []
      = .ok (st ++ [bareScope d]) := by
  simp [Module.scope, Module.formals_scope, Context.args, Context.bind_formals,
    Store.update_append_self, Module.assign, Context.new, selfCalling, bareScope]

/-- A construct found in the chain of a scope is found again from a new scope
that has the finding scope as parent and an empty construct table. -/
theorem Context.find_module_from_child {E F : Type} (st : Store E F) (ctx d : Nat)
    (name : String) (am : AbstractModule E F) (y : Context E F)
    (hp : y.parent = some d) (hm : y.modules_p = some [])
    (hfind : Context.find_module st st.length ctx name = some (d, am)) :
    Context.find_module (st ++ [y]) (st ++ [y]).length st.length name = some (d, am) := by
  obtain ⟨x, hx, hxm⟩ := Context.find_module_some st name _ _ _ _ hfind
  have hd : d < st.length := by
    rw [List.get?_eq_getElem?] at hx
    exact (List.getElem?_eq_some.mp hx).1
  have hg : (st ++ [y]).get? st.length = some y := by simp
  have hgd : (st ++ [y]).get? d = some x := by
    rw [List.get?_eq_getElem?, List.getElem?_append_left hd, ← List.get?_eq_getElem?, hx]
  obtain ⟨k, hk⟩ : ∃ k, st.length = k + 1 := ⟨st.length - 1, by omega⟩
  rw [List.length_append, List.length_singleton, Context.find_module, hg]
  simp only [hm, hp, Option.bind, QHash.value]
  rw [hk, Context.find_module, hgd]
  simp only [hxm]

mutual
/-- Where every name resolves to the default construct, an instantiation tree
evaluates, within a step bound of its depth, to the geometry tree of its
shape. -/
theorem ModuleInstanciation.evaluate_shape {E F : Type}
    (ev : E → Store E F → Nat → Value) (entry_first : Bool) (reg : QHash (AbstractModule E F))
    (st : Store E F) (ctx : Nat)
    (hdef : ∀ name, Context.resolves_to_default reg st ctx name) :
    ∀ (t : ModuleInstanciation E) (fuel : Nat), t.depth ≤ fuel →
      ModuleInstanciation.evaluate ev entry_first reg fuel t st ctx = .ok (t.shape, st)
  | .mk label modname argnames argexpr children, fuel, h => by
    rw [ModuleInstanciation.depth] at h
    obtain ⟨k, hk⟩ : ∃ k, fuel = k + 1 := ⟨fuel - 1, by omega⟩
    subst hk
    have hc := ModuleInstanciation.evaluate_shapes ev entry_first reg st ctx hdef children k
      (by omega)
    rw [ModuleInstanciation.evaluate]
    simp only [ModuleInstanciation.children, hc, ModuleInstanciation.modname]
    rw [Context.evaluate_module_default ev entry_first _ reg st ctx modname _ _ _ (hdef modname),
      ModuleInstanciation.shape]
/-- The same for the child loop. -/
theorem ModuleInstanciation.evaluate_shapes {E F : Type}
    (ev : E → Store E F → Nat → Value) (entry_first : Bool) (reg : QHash (AbstractModule E F))
    (st : Store E F) (ctx : Nat)
    (hdef : ∀ name, Context.resolves_to_default reg st ctx name) :
    ∀ (cs : List (ModuleInstanciation E)) (fuel : Nat),
      ModuleInstanciation.depths cs ≤ fuel →
      evaluate_children (ModuleInstanciation.evaluate ev entry_first reg fuel) cs st ctx
        = .ok (ModuleInstanciation.shapes cs, st)
  | [], fuel, _ => rfl
  | child :: rest, fuel, h => by
    rw [ModuleInstanciation.depths] at h
    have h1 : child.depth ≤ fuel := le_trans (Nat.le_max_left _ _) h
    have h2 : ModuleInstanciation.depths rest ≤ fuel := le_trans (Nat.le_max_right _ _) h
    rw [evaluate_children,
      ModuleInstanciation.evaluate_shape ev entry_first reg st ctx hdef child fuel h1]
    simp only [ModuleInstanciation.evaluate_shapes ev entry_first reg st ctx hdef rest fuel h2,
      ModuleInstanciation.shapes]
end

mutual
theorem ModuleInstanciation.shape_size {E : Type} :
    ∀ t : ModuleInstanciation E, t.shape.size = t.size
  | .mk _ _ _ _ children => by
    rw [ModuleInstanciation.shape, AbstractNode.size, ModuleInstanciation.size,
      ModuleInstanciation.shapes_sizes children]
theorem ModuleInstanciation.shapes_sizes {E : Type} :
    ∀ cs : List (ModuleInstanciation E),
      AbstractNode.sizes (ModuleInstanciation.shapes cs) = ModuleInstanciation.sizes cs
  | [] => rfl
  | child :: rest => by
    rw [ModuleInstanciation.shapes, AbstractNode.sizes, ModuleInstanciation.sizes,
      ModuleInstanciation.shape_size child, ModuleInstanciation.shapes_sizes rest]
end

mutual
theorem ModuleInstanciation.shape_depth {E : Type} :
    ∀ t : ModuleInstanciation E, t.shape.depth = t.depth
  | .mk _ _ _ _ children => by
    rw [ModuleInstanciation.shape, AbstractNode.depth, ModuleInstanciation.depth,
      ModuleInstanciation.shapes_depths children]
theorem ModuleInstanciation.shapes_depths {E : Type} :
    ∀ cs : List (ModuleInstanciation E),
      AbstractNode.depths (ModuleInstanciation.shapes cs) = ModuleInstanciation.depths cs
  | [] => rfl
  | child :: rest => by
    rw [ModuleInstanciation.shapes, AbstractNode.depths, ModuleInstanciation.depths,
      ModuleInstanciation.shape_depth child, ModuleInstanciation.shapes_depths rest]
end

theorem ModuleInstanciation.shapes_length {E : Type} :
    ∀ cs : List (ModuleInstanciation E), (ModuleInstanciation.shapes cs).length = cs.length
  | [] => rfl
  | child :: rest => by
    rw [ModuleInstanciation.shapes, List.length_cons, List.length_cons,
      ModuleInstanciation.shapes_length rest]

theorem ModuleInstanciation.shapes_eq_map {E : Type} :
    ∀ cs : List (ModuleInstanciation E),
      ModuleInstanciation.shapes cs = cs.map ModuleInstanciation.shape
  | [] => rfl
  | child :: rest => by
    rw [ModuleInstanciation.shapes, List.map_cons, ModuleInstanciation.shapes_eq_map rest]

theorem ModuleInstanciation.shape_children {E : Type} (t : ModuleInstanciation E) :
    t.shape.children = t.children.map ModuleInstanciation.shape := by
  obtain ⟨l, m, an, ae, cs⟩ := t
  rw [ModuleInstanciation.shape, ModuleInstanciation.shapes_eq_map]
  rfl

/-- The shape has, at every position, the node of the instantiation node at
that position. -/
theorem ModuleInstanciation.shape_subtree {E : Type} :
    ∀ (path : List Nat) (t : ModuleInstanciation E),
      t.shape.subtree path = (t.subtree path).map ModuleInstanciation.shape := by
  intro path
  induction path with
  | nil => intro t; rfl
  | cons i path ih =>
    intro t
    rw [AbstractNode.subtree, ModuleInstanciation.subtree, ModuleInstanciation.shape_children,
      List.get?_eq_getElem?, List.get?_eq_getElem?, List.getElem?_map]
    cases t.children[i]? with
    | none => rfl
    | some child => exact ih child

/-! ## Index safety of the dumps -/

theorem ParallelArgs.parts {E : Type} {label modname : String} {argnames : List String}
    {argexpr : List E} {children : List (ModuleInstanciation E)}
    (h : ParallelArgs (ModuleInstanciation.mk label modname argnames argexpr children)) :
    argnames.length = argexpr.length ∧ ∀ child ∈ children, ParallelArgs child := by
  cases h with
  | mk _ _ _ _ _ h1 h2 => exact ⟨h1, h2⟩

theorem AbstractModule.Parallel.parts_of_module {E F : Type} {m : Module E F (AbstractModule E F)}
    (h : AbstractModule.Parallel (AbstractModule.module m)) :
    m.argnames.length ≤ m.argexpr.length
      ∧ m.assignments_var.length = m.assignments_expr.length
      ∧ (∀ child ∈ m.children, ParallelArgs child)
      ∧ ∀ p ∈ m.modules, AbstractModule.Parallel p.2 := by
  cases h with
  | module _ h1 h2 h3 h4 => exact ⟨h1, h2, h3, h4⟩

mutual
/-- On a tree with parallel argument lists every index of
`ModuleInstanciation::dump` is in range. -/
theorem ModuleInstanciation.dump_in_range {E : Type} (dumpE : E → String) :
    ∀ (t : ModuleInstanciation E) (indent : String), ParallelArgs t →
      ∃ s, ModuleInstanciation.dump dumpE indent t = .ok s
  | .mk label modname argnames argexpr children, indent, hd => by
    obtain ⟨hlen, hch⟩ := hd.parts
    rw [ModuleInstanciation.dump]
    obtain ⟨text, ht⟩ := ModuleInstanciation.dump_args_total dumpE argexpr argnames 0
      ((if label ≠ "" then indent ++ (label ++ ": ") else indent) ++ (modname ++ "("))
      (by omega)
    simp only [ht]
    match children, hch with
    | [], _ => exact ⟨_, rfl⟩
    | [child], hch =>
      obtain ⟨t, hc⟩ := ModuleInstanciation.dump_in_range dumpE child (indent ++ "\t")
        (hch child (List.mem_singleton_self child))
      simp only [hc]
      exact ⟨_, rfl⟩
    | child :: child2 :: rest, hch =>
      obtain ⟨t, hc⟩ := ModuleInstanciation.dump_children_in_range dumpE
        (child :: child2 :: rest) (indent ++ "\t") (text ++ ") \x7b\n") hch
      simp only [hc]
      exact ⟨_, rfl⟩
/-- The same for the child loop. -/
theorem ModuleInstanciation.dump_children_in_range {E : Type} (dumpE : E → String) :
    ∀ (cs : List (ModuleInstanciation E)) (indent text : String),
      (∀ c ∈ cs, ParallelArgs c) →
      ∃ s, ModuleInstanciation.dump_children dumpE indent cs text = .ok s
  | [], indent, text, _ => ⟨text, rfl⟩
  | child :: rest, indent, text, hch => by
    rw [ModuleInstanciation.dump_children]
    obtain ⟨t, hc⟩ := ModuleInstanciation.dump_in_range dumpE child indent
      (hch child (List.mem_cons_self child rest))
    simp only [hc]
    exact ModuleInstanciation.dump_children_in_range dumpE rest indent (text ++ t)
      (fun c h => hch c (List.mem_cons_of_mem child h))
end

/-- The argument loop of `ModuleInstanciation::dump` indexes out of range when
there are more argument names left than argument expressions. -/
theorem ModuleInstanciation.dump_args_fault {E : Type} (dumpE : E → String)
    (argexpr : List E) :
    ∀ (names : List String) (i : Nat) (text : String),
      i ≤ argexpr.length → argexpr.length < names.length + i →
      ModuleInstanciation.dump_args dumpE argexpr names i text
        = .error Fault.outOfRange := by
  intro names
  induction names with
  | nil => intro i text h1 h2; simp only [List.length_nil] at h2; omega
  | cons name names ih =>
    intro i text h1 h2
    simp only [List.length_cons] at h2
    rw [ModuleInstanciation.dump_args]
    by_cases hi : i < argexpr.length
    · have hg : argexpr.get? i = some (argexpr.get ⟨i, hi⟩) := List.get?_eq_get hi
      simp only [hg]
      exact ih (i + 1) _ hi (by omega)
    · have hg : argexpr.get? i = none := List.get?_eq_none.mpr (by omega)
      simp only [hg]

/-- The formal loop of `Module::dump` runs to its end when there are at least
as many defaults as formals. -/
theorem Module.dump_formals_total {E : Type} (dumpE : E → String)
    (argexpr : List (Option E)) :
    ∀ (names : List String) (i : Nat) (text : String),
      names.length + i ≤ argexpr.length →
      ∃ t, Module.dump_formals dumpE argexpr names i text = .ok t := by
  intro names
  induction names with
  | nil => intro i text _; exact ⟨text, rfl⟩
  | cons name names ih =>
    intro i text hlen
    simp only [List.length_cons] at hlen
    have hi : i < argexpr.length := by omega
    have hg : argexpr.get? i = some (argexpr.get ⟨i, hi⟩) := List.get?_eq_get hi
    rw [Module.dump_formals]
    cases hd : argexpr.get ⟨i, hi⟩ with
    | none =>
      simp only [hg, hd]
      exact ih (i + 1) _ (by omega)
    | some e =>
      simp only [hg, hd]
      exact ih (i + 1) _ (by omega)

/-- The assignment loop of `Module::dump` runs to its end when every local has
an initializer. -/
theorem Module.dump_assignments_total {E : Type} (dumpE : E → String) (indent : String) :
    ∀ (xs : List String) (es : List E) (text : String), xs.length ≤ es.length →
      ∃ t, Module.dump_assignments dumpE indent xs es text = .ok t := by
  intro xs
  induction xs with
  | nil => intro es text _; exact ⟨text, rfl⟩
  | cons x xs ih =>
    intro es text h
    cases es with
    | nil => simp at h
    | cons e es =>
      simp only [List.length_cons, Nat.add_le_add_iff_right] at h
      rw [Module.dump_assignments]
      exact ih es _ h

mutual
/-- On a construct that satisfies the data-model invariant every index of
`Module::dump` is in range. -/
theorem AbstractModule.dump_virtual_in_range {E F : Type} (dumpE : E → String)
    (dumpF : F → String → String → String) :
    ∀ (am : AbstractModule E F) (indent name : String), AbstractModule.Parallel am →
      ∃ s, AbstractModule.dump dumpE dumpF am indent name = .ok s
  | .abstract, indent, name, _ => ⟨_, rfl⟩
  | .module m, indent, name, h => by
    rw [AbstractModule.dump]
    exact Module.dump_module_in_range dumpE dumpF m indent name h
/-- The same for the override `Module::dump`. -/
theorem Module.dump_module_in_range {E F : Type} (dumpE : E → String)
    (dumpF : F → String → String → String) :
    ∀ (m : Module E F (AbstractModule E F)) (indent name : String),
      AbstractModule.Parallel (AbstractModule.module m) →
      ∃ s, Module.dump dumpE dumpF m indent name = .ok s
  | ⟨argnames, argexpr, avar, aexpr, functions, modules, children⟩, indent, name, h => by
    obtain ⟨h1, h2, h3, h4⟩ := h.parts_of_module
    simp only at h1 h2 h3 h4
    rw [Module.dump]
    obtain ⟨t1, e1⟩ := Module.dump_formals_total dumpE argexpr argnames 0
      (indent ++ "module " ++ name ++ "(") (by omega)
    simp only [e1]
    obtain ⟨t2, e2⟩ := Module.dump_modules_in_range dumpE dumpF modules (indent ++ "\t")
      (List.foldl (fun t p => t ++ dumpF p.2 (indent ++ "\t") p.1) (t1 ++ ") \x7b\n")
        functions) h4
    simp only [e2]
    obtain ⟨t3, e3⟩ := Module.dump_assignments_total dumpE indent avar aexpr t2 (by omega)
    simp only [e3]
    obtain ⟨t4, e4⟩ := ModuleInstanciation.dump_children_in_range dumpE children
      (indent ++ "\t") t3 h3
    simp only [e4]
    exact ⟨_, rfl⟩
/-- The same for the loop over the nested modules. -/
theorem Module.dump_modules_in_range {E F : Type} (dumpE : E → String)
    (dumpF : F → String → String → String) :
    ∀ (ms : List (String × AbstractModule E F)) (indent text : String),
      (∀ p ∈ ms, AbstractModule.Parallel p.2) →
      ∃ s, Module.dump_modules dumpE dumpF ms indent text = .ok s
  | [], indent, text, _ => ⟨text, rfl⟩
  | (key, value) :: rest, indent, text, h => by
    rw [Module.dump_modules]
    obtain ⟨t, e⟩ := AbstractModule.dump_virtual_in_range dumpE dumpF value indent key
      (h (key, value) (List.mem_cons_self _ _))
    simp only [e]
    exact Module.dump_modules_in_range dumpE dumpF rest indent (text ++ t)
      (fun p hp => h p (List.mem_cons_of_mem _ hp))
end

/-! ## The lines of a dump -/

theorem unlines_append : ∀ a b : List String, unlines (a ++ b) = unlines a ++ unlines b
  | [], b => by simp [unlines]
  | x :: a, b => by
    rw [List.cons_append, unlines, unlines, unlines_append a b]
    simp only [String.append_assoc]

mutual
/-- The text of a structure is made of its lines. -/
theorem Skeleton.render_eq_unlines :
    ∀ (k : Skeleton) (indent : String),
      Skeleton.render indent k = unlines (Skeleton.lines indent k)
  | .node label modname args children, indent => by
    have e2 : ("\x7d\n" : String) = "\x7d" ++ "\n" := by decide
    rw [Skeleton.render_eq]
    match children with
    | [] =>
      simp only [Skeleton.lines, Skeleton.closer, Skeleton.after, unlines,
        String.append_assoc]
    | [child] =>
      simp only [Skeleton.lines, Skeleton.closer, Skeleton.after, unlines,
        String.append_assoc, Skeleton.render_eq_unlines child (indent ++ "\t")]
    | child :: child2 :: rest =>
      simp only [Skeleton.lines, Skeleton.closer, Skeleton.after, unlines, unlines_append,
        String.append_assoc, e2,
        Skeleton.renders_eq_unlines (child :: child2 :: rest) (indent ++ "\t"),
        String.append_empty]
/-- The same for a list of structures. -/
theorem Skeleton.renders_eq_unlines :
    ∀ (ks : List Skeleton) (indent : String),
      Skeleton.renders indent ks = unlines (Skeleton.lines_of_children indent ks)
  | [], indent => rfl
  | child :: rest, indent => by
    rw [Skeleton.renders, Skeleton.lines_of_children, unlines_append,
      Skeleton.render_eq_unlines child indent, Skeleton.renders_eq_unlines rest indent]
end

mutual
/-- Every line of a dump starts with the indent. -/
theorem Skeleton.lines_start_with_indent :
    ∀ (k : Skeleton) (indent : String), ∀ l ∈ Skeleton.lines indent k,
      ∃ rest : String, l = indent ++ rest
  | .node label modname args children, indent => by
    intro l hl
    match children, hl with
    | [], hl =>
      simp only [Skeleton.lines, List.mem_singleton] at hl
      exact ⟨Skeleton.header label modname ++ (args ++ ");"), by
        rw [hl]; simp only [String.append_assoc]⟩
    | [child], hl =>
      simp only [Skeleton.lines, List.mem_cons] at hl
      rcases hl with hl | hl
      · exact ⟨Skeleton.header label modname ++ (args ++ ")"), by
          rw [hl]; simp only [String.append_assoc]⟩
      · obtain ⟨rest, hr⟩ := Skeleton.lines_start_with_indent child (indent ++ "\t") l hl
        exact ⟨"\t" ++ rest, by rw [hr, String.append_assoc]⟩
    | child :: child2 :: more, hl =>
      simp only [Skeleton.lines, List.mem_cons, List.mem_append, List.mem_singleton,
        List.not_mem_nil, or_false] at hl
      rcases hl with hl | hl | hl
      · exact ⟨Skeleton.header label modname ++ (args ++ ") \x7b"), by
          rw [hl]; simp only [String.append_assoc]⟩
      · obtain ⟨rest, hr⟩ := Skeleton.lines_of_children_start_with_indent
          (child :: child2 :: more) (indent ++ "\t") l hl
        exact ⟨"\t" ++ rest, by rw [hr, String.append_assoc]⟩
      · exact ⟨"\x7d", hl⟩
/-- The same for a list of structures. -/
theorem Skeleton.lines_of_children_start_with_indent :
    ∀ (ks : List Skeleton) (indent : String),
      ∀ l ∈ Skeleton.lines_of_children indent ks, ∃ rest : String, l = indent ++ rest
  | [], indent => by
    intro l hl
    simp [Skeleton.lines_of_children] at hl
  | child :: more, indent => by
    intro l hl
    rw [Skeleton.lines_of_children, List.mem_append] at hl
    rcases hl with hl | hl
    · exact Skeleton.lines_start_with_indent child indent l hl
    · exact Skeleton.lines_of_children_start_with_indent more indent l hl
end

theorem Skeleton.Lined.parts_of_node {label modname args : String} {children : List Skeleton}
    (h : Skeleton.Lined (Skeleton.node label modname args children)) :
    noNewline label ∧ noNewline modname ∧ noNewline args
      ∧ ∀ child ∈ children, Skeleton.Lined child := by
  cases h with
  | node _ _ _ _ h1 h2 h3 h4 => exact ⟨h1, h2, h3, h4⟩

theorem Skeleton.noNewline_header {label modname : String} (hl : noNewline label)
    (hm : noNewline modname) : noNewline (Skeleton.header label modname) := by
  unfold Skeleton.header
  have h1 : noNewline ": " := noNewline_of_all (by decide)
  have h2 : noNewline "(" := noNewline_of_all (by decide)
  have h3 : noNewline "" := noNewline_of_all (by decide)
  by_cases e : label ≠ ""
  · rw [if_pos e]
    exact noNewline_append (noNewline_append hl h1) (noNewline_append hm h2)
  · rw [if_neg e]
    exact noNewline_append h3 (noNewline_append hm h2)

mutual
/-- No line of a dump holds a newline, when the indent, the labels, the
construct names and the argument-list texts hold none. -/
theorem Skeleton.lines_noNewline :
    ∀ (k : Skeleton) (indent : String), noNewline indent → Skeleton.Lined k →
      ∀ l ∈ Skeleton.lines indent k, noNewline l
  | .node label modname args children, indent, hi, hk => by
    obtain ⟨h1, h2, h3, h4⟩ := hk.parts_of_node
    have hh := Skeleton.noNewline_header h1 h2
    have htab : noNewline (indent ++ "\t") :=
      noNewline_append hi (noNewline_of_all (by decide))
    intro l hl
    match children, h4, hl with
    | [], _, hl =>
      simp only [Skeleton.lines, List.mem_singleton] at hl
      rw [hl]
      exact noNewline_append (noNewline_append (noNewline_append hi hh) h3)
        (noNewline_of_all (by decide))
    | [child], h4, hl =>
      simp only [Skeleton.lines, List.mem_cons] at hl
      rcases hl with hl | hl
      · rw [hl]
        exact noNewline_append (noNewline_append (noNewline_append hi hh) h3)
          (noNewline_of_all (by decide))
      · exact Skeleton.lines_noNewline child (indent ++ "\t") htab
          (h4 child (List.mem_singleton_self child)) l hl
    | child :: child2 :: more, h4, hl =>
      simp only [Skeleton.lines, List.mem_cons, List.mem_append, List.mem_singleton,
        List.not_mem_nil, or_false] at hl
      rcases hl with hl | hl | hl
      · rw [hl]
        exact noNewline_append (noNewline_append (noNewline_append hi hh) h3)
          (noNewline_of_all (by decide))
      · exact Skeleton.lines_of_children_noNewline (child :: child2 :: more)
          (indent ++ "\t") htab h4 l hl
      · rw [hl]
        exact noNewline_append hi (noNewline_of_all (by decide))
/-- The same for a list of structures. -/
theorem Skeleton.lines_of_children_noNewline :
    ∀ (ks : List Skeleton) (indent : String), noNewline indent →
      (∀ k ∈ ks, Skeleton.Lined k) →
      ∀ l ∈ Skeleton.lines_of_children indent ks, noNewline l
  | [], indent, _, _ => by
    intro l hl
    simp [Skeleton.lines_of_children] at hl
  | child :: more, indent, hi, hk => by
    intro l hl
    rw [Skeleton.lines_of_children, List.mem_append] at hl
    rcases hl with hl | hl
    · exact Skeleton.lines_noNewline child indent hi
        (hk child (List.mem_cons_self child more)) l hl
    · exact Skeleton.lines_of_children_noNewline more indent hi
        (fun k h => hk k (List.mem_cons_of_mem child h)) l hl
end

mutual
/-- A dump has one line for every node and one more for every node with two
or more children. -/
theorem Skeleton.lines_length :
    ∀ (k : Skeleton) (indent : String),
      (Skeleton.lines indent k).length = k.size + k.blocks
  | .node label modname args children, indent => by
    match children with
    | [] =>
      simp [Skeleton.lines, Skeleton.size, Skeleton.blocks, Skeleton.sizes,
        Skeleton.blocks_of_children]
    | [child] =>
      simp only [Skeleton.lines, Skeleton.size, Skeleton.blocks, List.length_cons,
        Skeleton.sizes, Skeleton.blocks_of_children,
        Skeleton.lines_length child (indent ++ "\t")]
      omega
    | child :: child2 :: more =>
      simp only [Skeleton.lines, Skeleton.size, Skeleton.blocks, List.length_cons,
        List.length_append, List.length_nil,
        Skeleton.lines_of_children_length (child :: child2 :: more) (indent ++ "\t")]
      omega
/-- The same for a list of structures. -/
theorem Skeleton.lines_of_children_length :
    ∀ (ks : List Skeleton) (indent : String),
      (Skeleton.lines_of_children indent ks).length
        = Skeleton.sizes ks + Skeleton.blocks_of_children ks
  | [], indent => rfl
  | child :: more, indent => by
    rw [Skeleton.lines_of_children, List.length_append, Skeleton.sizes,
      Skeleton.blocks_of_children, Skeleton.lines_length child indent,
      Skeleton.lines_of_children_length more indent]
    omega
end

mutual
theorem ModuleInstanciation.skeleton_size {E : Type} (dumpE : E → String) :
    ∀ t : ModuleInstanciation E, (ModuleInstanciation.skeleton dumpE t).size = t.size
  | .mk _ _ _ _ children => by
    rw [ModuleInstanciation.skeleton, Skeleton.size, ModuleInstanciation.size,
      ModuleInstanciation.skeletons_sizes dumpE children]
theorem ModuleInstanciation.skeletons_sizes {E : Type} (dumpE : E → String) :
    ∀ cs : List (ModuleInstanciation E),
      Skeleton.sizes (ModuleInstanciation.skeletons dumpE cs) = ModuleInstanciation.sizes cs
  | [] => rfl
  | child :: rest => by
    rw [ModuleInstanciation.skeletons, Skeleton.sizes, ModuleInstanciation.sizes,
      ModuleInstanciation.skeleton_size dumpE child,
      ModuleInstanciation.skeletons_sizes dumpE rest]
end

mutual
theorem ModuleInstanciation.skeleton_blocks {E : Type} (dumpE : E → String) :
    ∀ t : ModuleInstanciation E, (ModuleInstanciation.skeleton dumpE t).blocks = t.blocks
  | .mk _ _ _ _ children => by
    have hc := ModuleInstanciation.skeletons_blocks dumpE children
    match children, hc with
    | [], hc =>
      simp only [ModuleInstanciation.skeleton, ModuleInstanciation.skeletons,
        Skeleton.blocks, ModuleInstanciation.blocks, Skeleton.blocks_of_children,
        ModuleInstanciation.blocks_of_children]
    | [child], hc =>
      simp only [ModuleInstanciation.skeleton, ModuleInstanciation.skeletons,
        Skeleton.blocks, ModuleInstanciation.blocks] at hc ⊢
      rw [hc]
    | child :: child2 :: rest, hc =>
      simp only [ModuleInstanciation.skeleton, ModuleInstanciation.skeletons,
        Skeleton.blocks, ModuleInstanciation.blocks] at hc ⊢
      rw [hc]
theorem ModuleInstanciation.skeletons_blocks {E : Type} (dumpE : E → String) :
    ∀ cs : List (ModuleInstanciation E),
      Skeleton.blocks_of_children (ModuleInstanciation.skeletons dumpE cs)
        = ModuleInstanciation.blocks_of_children cs
  | [] => rfl
  | child :: rest => by
    rw [ModuleInstanciation.skeletons, Skeleton.blocks_of_children,
      ModuleInstanciation.blocks_of_children,
      ModuleInstanciation.skeleton_blocks dumpE child,
      ModuleInstanciation.skeletons_blocks dumpE rest]
end

theorem NoNewlineTree.parts_of_tree {E : Type} {dumpE : E → String} {label modname : String}
    {argnames : List String} {argexpr : List E} {children : List (ModuleInstanciation E)}
    (h : NoNewlineTree dumpE
      (ModuleInstanciation.mk label modname argnames argexpr children)) :
    noNewline modname ∧ noNewline label ∧ (∀ a ∈ argnames, noNewline a)
      ∧ (∀ e ∈ argexpr, noNewline (dumpE e))
      ∧ ∀ child ∈ children, NoNewlineTree dumpE child := by
  cases h with
  | mk _ _ _ _ _ h1 h2 h3 h4 h5 => exact ⟨h1, h2, h3, h4, h5⟩

mutual
/-- The structure of a tree without newlines in its names, labels, argument
names and expression dumps has no newline in its labels, names and
argument-list texts. -/
theorem ModuleInstanciation.skeleton_lined {E : Type} (dumpE : E → String) :
    ∀ t : ModuleInstanciation E, NoNewlineTree dumpE t → ParallelArgs t →
      Skeleton.Lined (ModuleInstanciation.skeleton dumpE t)
  | .mk label modname argnames argexpr children, hn, hp => by
    obtain ⟨h1, h2, h3, h4, h5⟩ := hn.parts_of_tree
    obtain ⟨hlen, hch⟩ := hp.parts
    rw [ModuleInstanciation.skeleton]
    obtain ⟨t, ht, hnl⟩ := ModuleInstanciation.dump_args_ok dumpE argexpr h4 argnames 0 ""
      (by omega) h3 (noNewline_of_all (by decide))
    simp only [ht]
    exact Skeleton.Lined.node label modname t _ h2 h1 hnl
      (ModuleInstanciation.skeletons_lined dumpE children h5 hch)
/-- The same for a list of trees. -/
theorem ModuleInstanciation.skeletons_lined {E : Type} (dumpE : E → String) :
    ∀ cs : List (ModuleInstanciation E), (∀ c ∈ cs, NoNewlineTree dumpE c) →
      (∀ c ∈ cs, ParallelArgs c) →
      ∀ k ∈ ModuleInstanciation.skeletons dumpE cs, Skeleton.Lined k
  | [], _, _ => by
    intro k hk
    simp [ModuleInstanciation.skeletons] at hk
  | child :: rest, hn, hp => by
    intro k hk
    rw [ModuleInstanciation.skeletons, List.mem_cons] at hk
    rcases hk with hk | hk
    · rw [hk]
      exact ModuleInstanciation.skeleton_lined dumpE child
        (hn child (List.mem_cons_self child rest)) (hp child (List.mem_cons_self child rest))
    · exact ModuleInstanciation.skeletons_lined dumpE rest
        (fun c h => hn c (List.mem_cons_of_mem child h))
        (fun c h => hp c (List.mem_cons_of_mem child h)) k hk
end

/-! ## Locals and formals -/

/-- What `Module::evaluate` returns, given the scope it built: the result of
the body evaluated in that scope, followed by the supplied children. -/
theorem Module.evaluate_in_scope {E F : Type} (ev : E → Store E F → Nat → Value)
    (entry_first : Bool)
    (self : ModuleInstanciation E → Store E F → Nat →
      Except Fault (AbstractNode × Store E F))
    (m : Module E F (AbstractModule E F)) (st : Store E F) (ctx : Nat)
    (an : List String) (av : List Value) (child_nodes : List AbstractNode)
    (scope : Store E F) (hscope : Module.scope ev entry_first m st ctx an av = .ok scope) :
    Module.evaluate ev entry_first self m st ctx an av child_nodes
      = match evaluate_children self m.children scope st.length with
        | .ok (nodes, st5) =>
          .ok (AbstractNode.mk (nodes ++ child_nodes), st5.take st.length)
        | .error e => .error e := by
  unfold Module.evaluate
  simp only [hscope]
  cases evaluate_children self m.children scope st.length with
  | error e => rfl
  | ok r =>
    obtain ⟨nodes, st5⟩ := r
    simp only [List.nil_append, append_children_loop]

/-- The rounds of the local-assignment loop before round `i` succeed when the
first `i` locals have initializers. -/
theorem Module.scope_before_local_ok {E F : Type} (ev : E → Store E F → Nat → Value)
    (entry_first : Bool)
    (m : Module E F (AbstractModule E F)) (st : Store E F) (ctx : Nat)
    (an : List String) (av : List Value) (i : Nat)
    (h : m.assignments_var.length ≤ m.assignments_expr.length) :
    ∃ si, Module.scope_before_local ev entry_first m st ctx an av i = .ok si := by
  unfold Module.scope_before_local
  apply Module.assign_ok
  simp only [List.length_take]
  omega

/-! ## Claims -/

/-- C1. `Module::evaluate` returns one new node whose children are the results
of the body instantiations, in body order, each evaluated against the newly
created scope, followed by the supplied children in their given order: when
the scope is built and every body instantiation `b_i` evaluates to `n_i` in it,
the call returns the node with children `[n_1, .., n_k, s_1, .., s_m]`, of
length `k + m`, and hands back the caller's store. -/
theorem c1_module_evaluate_children {E F : Type} (ev : E → Store E F → Nat → Value)
    (entry_first : Bool)
    (reg : QHash (AbstractModule E F)) (fuel : Nat)
    (m : Module E F (AbstractModule E F)) (st : Store E F) (ctx : Nat)
    (call_argnames : List String) (call_argvalues : List Value)
    (supplied : List AbstractNode) (scope : Store E F) (body : List AbstractNode)
    (hscope : Module.scope ev entry_first m st ctx call_argnames call_argvalues = .ok scope)
    (hbody : List.Forall₂
      (fun b n => ∃ s, ModuleInstanciation.evaluate ev entry_first reg fuel b scope st.length
        = .ok (n, s)) m.children body) :
    Module.evaluate ev entry_first (ModuleInstanciation.evaluate ev entry_first reg fuel) m st ctx
        call_argnames call_argvalues supplied
      = .ok (AbstractNode.mk (body ++ supplied), st)
    ∧ (AbstractNode.mk (body ++ supplied)).children = body ++ supplied
    ∧ (body ++ supplied).length = m.children.length + supplied.length := by
  have hpres := ModuleInstanciation.evaluate_preserves_store ev entry_first reg fuel
  have hb := evaluate_children_of_forall _ hpres scope st.length m.children body hbody
  obtain ⟨y, hy, _⟩ :=
    Module.scope_top ev entry_first m st ctx call_argnames call_argvalues scope hscope
  refine ⟨?_, rfl, ?_⟩
  · rw [Module.evaluate_of_body ev entry_first _ m st ctx call_argnames call_argvalues supplied
      scope scope body hscope hb, hy]
    simp
  · rw [List.length_append, hbody.length_eq]

/-- Witness for C1: the body `a(); b() c();` called with the supplied children
`[leaf, node [leaf, leaf]]` yields the four children in the order body first,
supplied after. -/
theorem c1_module_evaluate_children_witness :
    Module.evaluate Expression.evaluate false
        (ModuleInstanciation.evaluate Expression.evaluate false [] 2) twoChildModule
        [emptyRoot] 0 [] [] [leaf, AbstractNode.mk [leaf, leaf]]
      = .ok (AbstractNode.mk
          ([leaf, AbstractNode.mk [leaf]] ++ [leaf, AbstractNode.mk [leaf, leaf]]),
          [emptyRoot]) :=
  (c1_module_evaluate_children Expression.evaluate false [] 2 twoChildModule [emptyRoot] 0
    [] [] [leaf, AbstractNode.mk [leaf, leaf]]
    [emptyRoot, { parent := some 0, variables_ := [], functions_p := some [],
                  modules_p := some [] }]
    [leaf, AbstractNode.mk [leaf]] rfl
    (List.Forall₂.cons ⟨_, rfl⟩ (List.Forall₂.cons ⟨_, rfl⟩ List.Forall₂.nil))).1

/-- C2. The default construct `AbstractModule::evaluate` returns a new node
whose children are exactly the supplied children, in order and number, and the
result does not depend on the scope, the argument names or the argument values. -/
theorem c2_abstract_module_evaluate {E F : Type} (st : Store E F) (ctx : Nat)
    (argnames : List String) (argvalues : List Value) (supplied : List AbstractNode) :
    (AbstractModule.evaluate st ctx argnames argvalues supplied).children = supplied
    ∧ (AbstractModule.evaluate st ctx argnames argvalues supplied).children.length
        = supplied.length
    ∧ ∀ (st2 : Store E F) (ctx2 : Nat) (argnames2 : List String)
        (argvalues2 : List Value),
        AbstractModule.evaluate st2 ctx2 argnames2 argvalues2 supplied
          = AbstractModule.evaluate st ctx argnames argvalues supplied := by
  refine ⟨?_, ?_, ?_⟩
  · rw [AbstractModule.evaluate_eq]; rfl
  · rw [AbstractModule.evaluate_eq]; rfl
  · intro st2 ctx2 an2 av2
    rw [AbstractModule.evaluate_eq, AbstractModule.evaluate_eq]

/-- C3. `ModuleInstanciation::evaluate(ctx)` is `ctx->evaluate_module(modname,
argnames, V, C)`, where `V` lists the values of the argument expressions
against `ctx`, in order and one per expression, and `C` lists the nodes of the
child instantiations evaluated against the same `ctx` in order; `argnames` is
passed unchanged. Both lists are complete before the construct is resolved:
when a child fails to evaluate, that failure is the result. -/
theorem c3_instanciation_evaluate {E F : Type} (ev : E → Store E F → Nat → Value)
    (entry_first : Bool)
    (reg : QHash (AbstractModule E F)) (fuel : Nat) (inst : ModuleInstanciation E)
    (st : Store E F) (ctx : Nat) :
    (∀ C : List AbstractNode,
      List.Forall₂
        (fun v n => ∃ s, ModuleInstanciation.evaluate ev entry_first reg fuel v st ctx = .ok (n, s))
        inst.children C →
      ModuleInstanciation.evaluate ev entry_first reg (fuel + 1) inst st ctx
        = Context.evaluate_module ev entry_first
            (ModuleInstanciation.evaluate ev entry_first reg fuel) reg
            st ctx inst.modname inst.argnames
            (inst.argexpr.map (fun e => ev e st ctx)) C)
    ∧ (inst.argexpr.map (fun e => ev e st ctx)).length = inst.argexpr.length
    ∧ (∀ i : Nat, (inst.argexpr.map (fun e => ev e st ctx)).get? i
        = (inst.argexpr.get? i).map (fun e => ev e st ctx))
    ∧ (∀ e : Fault,
        evaluate_children (ModuleInstanciation.evaluate ev entry_first reg fuel) inst.children
            st ctx
          = .error e →
        ModuleInstanciation.evaluate ev entry_first reg (fuel + 1) inst st ctx = .error e) := by
  refine ⟨?_, List.length_map _ _, ?_, ?_⟩
  · intro C hC
    have hpres := ModuleInstanciation.evaluate_preserves_store ev entry_first reg fuel
    have hb := evaluate_children_of_forall _ hpres st ctx inst.children C hC
    rw [ModuleInstanciation.evaluate]
    simp only [hb]
  · intro i
    simp
  · intro e he
    rw [ModuleInstanciation.evaluate]
    simp only [he]

/-- Witness for C3: `a(1, n = 2 + 3) b();` evaluates to the call of
`evaluate_module` with the values `[1, 5]` and the one child node. -/
theorem c3_instanciation_evaluate_witness :
    ModuleInstanciation.evaluate Expression.evaluate false [] 2 sampleCall [emptyRoot] 0
      = Context.evaluate_module Expression.evaluate false
          (ModuleInstanciation.evaluate Expression.evaluate false [] 1) [] [emptyRoot] 0
          "a" ["", "n"] [Value.number 1, Value.number 5] [leaf] :=
  (c3_instanciation_evaluate Expression.evaluate false [] 1 sampleCall [emptyRoot] 0).1
    [leaf] (List.Forall₂.cons ⟨_, rfl⟩ List.Forall₂.nil)

/-- C5. `Module::evaluate` writes formals and locals only into the child scope
it creates, whichever operand of the assignment at module.cc 112 runs first.
When a call returns, the store of scopes is the one the caller had: the
variable, function and construct tables of `ctx` and of every other scope are
the same after the call as before it. Inside the call the scope the body is
evaluated against is a new scope on top of the caller's unchanged scopes, with
parent `ctx`; a name assigned by a local is bound in that new scope to the
local's value, the value its last initializer had when its assignment ran,
whatever `ctx` binds the name to. -/
theorem c5_module_evaluate_frame {E F : Type} (ev : E → Store E F → Nat → Value)
    (entry_first : Bool)
    (reg : QHash (AbstractModule E F)) (fuel : Nat)
    (m : Module E F (AbstractModule E F)) (st : Store E F) (ctx : Nat)
    (an : List String) (av : List Value) (supplied : List AbstractNode)
    (node : AbstractNode) (st1 : Store E F)
    (h : Module.evaluate ev entry_first (ModuleInstanciation.evaluate ev entry_first reg fuel)
      m st ctx an av supplied = .ok (node, st1)) :
    st1 = st
    ∧ ∃ (scope : Store E F) (y : Context E F) (nodes : List AbstractNode),
        Module.scope ev entry_first m st ctx an av = .ok scope
        ∧ scope = st ++ [y] ∧ y.parent = some ctx
        ∧ (∀ i, i < st.length → scope.get? i = st.get? i)
        ∧ evaluate_children (ModuleInstanciation.evaluate ev entry_first reg fuel)
            m.children scope st.length = .ok (nodes, scope)
        ∧ node = AbstractNode.mk (nodes ++ supplied)
        ∧ (∀ (i : Nat) (x : String) (e : E) (si : Store E F),
            m.assignments_var.get? i = some x → m.assignments_expr.get? i = some e →
            (∀ j, i < j → m.assignments_var.get? j ≠ some x) →
            Module.scope_before_local ev entry_first m st ctx an av i = .ok si →
            Context.lookup_variable scope st.length x
              = ev e (Module.initializer_scope entry_first si st.length x) st.length) := by
  have hpres := ModuleInstanciation.evaluate_preserves_store ev entry_first reg fuel
  obtain ⟨st4, st5, nodes, hs, hb, hnode, _⟩ :=
    Module.evaluate_ok_inv ev entry_first _ m st ctx an av supplied node st1 h
  obtain ⟨y, hy, hp, _⟩ := Module.scope_top ev entry_first m st ctx an av st4 hs
  have h5 : st5 = st4 := evaluate_children_store _ hpres _ _ _ _ _ hb
  refine ⟨Module.evaluate_hands_back_store ev entry_first _ hpres m st ctx an av supplied
      node st1 h,
    st4, y, nodes, hs, hy, hp, ?_, ?_, hnode, ?_⟩
  · intro i hi
    rw [hy, List.get?_eq_getElem?, List.get?_eq_getElem?, List.getElem?_append_left hi]
  · rw [h5] at hb
    exact hb
  · intro i x e si hx he hlast hsi
    obtain ⟨y2, hy2, hval⟩ :=
      Module.scope_last_assignment ev entry_first m st ctx an av i x e si st4 hx he hlast
        hsi hs
    rw [hy2]
    exact Context.lookup_variable_top st y2 x _ hval

/-- Witness for C5: `inc()`, whose local is `x = x + 1`, called from a scope
that binds `x` to `1` returns with that scope unchanged under either operand
order, while its body saw `x` bound to the local's value: `2` when the
initializer ran first, `Undefined` when the subscript ran first. -/
theorem c5_module_evaluate_frame_witness :
    (Module.evaluate Expression.evaluate false
        (ModuleInstanciation.evaluate Expression.evaluate false [] 1) incrementModule
        [outerRoot] 0 [] [] [] = .ok (AbstractNode.mk [leaf], [outerRoot])
      ∧ Context.lookup_variable [outerRoot] 0 "x" = Value.number 1
      ∧ ∃ (scope : Store Expression Unit),
          Module.scope Expression.evaluate false incrementModule [outerRoot] 0 [] []
            = .ok scope
          ∧ Context.lookup_variable scope 1 "x" = Value.number 2)
    ∧ (Module.evaluate Expression.evaluate true
        (ModuleInstanciation.evaluate Expression.evaluate true [] 1) incrementModule
        [outerRoot] 0 [] [] [] = .ok (AbstractNode.mk [leaf], [outerRoot])
      ∧ ∃ (scope : Store Expression Unit),
          Module.scope Expression.evaluate true incrementModule [outerRoot] 0 [] []
            = .ok scope
          ∧ Context.lookup_variable scope 1 "x" = Value.undefined) := by
  have h0 : Module.evaluate Expression.evaluate false
      (ModuleInstanciation.evaluate Expression.evaluate false [] 1) incrementModule
      [outerRoot] 0 [] [] [] = .ok (AbstractNode.mk [leaf], [outerRoot]) := rfl
  have h1 : Module.evaluate Expression.evaluate true
      (ModuleInstanciation.evaluate Expression.evaluate true [] 1) incrementModule
      [outerRoot] 0 [] [] [] = .ok (AbstractNode.mk [leaf], [outerRoot]) := rfl
  have hlast : ∀ j, 0 < j → incrementModule.assignments_var.get? j ≠ some "x" := by
    intro j hj
    cases j with
    | zero => omega
    | succ k => simp [incrementModule]
  obtain ⟨_, scope0, _, _, hs0, _, _, _, _, _, hlocal0⟩ :=
    c5_module_evaluate_frame Expression.evaluate false [] 1 incrementModule [outerRoot] 0
      [] [] [] (AbstractNode.mk [leaf]) [outerRoot] h0
  obtain ⟨_, scope1, _, _, hs1, _, _, _, _, _, hlocal1⟩ :=
    c5_module_evaluate_frame Expression.evaluate true [] 1 incrementModule [outerRoot] 0
      [] [] [] (AbstractNode.mk [leaf]) [outerRoot] h1
  refine ⟨⟨h0, rfl, scope0, hs0, ?_⟩, h1, scope1, hs1, ?_⟩
  · exact hlocal0 0 "x"
      (Expression.add (Expression.var "x") (Expression.const (Value.number 1))) _ rfl rfl
      hlast rfl
  · exact hlocal1 0 "x"
      (Expression.add (Expression.var "x") (Expression.const (Value.number 1))) _ rfl rfl
      hlast rfl

/-- C6, as stated, fails: the claim puts no condition on the argument names,
and an argument name that holds a newline makes a leaf `a(..)` dump to the
text of `a(p = q)` with the child `b(r = D)`. Both trees meet the conditions
of the claim, their dumps are equal, and their nesting differs. -/
theorem c6_newline_argname_counterexample :
    Dumpable Expression.dump (fun _ => True) newlineNameCall
    ∧ Dumpable Expression.dump (fun _ => True) nestedCall
    ∧ ModuleInstanciation.dump Expression.dump "" newlineNameCall
        = ModuleInstanciation.dump Expression.dump "" nestedCall
    ∧ newlineNameCall.children.length = 0 ∧ nestedCall.children.length = 1
    ∧ ModuleInstanciation.skeleton Expression.dump newlineNameCall
        ≠ ModuleInstanciation.skeleton Expression.dump nestedCall := by
  have ha : isIdentifier "a" := ⟨by decide, by decide⟩
  have hb : isIdentifier "b" := ⟨by decide, by decide⟩
  refine ⟨?_, ?_, rfl, rfl, rfl, ?_⟩
  · refine Dumpable.mk _ _ _ _ _ ha (Or.inl rfl) rfl ?_ (fun _ _ => trivial) ?_
    · intro e he
      simp only [List.mem_singleton] at he
      subst he
      exact noNewline_of_all (by decide)
    · intro c hc
      simp at hc
  · refine Dumpable.mk _ _ _ _ _ ha (Or.inl rfl) rfl ?_ (fun _ _ => trivial) ?_
    · intro e he
      simp only [List.mem_singleton] at he
      subst he
      exact noNewline_of_all (by decide)
    · intro c hc
      simp only [List.mem_singleton] at hc
      subst hc
      refine Dumpable.mk _ _ _ _ _ hb (Or.inl rfl) rfl ?_ (fun _ _ => trivial) ?_
      · intro e he
        simp only [List.mem_singleton] at he
        subst he
        exact noNewline_of_all (by decide)
      · intro c hc
        simp at hc
  · intro h
    simp [newlineNameCall, nestedCall, ModuleInstanciation.skeleton,
      ModuleInstanciation.skeletons] at h

/-- C6, amended. `ModuleInstanciation::dump` is lossless on structure when, in
addition to the conditions of the claim, no argument name holds a newline: for
every indent and every two trees whose construct names are non-empty
identifiers, whose labels are empty or identifiers, whose `argnames` and
`argexpr` have equal length, and whose argument names and expression dumps hold
no newline, equal dump text implies equal structure: the same nesting, and at
every node the same label, construct name and rendered argument-list text. -/
theorem c6_dump_lossless_amended {E : Type} (dumpE : E → String) (indent : String)
    (t1 t2 : ModuleInstanciation E)
    (h1 : Dumpable dumpE noNewline t1) (h2 : Dumpable dumpE noNewline t2)
    (h : ModuleInstanciation.dump dumpE indent t1
      = ModuleInstanciation.dump dumpE indent t2) :
    ModuleInstanciation.skeleton dumpE t1 = ModuleInstanciation.skeleton dumpE t2 := by
  obtain ⟨s1, hs1⟩ := ModuleInstanciation.dump_ok dumpE noNewline t1 indent h1
  obtain ⟨s2, hs2⟩ := ModuleInstanciation.dump_ok dumpE noNewline t2 indent h2
  have e1 := ModuleInstanciation.dump_eq_render dumpE t1 indent s1 hs1
  have e2 := ModuleInstanciation.dump_eq_render dumpE t2 indent s2 hs2
  rw [hs1, hs2, Except.ok.injEq] at h
  have h3 : Skeleton.render indent (ModuleInstanciation.skeleton dumpE t1) ++ ""
      = Skeleton.render indent (ModuleInstanciation.skeleton dumpE t2) ++ "" := by
    rw [← e1, ← e2, h]
  exact (Skeleton.render_prefix_free _ _ indent "" ""
    (ModuleInstanciation.skeleton_wf dumpE t1 h1)
    (ModuleInstanciation.skeleton_wf dumpE t2 h2) h3).1

/-- Witness for C6: `top: a(undef) { b(); c(); }` with the argument a variable
named `undef`, and the same with the argument the constant `Undefined`, dump
to the same text and have the same structure. -/
theorem c6_dump_lossless_amended_witness :
    ModuleInstanciation.dump Expression.dump "\t" undefVarCall
      = .ok "\ttop: a(undef) \x7b\n\t\tb();\n\t\tc();\n\t\x7d\n"
    ∧ ModuleInstanciation.skeleton Expression.dump undefVarCall
      = ModuleInstanciation.skeleton Expression.dump undefConstCall := by
  have ha : isIdentifier "a" := ⟨by decide, by decide⟩
  have hb : isIdentifier "b" := ⟨by decide, by decide⟩
  have hc : isIdentifier "c" := ⟨by decide, by decide⟩
  have ht : isIdentifier "top" := ⟨by decide, by decide⟩
  have hch : ∀ child ∈ [call "b" [], call "c" []],
      Dumpable Expression.dump noNewline child := by
    intro child hmem
    simp only [List.mem_cons, List.mem_singleton, List.not_mem_nil, or_false] at hmem
    rcases hmem with e | e
    · rw [e]; exact dumpable_call_leaf noNewline "b" hb
    · rw [e]; exact dumpable_call_leaf noNewline "c" hc
  have hnames : ∀ a ∈ [""], noNewline a := by
    intro a hmem
    simp only [List.mem_singleton] at hmem
    subst hmem
    exact noNewline_of_all (by decide)
  have h1 : Dumpable Expression.dump noNewline undefVarCall := by
    refine Dumpable.mk _ _ _ _ _ ha (Or.inr ht) rfl ?_ hnames hch
    intro e he
    simp only [List.mem_singleton] at he
    subst he
    exact noNewline_of_all (by decide)
  have h2 : Dumpable Expression.dump noNewline undefConstCall := by
    refine Dumpable.mk _ _ _ _ _ ha (Or.inr ht) rfl ?_ hnames hch
    intro e he
    simp only [List.mem_singleton] at he
    subst he
    exact noNewline_of_all (by decide)
  exact ⟨rfl, c6_dump_lossless_amended Expression.dump "\t" undefVarCall undefConstCall h1 h2 rfl⟩

/-- C7. The label of an instantiation node has no effect on evaluation: two
instantiation trees that differ only in the labels of their nodes evaluate, in
every scope and store and for every step bound, to the same result. The label
is read by `ModuleInstanciation::dump`, which emits it followed by `": "`
between the indent and the construct name exactly when it is non-empty; the
rest of the text does not depend on the label of the node. -/
theorem c7_label_no_effect {E F : Type} (ev : E → Store E F → Nat → Value) (entry_first : Bool)
    (reg : QHash (AbstractModule E F)) (dumpE : E → String) (fuel : Nat)
    (t1 t2 : ModuleInstanciation E) (st : Store E F) (ctx : Nat)
    (h : t1.eraseLabels = t2.eraseLabels) :
    ModuleInstanciation.evaluate ev entry_first reg fuel t1 st ctx
      = ModuleInstanciation.evaluate ev entry_first reg fuel t2 st ctx
    ∧ ∀ (indent modname : String) (argnames : List String) (argexpr : List E)
        (children : List (ModuleInstanciation E)),
        ∃ r : Except Fault String, ∀ label : String,
          ModuleInstanciation.dump dumpE indent
              (ModuleInstanciation.mk label modname argnames argexpr children)
            = match r with
              | .ok rest =>
                .ok (indent ++ ((if label ≠ "" then label ++ ": " else "")
                  ++ (modname ++ ("(" ++ rest))))
              | .error e => .error e := by
  refine ⟨?_, fun indent modname argnames argexpr children =>
    ModuleInstanciation.dump_label dumpE indent modname argnames argexpr children⟩
  rw [← ModuleInstanciation.evaluate_eraseLabels ev entry_first reg fuel t1,
    ← ModuleInstanciation.evaluate_eraseLabels ev entry_first reg fuel t2, h]

/-- Witness for C7: `outer: a(1, n = 2 + 3) inner: b();` and the same tree
without labels evaluate to the same node. -/
theorem c7_label_no_effect_witness :
    ModuleInstanciation.evaluate Expression.evaluate false [] 2 labelledCall [emptyRoot] 0
      = ModuleInstanciation.evaluate Expression.evaluate false [] 2 sampleCall [emptyRoot] 0
    ∧ ModuleInstanciation.evaluate Expression.evaluate false [] 2 labelledCall [emptyRoot] 0
      = .ok (AbstractNode.mk [leaf], [emptyRoot])
    ∧ ModuleInstanciation.dump Expression.dump "" labelledCall
      = .ok "outer: a(1, n = (2 + 3))\n\tinner: b();\n"
    ∧ ModuleInstanciation.dump Expression.dump "" sampleCall
      = .ok "a(1, n = (2 + 3))\n\tb();\n" :=
  ⟨(c7_label_no_effect Expression.evaluate false [] Expression.dump 2 labelledCall sampleCall
      [emptyRoot] 0 rfl).1, rfl, rfl, rfl⟩

/-- C8. Formal binding consumes positional arguments left to right, skipping
formals that a named argument already fills: a user construct with the formals
`(x, y, z)`, called with the argument list `(y = a, b, c)`, builds a scope
that binds `x` to `b`, `y` to `a` and `z` to `c`, whatever the values, the
defaults, the rest of the construct and the calling scope are. The spec
example is `a = 2`, `b = 5`, `c = 9`. -/
theorem c8_positional_named_mixing {E F : Type} (ev : E → Store E F → Nat → Value)
    (entry_first : Bool)
    (st : Store E F) (ctx : Nat) (defaults : List (Option E)) (fs : List (String × F))
    (ms : List (String × AbstractModule E F)) (body : List (ModuleInstanciation E))
    (a b c : Value) :
    ∃ y : Context E F,
      Module.scope ev entry_first
          { argnames := ["x", "y", "z"], argexpr := defaults, assignments_var := [],
            assignments_expr := [], functions := fs, modules := ms, children := body }
          st ctx ["y", "", ""] [a, b, c] = .ok (st ++ [y])
      ∧ y.parent = some ctx
      ∧ QHash.value y.variables_ "x" = some b
      ∧ QHash.value y.variables_ "y" = some a
      ∧ QHash.value y.variables_ "z" = some c
      ∧ Context.lookup_variable (st ++ [y]) st.length "x" = b
      ∧ Context.lookup_variable (st ++ [y]) st.length "y" = a
      ∧ Context.lookup_variable (st ++ [y]) st.length "z" = c := by
  refine ⟨{ parent := some ctx,
            variables_ := [("z", c), ("y", a), ("x", b)],
            functions_p := some fs, modules_p := some ms }, ?_, rfl, rfl, rfl, rfl,
    Context.lookup_variable_top st _ "x" b rfl,
    Context.lookup_variable_top st _ "y" a rfl,
    Context.lookup_variable_top st _ "z" c rfl⟩
  simp [Module.scope, Module.formals_scope, Context.args, Context.bind_formals,
    Store.setVariable_append_self, Store.update_append_self, Module.assign,
    QHash.value, QHash.insert, Context.new]

/-- Witness for C8: the spec example, `(y = 2, 5, 9)` against `(x, y, z)` from
the empty top-level scope. -/
theorem c8_positional_named_mixing_witness :
    ∃ y : Context Expression Unit,
      Module.scope Expression.evaluate false
          { argnames := ["x", "y", "z"], argexpr := [none, none, none],
            assignments_var := [], assignments_expr := [], functions := [],
            modules := [], children := [] }
          [emptyRoot] 0 ["y", "", ""]
          [Value.number 2, Value.number 5, Value.number 9] = .ok ([emptyRoot] ++ [y])
      ∧ QHash.value y.variables_ "x" = some (Value.number 5)
      ∧ QHash.value y.variables_ "y" = some (Value.number 2)
      ∧ QHash.value y.variables_ "z" = some (Value.number 9) := by
  obtain ⟨y, h1, _, hx, hy, hz, _⟩ :=
    c8_positional_named_mixing Expression.evaluate false [emptyRoot] 0 [none, none, none] [] []
      [] (Value.number 2) (Value.number 5) (Value.number 9)
  exact ⟨y, h1, hx, hy, hz⟩

/-- C9. A formal's default expression is evaluated in the new scope, where the
earlier formals are already bound: a user construct with the formals
`(a, b = a + 1)`, called with `a = 3` (by name or by position) and no value
for `b`, builds a scope that binds `a` to `3` and `b` to `4`, whatever the
calling scope binds. -/
theorem c9_default_sees_earlier_formal (entry_first : Bool)
    (st : Store Expression Unit) (ctx : Nat)
    (fs : List (String × Unit)) (ms : List (String × AbstractModule Expression Unit))
    (body : List (ModuleInstanciation Expression)) (call_argnames : List String)
    (hcall : call_argnames = ["a"] ∨ call_argnames = [""]) :
    ∃ y : Context Expression Unit,
      Module.scope Expression.evaluate entry_first
          { argnames := ["a", "b"],
            argexpr := [none, some (Expression.add (Expression.var "a")
              (Expression.const (Value.number 1)))],
            assignments_var := [], assignments_expr := [], functions := fs,
            modules := ms, children := body }
          st ctx call_argnames [Value.number 3] = .ok (st ++ [y])
      ∧ y.parent = some ctx
      ∧ QHash.value y.variables_ "a" = some (Value.number 3)
      ∧ QHash.value y.variables_ "b" = some (Value.number 4)
      ∧ Context.lookup_variable (st ++ [y]) st.length "a" = Value.number 3
      ∧ Context.lookup_variable (st ++ [y]) st.length "b" = Value.number 4 := by
  refine ⟨{ parent := some ctx,
            variables_ := [("b", Value.number 4), ("a", Value.number 3)],
            functions_p := some fs, modules_p := some ms }, ?_, rfl, rfl, rfl,
    Context.lookup_variable_top st _ "a" _ rfl,
    Context.lookup_variable_top st _ "b" _ rfl⟩
  have hdef : ∀ y : Context Expression Unit,
      QHash.value y.variables_ "a" = some (Value.number 3) →
      Expression.evaluate (Expression.add (Expression.var "a")
        (Expression.const (Value.number 1))) (st ++ [y]) st.length = Value.number 4 := by
    intro y hy
    simp only [Expression.evaluate, Context.lookup_variable_top st y "a" _ hy]
    rfl
  rcases hcall with h | h <;> subst h <;>
    simp [Module.scope, Module.formals_scope, Context.args, Context.bind_formals,
      Store.setVariable_append_self, Store.update_append_self, Module.assign,
      QHash.value, QHash.insert, Context.new, hdef]

/-- Witness for C9: the call `m(a = 3)` from the empty top-level scope. -/
theorem c9_default_sees_earlier_formal_witness :
    ∃ y : Context Expression Unit,
      Module.scope Expression.evaluate false
          { argnames := ["a", "b"],
            argexpr := [none, some (Expression.add (Expression.var "a")
              (Expression.const (Value.number 1)))],
            assignments_var := [], assignments_expr := [], functions := [],
            modules := [], children := [] }
          [emptyRoot] 0 ["a"] [Value.number 3] = .ok ([emptyRoot] ++ [y])
      ∧ QHash.value y.variables_ "a" = some (Value.number 3)
      ∧ QHash.value y.variables_ "b" = some (Value.number 4) := by
  obtain ⟨y, h1, _, h3, h4, _, _⟩ :=
    c9_default_sees_earlier_formal false [emptyRoot] 0 [] [] [] ["a"] (Or.inl rfl)
  exact ⟨y, h1, h3, h4⟩

/-- C10. Scoping is lexical. When the name of an instantiation resolves,
through the parent chain of the call-site scope `ctx`, to a user construct
found in the table of the scope `d` (the scope in which it was defined),
`Module::evaluate` is invoked with `d`: the parent of the scope it creates is
`d`, not `ctx`, and a variable that the construct does not bind itself
resolves as it does in `d`, through the ancestry of `d`; so a variable bound
only in the scopes of the call site is not visible. -/
theorem c10_lexical_scoping {E F : Type} (ev : E → Store E F → Nat → Value) (entry_first : Bool)
    (self : ModuleInstanciation E → Store E F → Nat →
      Except Fault (AbstractNode × Store E F))
    (reg : QHash (AbstractModule E F)) (st : Store E F) (ctx : Nat) (name : String)
    (d : Nat) (m : Module E F (AbstractModule E F))
    (an : List String) (av : List Value) (supplied : List AbstractNode)
    (hwf : Store.parentsBelow st)
    (hfind : Context.find_module st st.length ctx name
      = some (d, AbstractModule.module m)) :
    Context.evaluate_module ev entry_first self reg st ctx name an av supplied
      = Module.evaluate ev entry_first self m st d an av supplied
    ∧ ∀ scope : Store E F, Module.scope ev entry_first m st d an av = .ok scope →
        ∃ y : Context E F, scope = st ++ [y] ∧ y.parent = some d
          ∧ ∀ x : String, QHash.value y.variables_ x = none →
              Context.lookup_variable scope st.length x = Context.lookup_variable st d x := by
  refine ⟨?_, ?_⟩
  · rw [Context.evaluate_module, hfind]
    rfl
  · intro scope hs
    obtain ⟨y, hy, hp, _⟩ := Module.scope_top ev entry_first m st d an av scope hs
    refine ⟨y, hy, hp, ?_⟩
    intro x hx
    obtain ⟨xd, hxd, _⟩ := Context.find_module_some st name _ _ _ _ hfind
    have hd : d < st.length := by
      rw [List.get?_eq_getElem?] at hxd
      exact (List.getElem?_eq_some.mp hxd).1
    have hg : (st ++ [y]).get? st.length = some y := by simp
    rw [hy, Context.lookup_variable, List.length_append, List.length_singleton,
      Context.lookup_variable_from, hg]
    simp only [hx, hp]
    exact Context.lookup_variable_from_push st hwf y x st.length d hd

/-- Witness for C10: `inner` is defined at the top level and instantiated from
the body of `outer`, which is defined inside `wrap`. The scope of the call of
`inner` has the top-level scope as parent: the variable `t` that `outer` binds
is visible at the call site and not in `inner`, while the top-level `g` is. -/
theorem c10_lexical_scoping_witness :
    Module.scope Expression.evaluate false wrapModule [lexRoot] 0 [] []
      = .ok [lexRoot, wrapScope]
    ∧ Module.scope Expression.evaluate false outerModule [lexRoot, wrapScope] 1 [] []
      = .ok [lexRoot, wrapScope, outerScope]
    ∧ Context.lookup_variable [lexRoot, wrapScope, outerScope] 2 "t" = Value.number 7
    ∧ ∃ (scope : Store Expression Unit) (y : Context Expression Unit),
        Module.scope Expression.evaluate false innerModule [lexRoot, wrapScope, outerScope] 0
          [] [] = .ok scope
        ∧ scope = [lexRoot, wrapScope, outerScope] ++ [y]
        ∧ y.parent = some 0
        ∧ Context.lookup_variable scope 3 "t" = Value.undefined
        ∧ Context.lookup_variable scope 3 "w" = Value.undefined
        ∧ Context.lookup_variable scope 3 "g" = Value.number 1
        ∧ Context.lookup_variable scope 3 "r" = Value.undefined
        ∧ Context.lookup_variable scope 3 "s" = Value.number 1 := by
  have hwf : Store.parentsBelow [lexRoot, wrapScope, outerScope] := by
    intro i x p hx hp
    match i, hx with
    | 0, hx =>
      simp only [List.get?, Option.some.injEq] at hx
      rw [← hx] at hp
      simp [lexRoot] at hp
    | 1, hx =>
      simp only [List.get?, Option.some.injEq] at hx
      rw [← hx] at hp
      simp only [wrapScope, Option.some.injEq] at hp
      omega
    | 2, hx =>
      simp only [List.get?, Option.some.injEq] at hx
      rw [← hx] at hp
      simp only [outerScope, Option.some.injEq] at hp
      omega
    | k + 3, hx => simp [List.get?] at hx
  have hscope : Module.scope Expression.evaluate false innerModule
      [lexRoot, wrapScope, outerScope] 0 [] []
      = .ok [lexRoot, wrapScope, outerScope,
          { parent := some 0,
            variables_ := [("s", Value.number 1), ("r", Value.undefined)],
            functions_p := some [], modules_p := some [] }] := rfl
  obtain ⟨_, hlex⟩ := c10_lexical_scoping Expression.evaluate false
    (ModuleInstanciation.evaluate Expression.evaluate false [] 0) []
    [lexRoot, wrapScope, outerScope] 2 "inner" 0 innerModule [] [] [] hwf rfl
  obtain ⟨y, hy, hp, hfree⟩ := hlex _ hscope
  have hvars : y.variables_ = [("s", Value.number 1), ("r", Value.undefined)] := by
    have h3 : [lexRoot, wrapScope, outerScope] ++ [_]
        = [lexRoot, wrapScope, outerScope] ++ [y] := hy
    have h4 := List.append_cancel_left h3
    simp only [List.cons.injEq, and_true] at h4
    rw [← h4]
  refine ⟨rfl, rfl, rfl, _, y, hscope, hy, hp, ?_, ?_, ?_, rfl, rfl⟩
  · exact (hfree "t" (by rw [hvars]; rfl)).trans rfl
  · exact (hfree "w" (by rw [hvars]; rfl)).trans rfl
  · exact (hfree "g" (by rw [hvars]; rfl)).trans rfl

/-- C12. For every prior content of the built-in registry,
`destroy_builtin_modules` leaves the registry empty, so that no name resolves
to a built-in afterwards; and `initialize_builtin_modules` leaves the name
`group` mapped to the default construct, overwriting any earlier entry under
that name, the five `register_builtin_*` functions keeping the entry under
`group` as they find it. -/
theorem c12_registry_init_destroy {E F : Type}
    (r1 r2 r3 r4 r5 : QHash (AbstractModule E F) → QHash (AbstractModule E F))
    (prior : QHash (AbstractModule E F))
    (h1 : ∀ t, QHash.value (r1 t) "group" = QHash.value t "group")
    (h2 : ∀ t, QHash.value (r2 t) "group" = QHash.value t "group")
    (h3 : ∀ t, QHash.value (r3 t) "group" = QHash.value t "group")
    (h4 : ∀ t, QHash.value (r4 t) "group" = QHash.value t "group")
    (h5 : ∀ t, QHash.value (r5 t) "group" = QHash.value t "group") :
    destroy_builtin_modules prior = []
    ∧ (∀ name : String, QHash.value (destroy_builtin_modules prior) name = none)
    ∧ QHash.value (initialize_builtin_modules r1 r2 r3 r4 r5 prior) "group"
        = some AbstractModule.abstract := by
  refine ⟨rfl, fun name => rfl, ?_⟩
  unfold initialize_builtin_modules
  simp only [h5, h4, h3, h2, h1]
  exact QHash.value_insert_self prior "group" AbstractModule.abstract

/-- Witness for C12: from a registry whose `group` entry is a user module,
with the built-ins registered under `union`, `difference`, `intersect`,
`trans` and `cube`. -/
theorem c12_registry_init_destroy_witness :
    QHash.value staleRegistry "group" = some (AbstractModule.module userGroupModule)
    ∧ destroy_builtin_modules staleRegistry = []
    ∧ QHash.value
        (initialize_builtin_modules (registerUnder "union") (registerUnder "difference")
          (registerUnder "intersect") (registerUnder "trans") (registerUnder "cube")
          staleRegistry) "group" = some AbstractModule.abstract := by
  have hkeep : ∀ name : String, "group" ≠ name →
      ∀ t, QHash.value (registerUnder name t) "group" = QHash.value t "group" :=
    fun name hne t => QHash.value_insert_ne t name "group" AbstractModule.abstract hne
  obtain ⟨hd, _, hi⟩ := c12_registry_init_destroy (registerUnder "union")
    (registerUnder "difference") (registerUnder "intersect") (registerUnder "trans")
    (registerUnder "cube") staleRegistry (hkeep "union" (by decide))
    (hkeep "difference" (by decide)) (hkeep "intersect" (by decide))
    (hkeep "trans" (by decide)) (hkeep "cube" (by decide))
  exact ⟨rfl, hd, hi⟩

/-- C13. Evaluation carries no recursion-depth guard. For the user construct
`module name() { name(); }`, instantiated in a scope in which the name resolves
to it, the mutual recursion of `ModuleInstanciation::evaluate` and
`Module::evaluate` never returns: for every step bound the bounded evaluation
uses up its steps. It never returns a node and never ends with another
failure; the evaluators have no recursion-limit failure to end with. -/
theorem c13_self_instantiation_never_returns {E F : Type}
    (ev : E → Store E F → Nat → Value) (entry_first : Bool) (reg : QHash (AbstractModule E F))
    (name : String) (n : Nat) :
    ∀ (st : Store E F) (ctx d : Nat),
      Context.find_module st st.length ctx name
        = some (d, AbstractModule.module (selfCalling name)) →
      ModuleInstanciation.evaluate ev entry_first reg n (ModuleInstanciation.mk "" name [] [] [])
        st ctx = .error Fault.outOfFuel := by
  induction n with
  | zero => intro st ctx d _; rfl
  | succ k ih =>
    intro st ctx d hfind
    have hnext := ih (st ++ [bareScope d]) st.length d
      (Context.find_module_from_child st ctx d name _ _ rfl rfl hfind)
    rw [ModuleInstanciation.evaluate]
    simp only [ModuleInstanciation.children, ModuleInstanciation.modname,
      ModuleInstanciation.argnames, ModuleInstanciation.argexpr, evaluate_children,
      Context.evaluate_module, hfind, AbstractModule.dispatch, Module.evaluate]
    simp only [List.map_nil, selfCalling_scope, hnext]

/-- Witness for C13: `rec();` at the top level of a program that defines
`module rec() { rec(); }`, with a step bound of one thousand. -/
theorem c13_self_instantiation_never_returns_witness :
    ModuleInstanciation.evaluate Expression.evaluate false groupRegistry 1000
        (ModuleInstanciation.mk "" "rec" [] [] []) [recRoot] 0
      = .error Fault.outOfFuel :=
  c13_self_instantiation_never_returns Expression.evaluate false groupRegistry "rec" 1000
    [recRoot] 0 0 rfl

/-- C14. For every instantiation tree evaluated in a scope where every
construct name resolves to the default (group) construct,
`ModuleInstanciation::evaluate` terminates, for every step bound that reaches
the depth of the tree, and returns a geometry tree of the same shape: at every
position there is a geometry node exactly where there is an instantiation
node, with as many children as that instantiation node; so the geometry tree
has the node count and the depth of the instantiation tree. -/
theorem c14_group_only_evaluation {E F : Type} (ev : E → Store E F → Nat → Value)
    (entry_first : Bool)
    (reg : QHash (AbstractModule E F)) (st : Store E F) (ctx : Nat)
    (t : ModuleInstanciation E)
    (hdef : ∀ name, Context.resolves_to_default reg st ctx name) :
    ∃ node : AbstractNode,
      (∀ fuel, t.depth ≤ fuel →
        ModuleInstanciation.evaluate ev entry_first reg fuel t st ctx = .ok (node, st))
      ∧ (∀ path : List Nat,
          (node.subtree path).map (fun n => n.children.length)
            = (t.subtree path).map (fun s => s.children.length))
      ∧ node.size = t.size
      ∧ node.depth = t.depth := by
  refine ⟨t.shape, ModuleInstanciation.evaluate_shape ev entry_first reg st ctx hdef t, ?_,
    ModuleInstanciation.shape_size t, ModuleInstanciation.shape_depth t⟩
  intro path
  rw [ModuleInstanciation.shape_subtree]
  cases t.subtree path with
  | none => rfl
  | some s =>
    simp only [Option.map_some', ModuleInstanciation.shape_children, List.length_map]

/-- Witness for C14: `a() { b(); c() d(); }` from the empty top-level scope with
`group` registered evaluates, within three steps, to a tree of four nodes and
depth three. -/
theorem c14_group_only_evaluation_witness :
    ModuleInstanciation.evaluate Expression.evaluate false groupRegistry 3 threeLevelCall
        [emptyRoot] 0
      = .ok (AbstractNode.mk [leaf, AbstractNode.mk [leaf]], [emptyRoot])
    ∧ (AbstractNode.mk [leaf, AbstractNode.mk [leaf]]).size = threeLevelCall.size
    ∧ (AbstractNode.mk [leaf, AbstractNode.mk [leaf]]).depth = threeLevelCall.depth := by
  have hdef : ∀ name, Context.resolves_to_default groupRegistry [emptyRoot] 0 name := by
    intro name
    have hf : Context.find_module [emptyRoot] [emptyRoot].length 0 name = none := rfl
    unfold Context.resolves_to_default
    rw [hf]
    simp only [groupRegistry, QHash.value]
    by_cases hg : "group" = name
    · simp only [hg, if_true]
    · simp only [hg, if_false]
  obtain ⟨node, hev, _, hsize, hdepth⟩ := c14_group_only_evaluation Expression.evaluate false
    groupRegistry [emptyRoot] 0 threeLevelCall hdef
  have h3 : ModuleInstanciation.evaluate Expression.evaluate false groupRegistry 3 threeLevelCall
      [emptyRoot] 0 = .ok (AbstractNode.mk [leaf, AbstractNode.mk [leaf]], [emptyRoot]) := rfl
  have hn := hev 3 (by decide)
  rw [h3] at hn
  simp only [Except.ok.injEq, Prod.mk.injEq, and_true] at hn
  rw [← hn] at hsize hdepth
  exact ⟨h3, hsize, hdepth⟩

/-- C15. Under the data-model invariants (`argnames` and `argexpr` of equal
length at every node of an instantiation tree; in a user construct `argexpr` at
least as long as `argnames` and `assignments_expr` as long as
`assignments_var`, in nested constructs too) every sequence index performed by
`ModuleInstanciation::dump` and `Module::dump` is in range: both return their
text. Without the invariant, on every instantiation node with more argument
names than argument expressions `ModuleInstanciation::dump` indexes `argexpr`
out of range. -/
theorem c15_dump_indices_in_range {E F : Type} (dumpE : E → String)
    (dumpF : F → String → String → String) (indent name : String)
    (t : ModuleInstanciation E) (m : Module E F (AbstractModule E F))
    (ht : ParallelArgs t) (hm : AbstractModule.Parallel (AbstractModule.module m)) :
    (∃ s, ModuleInstanciation.dump dumpE indent t = .ok s)
    ∧ (∃ s, Module.dump dumpE dumpF m indent name = .ok s)
    ∧ ∀ (label modname : String) (argnames : List String) (argexpr : List E)
        (children : List (ModuleInstanciation E)),
        argexpr.length < argnames.length →
        ModuleInstanciation.dump dumpE indent
            (ModuleInstanciation.mk label modname argnames argexpr children)
          = .error Fault.outOfRange := by
  refine ⟨ModuleInstanciation.dump_in_range dumpE t indent ht,
    Module.dump_module_in_range dumpE dumpF m indent name hm, ?_⟩
  intro label modname argnames argexpr children hlt
  rw [ModuleInstanciation.dump]
  simp only [ModuleInstanciation.dump_args_fault dumpE argexpr argnames 0 _ (Nat.zero_le _)
    (by omega)]

/-- Witness for C15: the dumps of `a(1, n = 2 + 3) b();` and of `dumpedModule`
return their text; `a(p = x, q = ?)` with one expression for two names indexes
out of range. -/
theorem c15_dump_indices_in_range_witness :
    ModuleInstanciation.dump Expression.dump "" sampleCall
      = .ok "a(1, n = (2 + 3))\n\tb();\n"
    ∧ (∃ s, Module.dump Expression.dump (fun _ _ _ => "") dumpedModule "" "m" = .ok s)
    ∧ ModuleInstanciation.dump Expression.dump ""
        (ModuleInstanciation.mk "" "a" ["p", "q"] [Expression.var "x"] [])
      = .error Fault.outOfRange := by
  have hleaf : ∀ (name : String) (an : List String) (ae : List Expression),
      an.length = ae.length →
      ParallelArgs (ModuleInstanciation.mk "" name an ae []) := by
    intro name an ae h
    exact ParallelArgs.mk _ _ _ _ _ h (fun c hc => by simp at hc)
  have ht : ParallelArgs sampleCall := by
    refine ParallelArgs.mk _ _ _ _ _ rfl ?_
    intro c hc
    simp only [List.mem_singleton] at hc
    rw [hc]
    exact hleaf "b" [] [] rfl
  have hsub : AbstractModule.Parallel (AbstractModule.module localsModule) := by
    refine AbstractModule.Parallel.module _ (Nat.le_refl _) rfl ?_ ?_
    · intro c hc; simp [localsModule] at hc
    · intro p hp; simp [localsModule] at hp
  have hm : AbstractModule.Parallel (AbstractModule.module dumpedModule) := by
    refine AbstractModule.Parallel.module _ (Nat.le_refl _) rfl ?_ ?_
    · intro c hc
      simp only [dumpedModule, List.mem_singleton] at hc
      rw [hc]
      exact hleaf "b" [""] [Expression.var "n"] rfl
    · intro p hp
      simp only [dumpedModule, List.mem_cons, List.mem_singleton, List.not_mem_nil,
        or_false] at hp
      rcases hp with e | e
      · rw [e]; exact hsub
      · rw [e]; exact AbstractModule.Parallel.abstract
  obtain ⟨_, h2, h3⟩ := c15_dump_indices_in_range Expression.dump (fun _ _ _ => "") "" "m"
    sampleCall dumpedModule ht hm
  exact ⟨rfl, h2, h3 "" "a" ["p", "q"] [Expression.var "x"] [] (by decide)⟩

/-- C16, as stated, fails, in two ways. The claim is made for every indent
string: with the indent `"\n"` the dump of the leaf `a();` is `"\na();\n"`,
which is not one newline-terminated line that starts with the indent. And the
claim is made for every tree without newlines in its names, labels and
expression dumps: on `a(p = x, q = ..)`, with two argument names and one
argument expression, the dump indexes out of range and returns no lines. -/
theorem c16_dump_lines_counterexample :
    NoNewlineTree Expression.dump (call "a" [])
    ∧ ModuleInstanciation.dump Expression.dump "\n" (call "a" []) = .ok "\na();\n"
    ∧ (¬ ∃ ls : List String,
        "\na();\n" = unlines ls
        ∧ (∀ l ∈ ls, noNewline l ∧ ∃ rest : String, l = "\n" ++ rest)
        ∧ ls.length = (call "a" []).size + (call "a" []).blocks)
    ∧ NoNewlineTree Expression.dump shortArgsCall
    ∧ ModuleInstanciation.dump Expression.dump "" shortArgsCall
        = .error Fault.outOfRange := by
  have hnone : ∀ c : ModuleInstanciation Expression, c ∈ ([] : List _) →
      NoNewlineTree Expression.dump c := fun c hc => by simp at hc
  refine ⟨?_, rfl, ?_, ?_, rfl⟩
  · refine NoNewlineTree.mk _ _ _ _ _ (noNewline_of_all (by decide))
      (noNewline_of_all (by decide)) ?_ ?_ hnone
    · intro a ha; simp at ha
    · intro e he; simp at he
  · rintro ⟨ls, _, hl, hlen⟩
    have h1 : (call "a" []).size + (call "a" []).blocks = 1 := rfl
    rw [h1] at hlen
    match ls, hl, hlen with
    | [l], hl, _ =>
      obtain ⟨hnl, rest, hr⟩ := hl l (List.mem_singleton_self l)
      apply hnl '\n'
      · rw [hr, string_append_data]
        exact List.mem_append_left _ (by decide)
      · rfl
  · refine NoNewlineTree.mk _ _ _ _ _ (noNewline_of_all (by decide))
      (noNewline_of_all (by decide)) ?_ ?_ hnone
    · intro a ha
      simp only [List.mem_cons, List.mem_singleton, List.not_mem_nil, or_false] at ha
      rcases ha with e | e <;> rw [e] <;> exact noNewline_of_all (by decide)
    · intro e he
      simp only [List.mem_singleton] at he
      rw [he]
      exact noNewline_of_all (by decide)

/-- C16, amended. For every indent string that holds no newline and every
instantiation tree with `argnames` and `argexpr` of equal length at every node
whose construct names, labels, argument names and expression dumps hold no
newline, `ModuleInstanciation::dump` returns a sequence of newline-terminated
lines, none of which holds a newline and each of which starts with the indent.
The lines are those of the layout: a node with no children ends its header
line with `");"`; a node with exactly one child ends it with `")"` and is
followed by the lines of the child at indent plus one tab, without braces; a
node with two or more children ends it with `") {"`, is followed by the lines
of the children in order at indent plus one tab, and closes with the line of
indent and closing brace. The number of lines is the number of nodes plus the
number of nodes with two or more children. -/
theorem c16_dump_lines_amended {E : Type} (dumpE : E → String) (indent : String)
    (t : ModuleInstanciation E) (hi : noNewline indent)
    (hn : NoNewlineTree dumpE t) (hp : ParallelArgs t) :
    ∃ ls : List String,
      ModuleInstanciation.dump dumpE indent t = .ok (unlines ls)
      ∧ ls = Skeleton.lines indent (ModuleInstanciation.skeleton dumpE t)
      ∧ (∀ l ∈ ls, noNewline l ∧ ∃ rest : String, l = indent ++ rest)
      ∧ ls.length = t.size + t.blocks
      ∧ (∀ (ind label modname args : String),
          Skeleton.lines ind (Skeleton.node label modname args [])
            = [ind ++ Skeleton.header label modname ++ args ++ ");"])
      ∧ (∀ (ind label modname args : String) (child : Skeleton),
          Skeleton.lines ind (Skeleton.node label modname args [child])
            = (ind ++ Skeleton.header label modname ++ args ++ ")")
                :: Skeleton.lines (ind ++ "\t") child)
      ∧ (∀ (ind label modname args : String) (child child2 : Skeleton)
          (rest : List Skeleton),
          Skeleton.lines ind (Skeleton.node label modname args (child :: child2 :: rest))
            = (ind ++ Skeleton.header label modname ++ args ++ ") \x7b")
                :: (Skeleton.lines_of_children (ind ++ "\t") (child :: child2 :: rest)
                  ++ [ind ++ "\x7d"])) := by
  obtain ⟨s, hs⟩ := ModuleInstanciation.dump_in_range dumpE t indent hp
  have e := ModuleInstanciation.dump_eq_render dumpE t indent s hs
  refine ⟨Skeleton.lines indent (ModuleInstanciation.skeleton dumpE t), ?_, rfl, ?_, ?_,
    ?_, ?_, ?_⟩
  · rw [hs, e, Skeleton.render_eq_unlines]
  · intro l hl
    exact ⟨Skeleton.lines_noNewline _ indent hi
        (ModuleInstanciation.skeleton_lined dumpE t hn hp) l hl,
      Skeleton.lines_start_with_indent _ indent l hl⟩
  · rw [Skeleton.lines_length, ModuleInstanciation.skeleton_size,
      ModuleInstanciation.skeleton_blocks]
  · intro ind label modname args
    simp only [Skeleton.lines]
  · intro ind label modname args child
    simp only [Skeleton.lines]
  · intro ind label modname args child child2 rest
    simp only [Skeleton.lines]

/-- Witness for C16: `top: a(x) { b(); c() d(); }` at the indent of one tab
dumps to five lines, for four nodes of which one has two children. -/
theorem c16_dump_lines_amended_witness :
    ModuleInstanciation.dump Expression.dump "\t" blockCall
      = .ok (unlines ["\ttop: a(x) \x7b", "\t\tb();", "\t\tc()", "\t\t\td();", "\t\x7d"])
    ∧ blockCall.size + blockCall.blocks = 5 := by
  have hleaf : ∀ name : String, noNewline name →
      NoNewlineTree Expression.dump (call name []) ∧ ParallelArgs (call name []) := by
    intro name hname
    refine ⟨NoNewlineTree.mk _ _ _ _ _ hname (noNewline_of_all (by decide)) ?_ ?_ ?_,
      ParallelArgs.mk _ _ _ _ _ rfl ?_⟩
    · intro a ha; simp at ha
    · intro e he; simp at he
    · intro c hc; simp at hc
    · intro c hc; simp at hc
  have hb := hleaf "b" (noNewline_of_all (by decide))
  have hd := hleaf "d" (noNewline_of_all (by decide))
  have hc : NoNewlineTree Expression.dump (call "c" [call "d" []])
      ∧ ParallelArgs (call "c" [call "d" []]) := by
    refine ⟨NoNewlineTree.mk _ _ _ _ _ (noNewline_of_all (by decide))
      (noNewline_of_all (by decide)) ?_ ?_ ?_, ParallelArgs.mk _ _ _ _ _ rfl ?_⟩
    · intro a ha; simp at ha
    · intro e he; simp at he
    · intro c hc
      simp only [List.mem_singleton] at hc
      rw [hc]; exact hd.1
    · intro c hc
      simp only [List.mem_singleton] at hc
      rw [hc]; exact hd.2
  have hn : NoNewlineTree Expression.dump blockCall := by
    refine NoNewlineTree.mk _ _ _ _ _ (noNewline_of_all (by decide))
      (noNewline_of_all (by decide)) ?_ ?_ ?_
    · intro a ha
      simp only [List.mem_singleton] at ha
      rw [ha]; exact noNewline_of_all (by decide)
    · intro e he
      simp only [List.mem_singleton] at he
      rw [he]; exact noNewline_of_all (by decide)
    · intro c hmem
      simp only [List.mem_cons, List.mem_singleton, List.not_mem_nil, or_false] at hmem
      rcases hmem with e | e
      · rw [e]; exact hb.1
      · rw [e]; exact hc.1
  have hp : ParallelArgs blockCall := by
    refine ParallelArgs.mk _ _ _ _ _ rfl ?_
    intro c hmem
    simp only [List.mem_cons, List.mem_singleton, List.not_mem_nil, or_false] at hmem
    rcases hmem with e | e
    · rw [e]; exact hb.2
    · rw [e]; exact hc.2
  obtain ⟨ls, h1, h2, _, h4, _⟩ := c16_dump_lines_amended Expression.dump "\t" blockCall
    (noNewline_of_all (by decide)) hn hp
  have hls : ls = ["\ttop: a(x) \x7b", "\t\tb();", "\t\tc()", "\t\t\td();", "\t\x7d"] := by
    rw [h2]; rfl
  rw [hls] at h1 h4
  exact ⟨h1, h4.symm⟩

/-- C17, as stated, fails when the formal is assigned by more than one local.
The user construct `module (p) { p = 1; p = 2; a(); }` has the formal `p` and
the local assignment `p = 1`, and a call that passes `7` for `p` evaluates the
body in a scope where `p` is bound to `2`, not to the value `1` of that
assignment, whichever operand of the assignment at module.cc 112 runs first. -/
theorem c17_twice_assigned_counterexample :
    "p" ∈ twiceModule.argnames
    ∧ twiceModule.assignments_var.get? 0 = some "p"
    ∧ twiceModule.assignments_expr.get? 0 = some (Expression.const (Value.number 1))
    ∧ (∀ (s : Store Expression Unit) (c : Nat),
        Expression.evaluate (Expression.const (Value.number 1)) s c = Value.number 1)
    ∧ ∀ entry_first : Bool, ∃ scope : Store Expression Unit,
        Module.scope Expression.evaluate entry_first twiceModule [emptyRoot] 0 [""]
            [Value.number 7]
          = .ok scope
        ∧ Module.evaluate Expression.evaluate entry_first
            (ModuleInstanciation.evaluate Expression.evaluate entry_first [] 1) twiceModule
            [emptyRoot] 0 [""] [Value.number 7] []
          = (match evaluate_children
              (ModuleInstanciation.evaluate Expression.evaluate entry_first [] 1)
              twiceModule.children scope 1 with
            | .ok (nodes, st5) => .ok (AbstractNode.mk (nodes ++ []), st5.take 1)
            | .error e => .error e)
        ∧ Context.lookup_variable scope 1 "p" = Value.number 2
        ∧ Context.lookup_variable scope 1 "p" ≠ Value.number 1 := by
  have h : Context.lookup_variable twiceScope 1 "p" = Value.number 2 := rfl
  have hne : Context.lookup_variable twiceScope 1 "p" ≠ Value.number 1 := by
    intro h1
    rw [h] at h1
    simp at h1
  refine ⟨by decide, rfl, rfl, fun _ _ => rfl, ?_⟩
  intro entry_first
  cases entry_first with
  | false => exact ⟨twiceScope, rfl, rfl, rfl, hne⟩
  | true => exact ⟨twiceScope, rfl, rfl, rfl, hne⟩

/-- C17, amended. In `Module::evaluate` a local assignment overrides a formal
parameter of the same name: local assignments are written into the same
variable map after formal binding, so for every user construct with an
initializer for every local that has a formal `p` and a local assignment
`p = e` after which `p` is not assigned again, and for every call (whatever
value it passes for `p`), the body instantiations are evaluated in a scope
where `p` is bound to the value that `e` has when its assignment runs, in the
scope after formal binding and the earlier locals. -/
theorem c17_local_overrides_formal_amended {E F : Type}
    (ev : E → Store E F → Nat → Value)
    (entry_first : Bool) (reg : QHash (AbstractModule E F)) (fuel : Nat)
    (m : Module E F (AbstractModule E F)) (st : Store E F) (ctx : Nat)
    (call_argnames : List String) (call_argvalues : List Value)
    (supplied : List AbstractNode) (i : Nat) (p : String) (e : E)
    (hformal : p ∈ m.argnames)
    (hx : m.assignments_var.get? i = some p) (he : m.assignments_expr.get? i = some e)
    (hlast : ∀ j, i < j → m.assignments_var.get? j ≠ some p)
    (hinit : m.assignments_var.length ≤ m.assignments_expr.length) :
    ∃ (si scope : Store E F) (y : Context E F),
      Module.scope_before_local ev entry_first m st ctx call_argnames call_argvalues i = .ok si
      ∧ Module.scope ev entry_first m st ctx call_argnames call_argvalues = .ok scope
      ∧ scope = st ++ [y]
      ∧ QHash.value y.variables_ p = some (ev e si st.length)
      ∧ Context.lookup_variable scope st.length p = ev e si st.length
      ∧ Module.evaluate ev entry_first (ModuleInstanciation.evaluate ev entry_first reg fuel) m
          st ctx
          call_argnames call_argvalues supplied
        = (match evaluate_children (ModuleInstanciation.evaluate ev entry_first reg fuel) m.children
            scope st.length with
          | .ok (nodes, st5) => .ok (AbstractNode.mk (nodes ++ supplied), st5.take st.length)
          | .error err => .error err) := by
  obtain ⟨si, hsi⟩ := Module.scope_before_local_ok ev entry_first m st ctx call_argnames
    call_argvalues i hinit
  obtain ⟨scope, hscope⟩ := Module.assign_ok ev entry_first st.length m.assignments_var
    m.assignments_expr (Module.formals_scope ev m st ctx call_argnames call_argvalues) hinit
  have hscope2 : Module.scope ev entry_first m st ctx call_argnames call_argvalues
      = .ok scope := hscope
  obtain ⟨y, hy, hval⟩ := Module.scope_last_assignment ev entry_first m st ctx call_argnames
    call_argvalues i p e si scope hx he hlast hsi hscope2
  rw [Module.initializer_scope_of_formal ev entry_first m st ctx call_argnames call_argvalues
    i p si hformal hsi] at hval
  refine ⟨si, scope, y, hsi, hscope2, hy, hval, ?_, ?_⟩
  · rw [hy]
    exact Context.lookup_variable_top st y p _ hval
  · exact Module.evaluate_in_scope ev entry_first _ m st ctx call_argnames call_argvalues supplied
      scope hscope2

/-- Witness for C17: `module (p) { p = p + 1; a(); }` called with `7` for `p`
evaluates its body in a scope where `p` is bound to `8`. -/
theorem c17_local_overrides_formal_amended_witness :
    ∃ scope : Store Expression Unit,
      Module.scope Expression.evaluate false bumpModule [emptyRoot] 0 [""] [Value.number 7]
        = .ok scope
      ∧ Context.lookup_variable scope 1 "p" = Value.number 8
      ∧ Module.evaluate Expression.evaluate false
          (ModuleInstanciation.evaluate Expression.evaluate false [] 1) bumpModule
          [emptyRoot] 0 [""] [Value.number 7] []
        = .ok (AbstractNode.mk [leaf], [emptyRoot]) := by
  obtain ⟨si, scope, y, hsi, hscope, _, _, hlook, _⟩ :=
    c17_local_overrides_formal_amended Expression.evaluate false [] 1 bumpModule [emptyRoot] 0
      [""] [Value.number 7] [] 0 "p"
      (Expression.add (Expression.var "p") (Expression.const (Value.number 1)))
      (by decide) rfl rfl
      (fun j hj => by
        have hj1 : bumpModule.assignments_var.length ≤ j := hj
        rw [List.get?_eq_none.mpr hj1]
        simp)
      (Nat.le_refl _)
  have hsi0 : Module.scope_before_local Expression.evaluate false bumpModule [emptyRoot] 0 [""]
      [Value.number 7] 0
      = .ok [emptyRoot, { parent := some 0, variables_ := [("p", Value.number 7)],
                          functions_p := some [], modules_p := some [] }] := rfl
  rw [hsi0, Except.ok.injEq] at hsi
  rw [← hsi] at hlook
  exact ⟨scope, hscope, hlook, rfl⟩

end OpenSCAD
